import Mathlib

/-!
# Buffer pool manager and LRU replacer of the BusTub storage core

A shallow embedding of `src/buffer manager/lru_replacer.cpp`,
`src/buffer manager/buffer_pool_manager.cpp`,
`src/B+ Tree/src/storage/index/index_iterator.cpp` and
`src/B+ Tree/src/storage/page/b_plus_tree_internal_page.cpp`.

Modelling conventions.
* `frame_id_t` indexes the frame array, so it is a natural number; `page_id_t`
  and the pin count are C++ `int`s and are integers here.  Signed overflow of a
  pin count is undefined behaviour in C++ and is outside the model.
* `std::list` is a `List` (front = head); `std::unordered_map` is an association
  list with pairwise distinct keys, whose order carries no meaning.
* A returned `Page *` is the index of the frame it points to; `nullptr` is `none`.
* The buffer pool mutex and the page latches serialise calls and do not change
  the data; every function below is one atomic call.
-/

namespace bustub

abbrev page_id_t := Int

abbrev frame_id_t := Nat

/-- Modelled from the spec: "one sentinel value INVALID denotes absence".  The
header `common/config.h` that fixes the constant is not among the sources; the
value -1 is the one BusTub uses and no general theorem depends on it. -/
def INVALID_PAGE_ID : page_id_t := -1

/-- Modelled from the spec: a page frame is "a fixed-size byte buffer (typically
4 KiB)"; the constant lives in `common/config.h`, which is not among the sources. -/
def PAGE_SIZE : Nat := 4096

/-- The bytes of a frame or of a disk block. -/
abbrev PageData := List Nat

/-- The all-zero block that `Page::ResetMemory` writes (`memset(data_, 0, PAGE_SIZE)`). -/
def zeroData : PageData := List.replicate PAGE_SIZE 0

/-- Modelled from the spec: the `Page` class (`storage/page/page.h`) is not among
the sources.  A frame is its bytes "plus metadata: owning PageId, pin count,
dirty flag"; the latch carries no data. -/
structure Page where
  data : PageData
  page_id : page_id_t
  pin_count : Int
  is_dirty : Bool
deriving DecidableEq

/-- Modelled from the spec: a frame of a newly constructed pool holds no page:
zeroed bytes, page id INVALID, pin count 0, clean. -/
def Page.empty : Page :=
  { data := zeroData, page_id := INVALID_PAGE_ID, pin_count := 0, is_dirty := false }

/-! ## LRU replacer (`lru_replacer.h`, `lru_replacer.cpp`) -/

/-- The two private members of `LRUReplacer` (lru_replacer.h:63-66). -/
structure LRUReplacer where
  LRU : List frame_id_t
  number_pages : Nat
deriving DecidableEq

namespace LRUReplacer

/-- The constructor `LRUReplacer::LRUReplacer(num_pages)`, lru_replacer.cpp:22-27. -/
def create (num_pages : Nat) : LRUReplacer :=
  { LRU := [], number_pages := num_pages }

/-- The method `LRUReplacer::Victim`, lru_replacer.cpp:34-50: the out parameter
and the boolean result are merged into an `Option`. -/
def Victim (r : LRUReplacer) : Option frame_id_t × LRUReplacer :=
  match r.LRU with
  | [] => (none, r)
  | f :: rest => (some f, { r with LRU := rest })

/-- The method `LRUReplacer::Pin`, lru_replacer.cpp:56-67; `std::list::remove`
deletes every element equal to the argument. -/
def Pin (r : LRUReplacer) (frame_id : frame_id_t) : LRUReplacer :=
  if frame_id ∈ r.LRU then
    { r with LRU := r.LRU.filter (fun g => decide (g ≠ frame_id)) }
  else r

/-- The method `LRUReplacer::Unpin`, lru_replacer.cpp:73-89. -/
def Unpin (r : LRUReplacer) (frame_id : frame_id_t) : LRUReplacer :=
  if r.LRU.length < r.number_pages then
    if frame_id ∈ r.LRU then r
    else { r with LRU := r.LRU ++ [frame_id] }
  else r

/-- The method `LRUReplacer::Size`, lru_replacer.cpp:91-94. -/
def Size (r : LRUReplacer) : Nat := r.LRU.length

end LRUReplacer

/-! ## Block I/O (external collaborator) -/

/-- Modelled from the spec: the `DiskManager` class is not among the sources.
Its contract (spec §6): `read_page`/`write_page` move one fixed-size block,
`allocate_page` "returns a fresh id never seen before", `deallocate_page` "may
reuse later".  The state keeps the stored blocks and the log of ids handed out
and of ids given back. -/
structure DiskManager where
  store : page_id_t → PageData
  allocated : List page_id_t
  deallocated : List page_id_t

namespace DiskManager

/-- Modelled from the spec: `write_page(PageId, buffer)` stores the block under the id. -/
def WritePage (d : DiskManager) (page_id : page_id_t) (data : PageData) : DiskManager :=
  { d with store := fun q => if q = page_id then data else d.store q }

/-- Modelled from the spec: `read_page(PageId, buffer)` yields the block stored under the id. -/
def ReadPage (d : DiskManager) (page_id : page_id_t) : PageData := d.store page_id

/-- Modelled from the spec: `allocate_page() → PageId`.  Which id comes back is the
allocator's choice, so the id is an input (`answer`) of the model; that it was
"never seen before" is a condition on runs (`FreshAllocs`). -/
def AllocatePage (d : DiskManager) (answer : page_id_t) : page_id_t × DiskManager :=
  (answer, { d with allocated := d.allocated ++ [answer] })

/-- Modelled from the spec: `deallocate_page(PageId)` takes the id back. -/
def DeallocatePage (d : DiskManager) (page_id : page_id_t) : DiskManager :=
  { d with deallocated := d.deallocated ++ [page_id] }

end DiskManager

/-! ## Page table (`std::unordered_map<page_id_t, frame_id_t>`) -/

abbrev PageTable := List (page_id_t × frame_id_t)

/-- The lookup `page_table_.find(k)`, with `end()` as `none`. -/
def ptFind : PageTable → page_id_t → Option frame_id_t
  | [], _ => none
  | (k', v) :: rest, k => if k' = k then some v else ptFind rest k

/-- The call `page_table_.erase(k)`. -/
def ptErase (t : PageTable) (k : page_id_t) : PageTable :=
  t.filter (fun e => decide (e.1 ≠ k))

/-- The assignment `page_table_[k] = v`: insert, or overwrite the entry of `k`. -/
def ptAssign (t : PageTable) (k : page_id_t) (v : frame_id_t) : PageTable :=
  (k, v) :: ptErase t k

/-! ## Buffer pool manager (`buffer_pool_manager.cpp`) -/

/-- The members of `BufferPoolManager`; `disk_manager` is the state of the
object behind the `disk_manager_` pointer. -/
structure BufferPoolManager where
  pool_size : Nat
  pages : List Page
  page_table : PageTable
  free_list : List frame_id_t
  replacer : LRUReplacer
  disk_manager : DiskManager

namespace BufferPoolManager

/-- The read `pages_[f]`. -/
def pageAt (s : BufferPoolManager) (f : frame_id_t) : Page := s.pages.getD f Page.empty

/-- The write `pages_[f] = pg` (all member updates of one frame at once). -/
def setPage (s : BufferPoolManager) (f : frame_id_t) (pg : Page) : BufferPoolManager :=
  { s with pages := s.pages.set f pg }

/-- The constructor, buffer_pool_manager.cpp:21-31: every frame starts in the
free list, in index order. -/
def create (pool_size : Nat) (disk_manager : DiskManager) : BufferPoolManager :=
  { pool_size := pool_size
    pages := List.replicate pool_size Page.empty
    page_table := []
    free_list := List.range pool_size
    replacer := LRUReplacer.create pool_size
    disk_manager := disk_manager }

/-- Victim selection, buffer_pool_manager.cpp:51-66 in `FetchPageImpl`, repeated
verbatim as lines 138-153 of `NewPageImpl`: the front of the free list if there
is one, else the replacer's victim, written back when dirty. -/
def pickFrame (s : BufferPoolManager) : Option frame_id_t × BufferPoolManager :=
  match s.free_list with
  | f :: rest => (some f, { s with free_list := rest })
  | [] =>
    match s.replacer.Victim with
    | (none, r) => (none, { s with replacer := r })
    | (some f, r) =>
      let s1 : BufferPoolManager := { s with replacer := r }
      if (s1.pageAt f).is_dirty then
        (some f, { s1 with disk_manager :=
            s1.disk_manager.WritePage (s1.pageAt f).page_id (s1.pageAt f).data })
      else (some f, s1)

/-- The method `FetchPageImpl`, buffer_pool_manager.cpp:38-86. -/
def FetchPageImpl (s : BufferPoolManager) (page_id : page_id_t) :
    Option frame_id_t × BufferPoolManager :=
  match ptFind s.page_table page_id with
  | some frame_id =>
    let pg := s.pageAt frame_id
    let s1 := s.setPage frame_id { pg with pin_count := pg.pin_count + 1 }
    (some frame_id, { s1 with replacer := s1.replacer.Pin frame_id })
  | none =>
    match s.pickFrame with
    | (none, s1) => (none, s1)
    | (some frame_to_evict, s1) =>
      let old_id := (s1.pageAt frame_to_evict).page_id
      let s2 : BufferPoolManager :=
        if ptFind s1.page_table old_id ≠ none then
          { s1 with page_table := ptErase s1.page_table old_id }
        else s1
      let s3 : BufferPoolManager :=
        { s2 with page_table := ptAssign s2.page_table page_id frame_to_evict }
      let s4 := s3.setPage frame_to_evict
        { data := zeroData, page_id := page_id, pin_count := 1, is_dirty := false }
      let s5 : BufferPoolManager := { s4 with replacer := s4.replacer.Pin frame_to_evict }
      let s6 := s5.setPage frame_to_evict
        { s5.pageAt frame_to_evict with data := s5.disk_manager.ReadPage page_id }
      (some frame_to_evict, s6)

/-- The method `UnpinPageImpl`, buffer_pool_manager.cpp:88-105. -/
def UnpinPageImpl (s : BufferPoolManager) (page_id : page_id_t) (is_dirty : Bool) :
    Bool × BufferPoolManager :=
  match ptFind s.page_table page_id with
  | none => (false, s)
  | some frame_id =>
    if (s.pageAt frame_id).pin_count ≤ 0 then (false, s)
    else
      let pg := s.pageAt frame_id
      let s1 := s.setPage frame_id { pg with pin_count := pg.pin_count - 1 }
      let s2 :=
        if ¬ (s1.pageAt frame_id).is_dirty then
          s1.setPage frame_id { s1.pageAt frame_id with is_dirty := is_dirty }
        else s1
      let s3 : BufferPoolManager :=
        if (s2.pageAt frame_id).pin_count = 0 then
          { s2 with replacer := s2.replacer.Unpin frame_id }
        else s2
      (true, s3)

/-- The method `FlushPageImpl`, buffer_pool_manager.cpp:107-118. -/
def FlushPageImpl (s : BufferPoolManager) (page_id : page_id_t) : Bool × BufferPoolManager :=
  match ptFind s.page_table page_id with
  | some frame_id =>
    let s1 : BufferPoolManager :=
      { s with disk_manager := s.disk_manager.WritePage page_id (s.pageAt frame_id).data }
    let s2 := s1.setPage frame_id { s1.pageAt frame_id with is_dirty := false }
    let s3 := s2.setPage frame_id { s2.pageAt frame_id with pin_count := 0 }
    (true, s3)
  | none => (false, s)

/-- The method `NewPageImpl`, buffer_pool_manager.cpp:120-173.  The result is the
returned frame, the value left in the out parameter `*page_id`, and the new
state; `answer` is the id `AllocatePage` hands out if it is called. -/
def NewPageImpl (s : BufferPoolManager) (answer : page_id_t) :
    Option frame_id_t × page_id_t × BufferPoolManager :=
  match s.pickFrame with
  | (none, s1) => (none, INVALID_PAGE_ID, s1)
  | (some frame_to_evict, s1) =>
    let alloc := s1.disk_manager.AllocatePage answer
    let new_page_id := alloc.1
    let s1a : BufferPoolManager := { s1 with disk_manager := alloc.2 }
    let old_id := (s1a.pageAt frame_to_evict).page_id
    let s2 : BufferPoolManager :=
      if ptFind s1a.page_table old_id ≠ none then
        { s1a with page_table := ptErase s1a.page_table old_id }
      else s1a
    let s3 : BufferPoolManager :=
      { s2 with page_table := ptAssign s2.page_table new_page_id frame_to_evict }
    let s4 := s3.setPage frame_to_evict
      { data := zeroData, page_id := new_page_id, pin_count := 1, is_dirty := false }
    let s5 : BufferPoolManager := { s4 with replacer := s4.replacer.Pin frame_to_evict }
    (some frame_to_evict, new_page_id, s5)

/-- The method `DeletePageImpl`, buffer_pool_manager.cpp:175-203. -/
def DeletePageImpl (s : BufferPoolManager) (page_id : page_id_t) : Bool × BufferPoolManager :=
  match ptFind s.page_table page_id with
  | none => (true, s)
  | some frame =>
    if (s.pageAt frame).pin_count > 0 then (false, s)
    else
      let s1 : BufferPoolManager :=
        if (s.pageAt frame).is_dirty then
          { s with disk_manager :=
              s.disk_manager.WritePage (s.pageAt frame).page_id (s.pageAt frame).data }
        else s
      let s2 : BufferPoolManager :=
        { s1 with page_table := ptErase s1.page_table (s1.pageAt frame).page_id }
      let s3 := s2.setPage frame
        { data := zeroData, page_id := INVALID_PAGE_ID, pin_count := 0, is_dirty := false }
      let s4 : BufferPoolManager := { s3 with replacer := s3.replacer.Pin frame }
      let s5 : BufferPoolManager := { s4 with free_list := s4.free_list ++ [frame] }
      (true, s5)

end BufferPoolManager

/-! ## Runs of the buffer pool -/

/-- One call on the pool.  `new_page` carries the id the allocator answers with. -/
inductive Op where
  | fetch (page_id : page_id_t)
  | unpin (page_id : page_id_t) (is_dirty : Bool)
  | new_page (answer : page_id_t)
  | flush (page_id : page_id_t)
  | delete (page_id : page_id_t)
deriving DecidableEq

/-- The page id an operation mentions. -/
def Op.pageId : Op → page_id_t
  | .fetch p => p
  | .unpin p _ => p
  | .new_page a => a
  | .flush p => p
  | .delete p => p

/-- The state after one call (results dropped). -/
def step (s : BufferPoolManager) : Op → BufferPoolManager
  | .fetch p => (s.FetchPageImpl p).2
  | .unpin p d => (s.UnpinPageImpl p d).2
  | .new_page a => (s.NewPageImpl a).2.2
  | .flush p => (s.FlushPageImpl p).2
  | .delete p => (s.DeletePageImpl p).2

/-- The state after a sequence of calls. -/
def run (s : BufferPoolManager) (ops : List Op) : BufferPoolManager := ops.foldl step s

/-- The allocator contract along a run: every id `allocate_page` answers with
was never seen before, where `seen` holds the ids met so far. -/
def FreshFrom : List page_id_t → List Op → Prop
  | _, [] => True
  | seen, .new_page a :: rest => a ∉ seen ∧ FreshFrom (a :: seen) rest
  | seen, op :: rest => FreshFrom (op.pageId :: seen) rest

/-- The ids seen once the calls `ops` have been made after `seen`. -/
def seenAfter (seen : List page_id_t) (ops : List Op) : List page_id_t :=
  ops.foldl (fun acc op => op.pageId :: acc) seen

/-- The allocator contract for a run that starts from a new pool: at the start
only the sentinel has been seen (it is the page id of every empty frame). -/
def FreshAllocs (ops : List Op) : Prop := FreshFrom [INVALID_PAGE_ID] ops

/-- No call of the run fetches the sentinel id. -/
def NoInvalidFetch (ops : List Op) : Prop := Op.fetch INVALID_PAGE_ID ∉ ops

/-- The frame partition of claim C1: every frame of the pool is in the free list
and in no page-table entry, or outside the free list and the value of exactly one
entry; and the two sizes add up to the pool size. -/
def FramePartition (n : Nat) (s : BufferPoolManager) : Prop :=
  (∀ f, f < n →
    (f ∈ s.free_list ∧ s.page_table.countP (fun e => decide (e.2 = f)) = 0) ∨
    (f ∉ s.free_list ∧ s.page_table.countP (fun e => decide (e.2 = f)) = 1)) ∧
  s.free_list.length + s.page_table.length = n

/-! ## Leaf iterator (`index_iterator.cpp`) -/

/-- Modelled from the spec: the leaf page class (`b_plus_tree_leaf_page`) is not
among the sources.  The iterator only reads a leaf through three accessors, which
are functions of the frame bytes: the size, the `next` page id, and the (key, RID)
pair at an index. -/
structure LeafAccess (M : Type) where
  GetSize : PageData → Int
  GetNextPageId : PageData → page_id_t
  GetItem : PageData → Int → M

/-- The data members of `IndexIterator` that the constructor
(index_iterator.cpp:11-15) sets, besides the pool pointer. -/
structure IndexIterator where
  current_page_id : page_id_t
  index : Int
deriving DecidableEq

namespace IndexIterator

/-- The method `IndexIterator::isEnd`, index_iterator.cpp:25. -/
def isEnd (it : IndexIterator) : Bool := decide (it.current_page_id = INVALID_PAGE_ID)

/-- The method `IndexIterator::operator*`, index_iterator.cpp:38-46: the pair read
and the pool afterwards.  `FetchPage` is the public wrapper of `FetchPageImpl`;
a null page makes `page->RLatch()` undefined, which is `none` here. -/
def operator_star {M : Type} (L : LeafAccess M) (it : IndexIterator) (bpm : BufferPoolManager) :
    Option (M × BufferPoolManager) :=
  match bpm.FetchPageImpl it.current_page_id with
  | (none, _) => none
  | (some page, b1) =>
    let val := L.GetItem (b1.pageAt page).data it.index
    let b2 := (b1.UnpinPageImpl (b1.pageAt page).page_id false).2
    some (val, b2)

/-- The method `IndexIterator::operator++`, index_iterator.cpp:49-61: the iterator
and the pool afterwards. -/
def operator_inc {M : Type} (L : LeafAccess M) (it : IndexIterator) (bpm : BufferPoolManager) :
    Option (IndexIterator × BufferPoolManager) :=
  let it1 : IndexIterator := { it with index := it.index + 1 }
  match bpm.FetchPageImpl it1.current_page_id with
  | (none, _) => none
  | (some page, b1) =>
    let leaf := (b1.pageAt page).data
    let it2 : IndexIterator :=
      if it1.index ≥ L.GetSize leaf then
        { current_page_id := L.GetNextPageId leaf, index := 0 }
      else it1
    let b2 := (b1.UnpinPageImpl (b1.pageAt page).page_id false).2
    some (it2, b2)

end IndexIterator

/-! ## Concrete inputs for the examples -/

/-- A disk on which every block is zero and nothing has been allocated. -/
def blankDisk : DiskManager :=
  { store := fun _ => zeroData, allocated := [], deallocated := [] }

/-- The pool of three frames after fetching three distinct pages `a`, `b`, `c`
from a new pool (closed form of the run, see `run_three_fetches`). -/
def threePinned (dm : DiskManager) (a b c : page_id_t) : BufferPoolManager :=
  { pool_size := 3
    pages :=
      [{ data := dm.store a, page_id := a, pin_count := 1, is_dirty := false },
       { data := dm.store b, page_id := b, pin_count := 1, is_dirty := false },
       { data := dm.store c, page_id := c, pin_count := 1, is_dirty := false }]
    page_table :=
      ptAssign (ptErase (ptAssign (ptErase (ptAssign [] a 0) INVALID_PAGE_ID) b 1)
        INVALID_PAGE_ID) c 2
    free_list := []
    replacer := { LRU := [], number_pages := 3 }
    disk_manager := dm }

/-! ## Predicates used by the proofs -/

namespace BufferPoolManager

/-- The common tail of a page-table miss (buffer_pool_manager.cpp:69-82 and
157-166) in closed form: frame `f`, already taken by `pickFrame`, is handed to
page `page_id` with bytes `data`, the disk manager ending as `dm`. -/
def install (s : BufferPoolManager) (f : frame_id_t) (page_id : page_id_t) (data : PageData)
    (dm : DiskManager) : BufferPoolManager :=
  { s with
    page_table := ptAssign (ptErase s.page_table (s.pageAt f).page_id) page_id f
    pages := s.pages.set f { data := data, page_id := page_id, pin_count := 1, is_dirty := false }
    replacer := s.replacer.Pin f
    disk_manager := dm }

/-- Consistency that every run from a new pool of `n` frames keeps, whatever the
arguments: cached frames carry the id that maps to them and are not free; free
and evictable frames are unpinned; the lists are duplicate-free. -/
structure WF (n : Nat) (s : BufferPoolManager) : Prop where
  pages_len : s.pages.length = n
  cap : s.replacer.number_pages = n
  pt : ∀ k f, ptFind s.page_table k = some f →
    f < n ∧ (s.pageAt f).page_id = k ∧ f ∉ s.free_list
  free_nodup : s.free_list.Nodup
  free : ∀ f, f ∈ s.free_list →
    f < n ∧ (s.pageAt f).pin_count = 0 ∧ (s.pageAt f).is_dirty = false
  lru_nodup : s.replacer.LRU.Nodup
  lru : ∀ f, f ∈ s.replacer.LRU → f < n ∧ (s.pageAt f).pin_count = 0 ∧ f ∉ s.free_list
  pin_nonneg : ∀ f, 0 ≤ (s.pageAt f).pin_count

/-- What runs with a fresh allocator and no fetch of the sentinel keep in
addition: the page table has no key twice, the sentinel is never a key, free
frames carry it, and every frame is free or cached. -/
structure Tight (n : Nat) (s : BufferPoolManager) : Prop where
  keys_nodup : (s.page_table.map Prod.fst).Nodup
  free_invalid : ∀ f, f ∈ s.free_list → (s.pageAt f).page_id = INVALID_PAGE_ID
  no_invalid : ptFind s.page_table INVALID_PAGE_ID = none
  cover : ∀ f, f < n → f ∈ s.free_list ∨ ∃ k, ptFind s.page_table k = some f

/-- Every key of the page table is among the ids seen so far. -/
def KeysSeen (seen : List page_id_t) (s : BufferPoolManager) : Prop :=
  ∀ k f, ptFind s.page_table k = some f → k ∈ seen

end BufferPoolManager

end bustub

namespace bustub

/-! ## Runs of the replacer alone -/

/-- One call on the replacer. -/
inductive ReplacerOp where
  | victim
  | pin (frame_id : frame_id_t)
  | unpin (frame_id : frame_id_t)
deriving DecidableEq

namespace LRUReplacer

/-- The results of the `Victim` calls of a sequence of calls, in order, and the
replacer afterwards. -/
def exec (r : LRUReplacer) : List ReplacerOp → List (Option frame_id_t) × LRUReplacer
  | [] => ([], r)
  | ReplacerOp.victim :: rest =>
    ((r.Victim.1 :: (exec r.Victim.2 rest).1), (exec r.Victim.2 rest).2)
  | ReplacerOp.pin f :: rest => exec (r.Pin f) rest
  | ReplacerOp.unpin f :: rest => exec (r.Unpin f) rest

/-- The results of `k` successive `Victim` calls. -/
def drain : Nat → LRUReplacer → List (Option frame_id_t)
  | 0, _ => []
  | k + 1, r => r.Victim.1 :: drain k r.Victim.2

end LRUReplacer

/-- The replacer as the spec words it (§4.1): a set of eligible frames, each with
the time of the unpin call that admitted it, and a capacity.  The order of the
list carries no meaning. -/
structure FifoSpec where
  admitted : List (frame_id_t × Nat)
  capacity : Nat

namespace FifoSpec

/-- The spec's new replacer: no frame is eligible. -/
def create (num_pages : Nat) : FifoSpec := { admitted := [], capacity := num_pages }

/-- The entry admitted earliest, if any. -/
def oldest : List (frame_id_t × Nat) → Option (frame_id_t × Nat)
  | [] => none
  | e :: rest =>
    match oldest rest with
    | none => some e
    | some e2 => if e.2 < e2.2 then some e else some e2

/-- Spec: "`victim() → FrameId?`: removes and returns the oldest eligible frame, or
reports empty". -/
def victim (s : FifoSpec) : Option frame_id_t × FifoSpec :=
  match oldest s.admitted with
  | none => (none, s)
  | some e => (some e.1, { s with admitted := s.admitted.filter (fun x => decide (x.1 ≠ e.1)) })

/-- Spec: "`pin(FrameId)`: remove the frame from the eligible set; no-op if absent". -/
def pin (s : FifoSpec) (f : frame_id_t) : FifoSpec :=
  { s with admitted := s.admitted.filter (fun x => decide (x.1 ≠ f)) }

/-- Spec: "`unpin(FrameId)`: append to the eligible set if not already present and
the set has room; no-op otherwise"; `now` is the time of the call. -/
def unpin (s : FifoSpec) (now : Nat) (f : frame_id_t) : FifoSpec :=
  if f ∈ s.admitted.map Prod.fst then s
  else if s.admitted.length < s.capacity then { s with admitted := (f, now) :: s.admitted }
  else s

/-- The results of the victim calls of a sequence of calls that starts at time
`now`, and the spec state afterwards; each call takes one unit of time. -/
def exec (now : Nat) (s : FifoSpec) : List ReplacerOp → List (Option frame_id_t) × FifoSpec
  | [] => ([], s)
  | ReplacerOp.victim :: rest =>
    ((s.victim.1 :: (exec (now + 1) s.victim.2 rest).1), (exec (now + 1) s.victim.2 rest).2)
  | ReplacerOp.pin f :: rest => exec (now + 1) (s.pin f) rest
  | ReplacerOp.unpin f :: rest => exec (now + 1) (s.unpin now f) rest

end FifoSpec

/-- The relation between the list of the code and the set of the spec at time
`now`: same capacity, the list holds the eligible frames in order of admission
(oldest first), without repetition, and every recorded time is in the past. -/
structure FifoSim (now : Nat) (r : LRUReplacer) (s : FifoSpec) : Prop where
  cap : r.number_pages = s.capacity
  frames : s.admitted.reverse.map Prod.fst = r.LRU
  sorted : s.admitted.Pairwise (fun a b => b.2 < a.2)
  past : ∀ e, e ∈ s.admitted → e.2 < now
  nodup : r.LRU.Nodup

end bustub

namespace bustub

/-! ## B+ tree internal page (`b_plus_tree_internal_page.cpp`)

The node the methods run on (`this`) and the recipient are typed views of two
pinned frames that the caller holds; their children are reached through the
buffer pool.  The two nodes are kept as values apart from the pool, so a child
pointer that names one of the two nodes themselves is outside the model.
`array[i]` is an `int`-indexed slot, so the array is a function on
the integers: slots at positions at or above the size exist and may hold stale
entries.  Loops are written as recursion on their number of iterations.
`BUSTUB_ASSERT` is fatal (spec §7): a failed assertion, like a null page from the
pool, ends the call without a result (`none`). -/

/-- Modelled from the spec: "Comparator (consumed). A total order over keys
returning negative/zero/positive"; the comparator classes are not among the
sources.  `comparator a b < 0` reads `a < b`. -/
structure ComparatorLaws {K : Type} (comparator : K → K → Int) : Prop where
  refl : ∀ a, comparator a a = 0
  flip : ∀ a b, comparator a b < 0 ↔ 0 < comparator b a
  lt_trans : ∀ a b c, comparator a b < 0 → comparator b c < 0 → comparator a c < 0

/-- Modelled from the spec: the node header ("current size, maximum size, this
page's id, parent page id") whose accessors live in `b_plus_tree_page.cpp`, not
among the sources, followed by the entry array of (key, child page id) pairs. -/
structure BPlusTreeInternalPage (K : Type) where
  size : Int
  max_size : Int
  page_id : page_id_t
  parent_page_id : page_id_t
  array : Int → K × page_id_t

/-- Modelled from the spec: the header fields of a child page as read and written
through its frame bytes (`GetPageId`, `GetParentPageId`, `SetParentPageId` of
`b_plus_tree_page.cpp`). -/
structure HeaderAccess where
  GetPageId : PageData → page_id_t
  GetParentPageId : PageData → page_id_t
  SetParentPageId : PageData → page_id_t → PageData

/-- Modelled from the spec: the page id and the parent page id are two separate
fields of the header: writing the parent id is read back and leaves the page id. -/
structure HeaderLaws (H : HeaderAccess) : Prop where
  parent_set : ∀ d p, H.GetParentPageId (H.SetParentPageId d p) = p
  id_set : ∀ d p, H.GetPageId (H.SetParentPageId d p) = H.GetPageId d

/-- The idiom that re-parents one child, which every copy routine repeats
(b_plus_tree_internal_page.cpp:167-170, 212-215, 219-221, 257-260, 291-294):
fetch the child, `SetParentPageId` in its frame, unpin it dirty under the page id
its header gives. -/
def adoptChild (H : HeaderAccess) (bpm : BufferPoolManager) (child new_parent : page_id_t) :
    Option BufferPoolManager :=
  match bpm.FetchPageImpl child with
  | (none, _) => none
  | (some page, b1) =>
    let b2 := b1.setPage page
      { b1.pageAt page with data := H.SetParentPageId (b1.pageAt page).data new_parent }
    some (b2.UnpinPageImpl (H.GetPageId (b2.pageAt page).data) true).2

namespace BPlusTreeInternalPage

variable {K : Type}

/-- The method `KeyAt`, lines 41-44. -/
def KeyAt (node : BPlusTreeInternalPage K) (index : Int) : K := (node.array index).1

/-- The method `SetKeyAt`, line 50. -/
def SetKeyAt (node : BPlusTreeInternalPage K) (index : Int) (key : K) :
    BPlusTreeInternalPage K :=
  { node with array := Function.update node.array index (key, (node.array index).2) }

/-- The method `ValueAt`, line 71. -/
def ValueAt (node : BPlusTreeInternalPage K) (index : Int) : page_id_t := (node.array index).2

/-- The loop of `ValueIndex` (lines 58-62) with `k` iterations left at `cur`. -/
def ValueIndexLoop (node : BPlusTreeInternalPage K) (value : page_id_t) : Nat → Int → Int
  | 0, _ => -1
  | k + 1, cur => if value = (node.array cur).2 then cur else ValueIndexLoop node value k (cur + 1)

/-- The method `ValueIndex`, lines 57-65: `cur` runs from 0 while `cur < GetSize() + 1`. -/
def ValueIndex (node : BPlusTreeInternalPage K) (value : page_id_t) : Int :=
  node.ValueIndexLoop value (node.size + 1).toNat 0

/-- The loop of `Lookup` (lines 84-91) with `k` iterations left at `cur`; after the
last one `cur == size` and line 93 answers. -/
def LookupLoop (node : BPlusTreeInternalPage K) (key : K) (comparator : K → K → Int) :
    Nat → Int → page_id_t
  | 0, cur => (node.array (cur - 1)).2
  | k + 1, cur =>
    if comparator key (node.array cur).1 < 0 then (node.array (cur - 1)).2
    else LookupLoop node key comparator k (cur + 1)

/-- The method `Lookup`, lines 82-94: `cur` runs from 1 while `cur < GetSize()`. -/
def Lookup (node : BPlusTreeInternalPage K) (key : K) (comparator : K → K → Int) : page_id_t :=
  node.LookupLoop key comparator (node.size - 1).toNat 1

/-- The method `PopulateNewRoot`, lines 109-118. -/
def PopulateNewRoot (node : BPlusTreeInternalPage K) (old_value : page_id_t) (new_key : K)
    (new_value : page_id_t) : BPlusTreeInternalPage K :=
  let a1 := Function.update node.array 0 ((node.array 0).1, old_value)
  { node with array := Function.update a1 1 (new_key, new_value), size := 2 }

/-- The loop `array[cur] = array[cur - 1]; cur--`, run `k` times from `cur`
(lines 131-134 and 285-287). -/
def shiftRight (a : Int → K × page_id_t) : Nat → Int → (Int → K × page_id_t)
  | 0, _ => a
  | k + 1, cur => shiftRight (Function.update a cur (a (cur - 1))) k (cur - 1)

/-- The loop `array[cur] = array[cur + 1]; cur++`, run `k` times from `cur`
(lines 186-189 and 243-245). -/
def shiftLeft (a : Int → K × page_id_t) : Nat → Int → (Int → K × page_id_t)
  | 0, _ => a
  | k + 1, cur => shiftLeft (Function.update a cur (a (cur + 1))) k (cur + 1)

/-- The method `InsertNodeAfter`, lines 125-138: the returned size and the node.
`INTERNAL_PAGE_SIZE` is the capacity of the array, a macro of a header that is not
among the sources; `(uint64_t)GetSize() < INTERNAL_PAGE_SIZE` fails for a
negative size.  The while loop runs `size - index` times and leaves `cur` at
`index`, or does not run and leaves `cur` at `size`. -/
def InsertNodeAfter (node : BPlusTreeInternalPage K) (INTERNAL_PAGE_SIZE : Int)
    (old_value : page_id_t) (new_key : K) (new_value : page_id_t) :
    Option (Int × BPlusTreeInternalPage K) :=
  if 0 ≤ node.size ∧ node.size < INTERNAL_PAGE_SIZE then
    let index := node.ValueIndex old_value
    let k := (node.size - index).toNat
    let a1 := shiftRight node.array k node.size
    let cur := node.size - k
    let a2 := Function.update a1 (cur + 1) (new_key, new_value)
    some (node.size + 1, { node with array := a2, size := node.size + 1 })
  else none

/-- The method `Remove`, lines 183-192: the returned size and the node.  The while
loop runs from `index` while `cur < GetSize() + 1`. -/
def Remove (node : BPlusTreeInternalPage K) (index : Int) : Int × BPlusTreeInternalPage K :=
  let a1 := shiftLeft node.array (node.size + 1 - index).toNat index
  (node.size - 1, { node with array := a1, size := node.size - 1 })

/-- The loop of `CopyNFrom` (lines 165-171) with `k` iterations left at `cur`. -/
def CopyNFromLoop (H : HeaderAccess) (items : Int → K × page_id_t) :
    Nat → Int → BPlusTreeInternalPage K → BufferPoolManager →
      Option (BPlusTreeInternalPage K × BufferPoolManager)
  | 0, _, node, bpm => some (node, bpm)
  | k + 1, cur, node, bpm =>
    let node1 : BPlusTreeInternalPage K :=
      { node with array := Function.update node.array cur (items cur) }
    match adoptChild H bpm (node1.array cur).2 node1.page_id with
    | none => none
    | some b1 => CopyNFromLoop H items k (cur + 1) node1 b1

/-- The method `CopyNFrom`, lines 162-172, run on `node`; `items[i]` is `items i`. -/
def CopyNFrom (H : HeaderAccess) (node : BPlusTreeInternalPage K)
    (items : Int → K × page_id_t) (size : Int) (bpm : BufferPoolManager) :
    Option (BPlusTreeInternalPage K × BufferPoolManager) :=
  if node.size = 0 then CopyNFromLoop H items size.toNat 0 node bpm else none

/-- The method `MoveHalfTo`, lines 147-155: this node, the recipient and the pool
afterwards.  C++ `int` division truncates. -/
def MoveHalfTo (H : HeaderAccess) (node recipient : BPlusTreeInternalPage K)
    (bpm : BufferPoolManager) :
    Option (BPlusTreeInternalPage K × BPlusTreeInternalPage K × BufferPoolManager) :=
  match CopyNFrom H recipient (fun i => node.array ((node.size + 1).tdiv 2 + i))
      (node.size.tdiv 2) bpm with
  | none => none
  | some (r1, b1) =>
    some ({ node with size := (node.size + 1).tdiv 2 }, { r1 with size := node.size.tdiv 2 }, b1)

/-- The loop of `MoveAllTo` (lines 217-222) with `k` iterations left, at `i` in this
node and `cur` in the recipient. -/
def MoveAllToLoop (H : HeaderAccess) (node : BPlusTreeInternalPage K) :
    Nat → Int → Int → BPlusTreeInternalPage K → BufferPoolManager →
      Option (BPlusTreeInternalPage K × BufferPoolManager)
  | 0, _, _, recipient, bpm => some (recipient, bpm)
  | k + 1, i, cur, recipient, bpm =>
    let r1 : BPlusTreeInternalPage K :=
      { recipient with array := Function.update recipient.array cur (node.array i) }
    match adoptChild H bpm (node.array i).2 r1.page_id with
    | none => none
    | some b1 => MoveAllToLoop H node k (i + 1) (cur + 1) r1 b1

/-- The method `MoveAllTo`, lines 205-224: the recipient and the pool afterwards
(this node is left as it is). -/
def MoveAllTo (H : HeaderAccess) (node recipient : BPlusTreeInternalPage K) (middle_key : K)
    (bpm : BufferPoolManager) : Option (BPlusTreeInternalPage K × BufferPoolManager) :=
  if recipient.size + node.size ≤ recipient.max_size then
    let cur := recipient.size
    let r1 : BPlusTreeInternalPage K :=
      { recipient with
        array := Function.update recipient.array cur (middle_key, (node.array 0).2) }
    match adoptChild H bpm (node.array 0).2 r1.page_id with
    | none => none
    | some b1 =>
      match MoveAllToLoop H node (node.size - 1).toNat 1 (cur + 1) r1 b1 with
      | none => none
      | some (r2, b2) => some ({ r2 with size := r2.size + node.size }, b2)
  else none

/-- The method `CopyLastFrom`, lines 254-261, run on `node`. -/
def CopyLastFrom (H : HeaderAccess) (node : BPlusTreeInternalPage K) (pair : K × page_id_t)
    (bpm : BufferPoolManager) : Option (BPlusTreeInternalPage K × BufferPoolManager) :=
  let n1 : BPlusTreeInternalPage K :=
    { node with array := Function.update node.array node.size pair, size := node.size + 1 }
  match adoptChild H bpm pair.2 n1.page_id with
  | none => none
  | some b1 => some (n1, b1)

/-- The method `MoveFirstToEndOf`, lines 238-247: this node, the recipient and the
pool afterwards. -/
def MoveFirstToEndOf (H : HeaderAccess) (node recipient : BPlusTreeInternalPage K)
    (middle_key : K) (bpm : BufferPoolManager) :
    Option (BPlusTreeInternalPage K × BPlusTreeInternalPage K × BufferPoolManager) :=
  if recipient.size < recipient.max_size then
    match CopyLastFrom H recipient (node.array 0) bpm with
    | none => none
    | some (r1, b1) =>
      let r2 := r1.SetKeyAt (r1.size - 1) middle_key
      let a1 := shiftLeft node.array node.size.toNat 0
      some ({ node with array := a1, size := node.size - 1 }, r2, b1)
  else none

/-- The method `CopyFirstFrom`, lines 284-295, run on `node`. -/
def CopyFirstFrom (H : HeaderAccess) (node : BPlusTreeInternalPage K) (pair : K × page_id_t)
    (bpm : BufferPoolManager) : Option (BPlusTreeInternalPage K × BufferPoolManager) :=
  let a1 := shiftRight node.array node.size.toNat node.size
  let a2 := Function.update a1 1 (pair.1, (a1 1).2)
  let a3 := Function.update a2 0 ((a2 0).1, pair.2)
  let n1 : BPlusTreeInternalPage K := { node with array := a3, size := node.size + 1 }
  match adoptChild H bpm pair.2 n1.page_id with
  | none => none
  | some b1 => some (n1, b1)

/-- The method `MoveLastToFrontOf`, lines 271-277: this node, the recipient and the
pool afterwards. -/
def MoveLastToFrontOf (H : HeaderAccess) (node recipient : BPlusTreeInternalPage K)
    (middle_key : K) (bpm : BufferPoolManager) :
    Option (BPlusTreeInternalPage K × BPlusTreeInternalPage K × BufferPoolManager) :=
  if recipient.size < recipient.max_size then
    match CopyFirstFrom H recipient (node.array (node.size - 1)) bpm with
    | none => none
    | some (r1, b1) =>
      let r2 := r1.SetKeyAt 1 middle_key
      some ({ node with size := node.size - 1 }, r2, b1)
  else none

/-- The entries of a node: the slots at positions 0 .. size - 1, in order. -/
def entries (node : BPlusTreeInternalPage K) : List (K × page_id_t) :=
  (List.range node.size.toNat).map (fun (j : Nat) => node.array (Int.ofNat j))

/-- The child pointers of a node, in order. -/
def children (node : BPlusTreeInternalPage K) : List page_id_t :=
  node.entries.map Prod.snd

end BPlusTreeInternalPage

/-- Re-parenting the pages `cs` one after the other (closed form of the pool
side of the copy routines). -/
def adoptAll (H : HeaderAccess) (new_parent : page_id_t) :
    BufferPoolManager → List page_id_t → Option BufferPoolManager
  | bpm, [] => some bpm
  | bpm, c :: cs =>
    match adoptChild H bpm c new_parent with
    | none => none
    | some b1 => adoptAll H new_parent b1 cs

/-- The bytes that a reader of page `q` finds: those of the frame that caches `q`,
or its disk block when `q` is not cached. -/
def contentOf (s : BufferPoolManager) (q : page_id_t) : PageData :=
  match ptFind s.page_table q with
  | some f => (s.pageAt f).data
  | none => s.disk_manager.ReadPage q

/-- The parent page id that a reader of page `q` finds in its header. -/
def parentIdOf (H : HeaderAccess) (s : BufferPoolManager) (q : page_id_t) : page_id_t :=
  H.GetParentPageId (contentOf s q)

/-- The pin count of page `q`: that of its frame, and 0 when `q` is not cached. -/
def pinCountOf (s : BufferPoolManager) (q : page_id_t) : Int :=
  match ptFind s.page_table q with
  | some f => (s.pageAt f).pin_count
  | none => 0

/-- Page `q` is cached and its frame is marked dirty. -/
def dirtyInPool (s : BufferPoolManager) (q : page_id_t) : Prop :=
  ∃ f, ptFind s.page_table q = some f ∧ (s.pageAt f).is_dirty = true

/-- Every clean unpinned frame that caches a page holds the bytes of the page's
disk block: whoever changed a frame has unpinned it dirty. -/
def CleanSynced (s : BufferPoolManager) : Prop :=
  ∀ q f, ptFind s.page_table q = some f → (s.pageAt f).is_dirty = false →
    (s.pageAt f).pin_count = 0 → (s.pageAt f).data = s.disk_manager.ReadPage q

/-- What re-parenting the pages `moved` to the node `new_parent` has done to the
pool, `s` being the pool before and `s2` the pool after: every moved page carries
the new parent id; a moved page that is still cached is marked dirty, and all of
them are when they were all cached to begin with; the other pages keep their
parent id; every page keeps its pin count. -/
structure Reparented (H : HeaderAccess) (s s2 : BufferPoolManager) (moved : List page_id_t)
    (new_parent : page_id_t) : Prop where
  parent : ∀ c, c ∈ moved → parentIdOf H s2 c = new_parent
  dirty : ∀ c f, c ∈ moved → ptFind s2.page_table c = some f → (s2.pageAt f).is_dirty = true
  stay : (∀ c, c ∈ moved → ptFind s.page_table c ≠ none) → ∀ c, c ∈ moved → dirtyInPool s2 c
  others : ∀ q, q ∉ moved → parentIdOf H s2 q = parentIdOf H s q
  pins : ∀ q, pinCountOf s2 q = pinCountOf s q

/-- The conditions under which re-parenting the pages `cs` goes through: the
header laws, a consistent pool of `n` frames with a frame that is free or
evictable, and every page of `cs` a valid page id whose header carries that id. -/
structure Adoptable (H : HeaderAccess) (n : Nat) (s : BufferPoolManager)
    (cs : List page_id_t) : Prop where
  laws : HeaderLaws H
  wf : BufferPoolManager.WF n s
  tight : BufferPoolManager.Tight n s
  synced : CleanSynced s
  room : s.free_list ≠ [] ∨ s.replacer.LRU ≠ []
  kids : ∀ c, c ∈ cs → c ≠ INVALID_PAGE_ID ∧ H.GetPageId (contentOf s c) = c

end bustub

namespace bustub

/-- The child pointers held in the `k` consecutive slots of `a` that start at `cur`. -/
def childrenFrom {K : Type} (a : Int → K × page_id_t) : Nat → Int → List page_id_t
  | 0, _ => []
  | k + 1, cur => (a cur).2 :: childrenFrom a k (cur + 1)

/-- Page `c` is cached and the header in its frame carries `c` as its page id
(as `Init` leaves it). -/
def cachedNode (H : HeaderAccess) (s : BufferPoolManager) (c : page_id_t) : Prop :=
  ∃ f, ptFind s.page_table c = some f ∧ H.GetPageId (s.pageAt f).data = c

/-! ## Concrete nodes for the examples -/

/-- A comparator on integer keys: the sign of the difference. -/
def intComparator : Int → Int → Int := fun a b => a - b

/-- A header layout for the examples: word 0 is the page id, words 1 and 2 are the
sign and the magnitude of the parent page id. -/
def wordHeader : HeaderAccess :=
  { GetPageId := fun d => Int.ofNat (d.getD 0 0)
    GetParentPageId := fun d =>
      if d.getD 1 0 = 0 then Int.ofNat (d.getD 2 0) else -Int.ofNat (d.getD 2 0)
    SetParentPageId := fun d p =>
      [d.getD 0 0, if p < 0 then 1 else 0, p.natAbs] ++ d.drop 3 }

/-- A disk on which the block of every page `q` is a node header with page id `q`
and parent page id 4. -/
def nodeDisk : DiskManager :=
  { store := fun q => [q.toNat, 0, 4], allocated := [], deallocated := [] }

/-- An internal node with page id 4 and three entries: children 10, 11, 12 and
keys 20, 30 at positions 1 and 2; the slots above hold a stale entry. -/
def sampleNode : BPlusTreeInternalPage Int :=
  { size := 3
    max_size := 4
    page_id := 4
    parent_page_id := INVALID_PAGE_ID
    array := fun i =>
      if i = 0 then (0, 10) else if i = 1 then (20, 11) else if i = 2 then (30, 12)
      else (99, 13) }

/-- An empty internal node with page id 5. -/
def emptyNode : BPlusTreeInternalPage Int :=
  { size := 0
    max_size := 4
    page_id := 5
    parent_page_id := INVALID_PAGE_ID
    array := fun _ => (0, INVALID_PAGE_ID) }

end bustub

namespace bustub

/-- An internal node with page id 6 and two entries: children 14, 15 and key 50
at position 1. -/
def siblingNode : BPlusTreeInternalPage Int :=
  { size := 2
    max_size := 4
    page_id := 6
    parent_page_id := INVALID_PAGE_ID
    array := fun i => if i = 0 then (0, 14) else if i = 1 then (50, 15) else (0, 16) }

end bustub

namespace bustub

/-- The alternative of claim C12 for every page of the page table: its frame is
unpinned and in the replacer's eligible list, or pinned and not in that list. -/
def PinnedOrEvictable (s : BufferPoolManager) : Prop :=
  ∀ k f, ptFind s.page_table k = some f →
    ((s.pageAt f).pin_count = 0 ∧ f ∈ s.replacer.LRU) ∨
    (0 < (s.pageAt f).pin_count ∧ f ∉ s.replacer.LRU)

/-- No call of the run is a flush. -/
def NoFlush (ops : List Op) : Prop := ∀ p, Op.flush p ∉ ops

end bustub

namespace bustub

/-- A pool that can serve a fetch and keeps what it caches: the invariants of
runs that never fetch the INVALID id, every clean unpinned frame equal to its
disk block, and a frame that is free or evictable. -/
structure PoolReady (n : Nat) (s : BufferPoolManager) : Prop where
  wf : BufferPoolManager.WF n s
  tight : BufferPoolManager.Tight n s
  synced : CleanSynced s
  room : s.free_list ≠ [] ∨ s.replacer.LRU ≠ []

/-- The entries of a leaf with bytes `d`: the pairs at the indices 0 .. size - 1. -/
def leafEntries {M : Type} (L : LeafAccess M) (d : PageData) : List M :=
  (List.range (L.GetSize d).toNat).map (fun (j : Nat) => L.GetItem d (Int.ofNat j))

/-- The pages `ps` are a chain of non-empty leaves that starts at `start`, links
each leaf to the following one by `next`, and ends with `next` = INVALID;
`content` gives the bytes of a page.  The empty chain starts at INVALID. -/
def LeafChain {M : Type} (L : LeafAccess M) (content : page_id_t → PageData) :
    List page_id_t → page_id_t → Prop
  | [], start => start = INVALID_PAGE_ID
  | p :: rest, start =>
    start = p ∧ p ≠ INVALID_PAGE_ID ∧ 1 ≤ L.GetSize (content p) ∧
      LeafChain L content rest (L.GetNextPageId (content p))

/-- The entries of the leaves `ps`, leaf after leaf, each in index order. -/
def chainEntries {M : Type} (L : LeafAccess M) (content : page_id_t → PageData) :
    List page_id_t → List M
  | [] => []
  | p :: rest => leafEntries L (content p) ++ chainEntries L content rest

namespace IndexIterator

/-- The scan `while (!it.isEnd()) { visit(*it); ++it; }` cut off after `k` rounds:
the pairs visited, the iterator and the pool afterwards. -/
def scan {M : Type} (L : LeafAccess M) :
    Nat → IndexIterator → BufferPoolManager → Option (List M × IndexIterator × BufferPoolManager)
  | 0, it, bpm => some ([], it, bpm)
  | k + 1, it, bpm =>
    if it.isEnd then some ([], it, bpm)
    else
      match it.operator_star L bpm with
      | none => none
      | some (val, b1) =>
        match it.operator_inc L b1 with
        | none => none
        | some (it2, b2) => (scan L k it2 b2).map (fun out => (val :: out.1, out.2))

end IndexIterator

/-- A leaf layout for the examples: word 0 is the size, word 1 is the `next` page
id plus one (0 for INVALID), the items follow from word 2 on. -/
def wordLeaf : LeafAccess Nat :=
  { GetSize := fun d => Int.ofNat (d.getD 0 0)
    GetNextPageId := fun d => Int.ofNat (d.getD 1 0) - 1
    GetItem := fun d j => d.getD (j.toNat + 2) 0 }

/-- A disk with two leaves: page 1 holds 10, 11 and links to page 2, which holds
20 and ends the chain. -/
def leafDisk : DiskManager :=
  { store := fun q => if q = 1 then [2, 3, 10, 11] else if q = 2 then [1, 0, 20] else []
    allocated := []
    deallocated := [] }


namespace BufferPoolManager

/-- The loop of `FlushAllPagesImpl` (buffer_pool_manager.cpp:208-211) with `k`
iterations left at index `i`.  `pages_[i]` with `i` outside the frame array reads
past the allocation, which is undefined in C++: no result (`none`). -/
def FlushAllPagesLoop : Nat → Nat → BufferPoolManager → Option BufferPoolManager
  | 0, _, s => some s
  | k + 1, i, s =>
    if i < s.pool_size then FlushAllPagesLoop k (i + 1) (s.FlushPageImpl (s.pageAt i).page_id).2
    else none

/-- The method `FlushAllPagesImpl`, buffer_pool_manager.cpp:205-212.  The loop
bound `sizeof(pages_)` is the size in bytes of the pointer `pages_` (set by
`pages_ = new Page[pool_size_]`, line 24): a constant of the platform, 8 on a
64-bit target and 4 on a 32-bit one, here the parameter `sizeof_pages`. -/
def FlushAllPagesImpl (s : BufferPoolManager) (sizeof_pages : Nat) : Option BufferPoolManager :=
  FlushAllPagesLoop sizeof_pages 0 s

end BufferPoolManager

/-- The calls that bring the pages 1 .. k into the pool and release each of them
dirty. -/
def dirtyPages : Nat → List Op
  | 0 => []
  | k + 1 => dirtyPages k ++ [Op.fetch (Int.ofNat (k + 1)), Op.unpin (Int.ofNat (k + 1)) true]


namespace BPlusTreeInternalPage

/-- The slots that the loop `array[cur] = array[cur + 1]; cur++` touches when it
runs `k` times from `cur`: for each iteration the slot written and the slot read. -/
def shiftLeftAccess : Nat → Int → List (Int × Int)
  | 0, _ => []
  | k + 1, cur => (cur, cur + 1) :: shiftLeftAccess k (cur + 1)

/-- The slots that `Remove` (lines 183-192) writes and reads, iteration by
iteration: the loop runs from `index` while `cur < GetSize() + 1`. -/
def RemoveAccess {K : Type} (node : BPlusTreeInternalPage K) (index : Int) : List (Int × Int) :=
  shiftLeftAccess (node.size + 1 - index).toNat index

end BPlusTreeInternalPage

/-- An internal node of size 2 (children 10, 11) whose slots 2 and 3 still hold
the entries that a split moved away. -/
def staleNode : BPlusTreeInternalPage Int :=
  { size := 2
    max_size := 4
    page_id := 4
    parent_page_id := INVALID_PAGE_ID
    array := fun i =>
      if i = 0 then (0, 10) else if i = 1 then (20, 11) else if i = 2 then (30, 12)
      else if i = 3 then (40, 13) else (0, INVALID_PAGE_ID) }

end bustub

/-! ## Basic facts about the page table and the frame array -/

namespace bustub
open BufferPoolManager

theorem getD_set_page (l : List Page) (i j : Nat) (a d : Page) :
    (l.set i a).getD j d = if i = j ∧ i < l.length then a else l.getD j d := by
  induction l generalizing i j with
  | nil => simp
  | cons x xs ih =>
    cases i with
    | zero => cases j <;> simp
    | succ i =>
      cases j with
      | zero => simp
      | succ j =>
        have h := ih i j
        simp only [List.getD_eq_getElem?_getD] at h
        simp [h]

theorem set_set_page (l : List Page) (i : Nat) (a b : Page) :
    (l.set i a).set i b = l.set i b := by
  induction l generalizing i with
  | nil => simp
  | cons x xs ih => cases i <;> simp [ih]

theorem ptFind_erase (t : PageTable) (k q : page_id_t) :
    ptFind (ptErase t k) q = if q = k then none else ptFind t q := by
  induction t with
  | nil => simp [ptErase, ptFind]
  | cons e rest ih =>
    obtain ⟨k', v⟩ := e
    simp only [ptErase] at ih ⊢
    by_cases hk : k' = k
    · subst hk
      simp only [List.filter, ne_eq, not_true_eq_false, decide_False, ih, ptFind]
      by_cases hq : q = k'
      · simp [hq]
      · have hq2 : ¬ k' = q := fun e => hq e.symm
        simp [hq, hq2]
    · simp only [List.filter, ne_eq, hk, not_false_eq_true, decide_True, ptFind, ih]
      by_cases hq : q = k
      · subst hq; simp [hk]
      · simp [hq]

theorem ptFind_assign (t : PageTable) (k q : page_id_t) (v : frame_id_t) :
    ptFind (ptAssign t k v) q = if k = q then some v else ptFind t q := by
  simp only [ptAssign, ptFind, ptFind_erase]
  by_cases h : k = q
  · simp [h]
  · have : ¬ q = k := fun e => h e.symm
    simp [h, this]

theorem ptErase_absent (t : PageTable) (k : page_id_t) (h : ptFind t k = none) :
    ptErase t k = t := by
  induction t with
  | nil => rfl
  | cons e rest ih =>
    obtain ⟨k', v⟩ := e
    simp only [ptFind] at h
    by_cases hk : k' = k
    · simp [hk] at h
    · simp only [hk, if_false] at h
      simp only [ptErase] at ih ⊢
      rw [List.filter_cons_of_pos (by simpa using hk), ih h]

theorem ptFind_mem (t : PageTable) (k : page_id_t) (f : frame_id_t)
    (h : ptFind t k = some f) : (k, f) ∈ t := by
  induction t with
  | nil => simp [ptFind] at h
  | cons e rest ih =>
    obtain ⟨k', v⟩ := e
    simp only [ptFind] at h
    by_cases hk : k' = k
    · simp only [hk, if_true, Option.some.injEq] at h
      simp [hk, h]
    · simp only [hk, if_false] at h
      exact List.mem_cons_of_mem _ (ih h)

theorem ptFind_of_mem (t : PageTable) (hn : (t.map Prod.fst).Nodup) (k : page_id_t)
    (f : frame_id_t) (h : (k, f) ∈ t) : ptFind t k = some f := by
  induction t with
  | nil => simp at h
  | cons e rest ih =>
    obtain ⟨k', v⟩ := e
    simp only [List.map_cons, List.nodup_cons, List.mem_map, not_exists, not_and] at hn
    simp only [List.mem_cons, Prod.mk.injEq] at h
    rcases h with ⟨h1, h2⟩ | h
    · simp [ptFind, h1, h2]
    · have hk : k' ≠ k := by
        intro e
        exact hn.1 (k, f) h e.symm
      simp only [ptFind, hk, if_false]
      exact ih hn.2 h

theorem ptErase_keys_nodup (t : PageTable) (k : page_id_t) (hn : (t.map Prod.fst).Nodup) :
    ((ptErase t k).map Prod.fst).Nodup :=
  List.Nodup.sublist (List.Sublist.map _ (List.filter_sublist _)) hn

theorem ptFind_none_iff (t : PageTable) (k : page_id_t) :
    ptFind t k = none ↔ k ∉ t.map Prod.fst := by
  induction t with
  | nil => simp [ptFind]
  | cons e rest ih =>
    obtain ⟨k', v⟩ := e
    by_cases hk : k' = k
    · simp [ptFind, hk]
    · have : ¬ k = k' := fun e => hk e.symm
      simp [ptFind, hk, ih, this]

theorem ptAssign_keys_nodup (t : PageTable) (k : page_id_t) (v : frame_id_t)
    (hn : (t.map Prod.fst).Nodup) : ((ptAssign t k v).map Prod.fst).Nodup := by
  simp only [ptAssign, List.map_cons, List.nodup_cons]
  refine ⟨?_, ptErase_keys_nodup t k hn⟩
  rw [← ptFind_none_iff, ptFind_erase]
  simp

end bustub

/-! ## Normal forms of fetch and new_page -/

namespace bustub
open BufferPoolManager

theorem pageAt_setPage (s : BufferPoolManager) (f g : frame_id_t) (pg : Page) :
    (s.setPage f pg).pageAt g = if f = g ∧ f < s.pages.length then pg else s.pageAt g := by
  simp only [pageAt, setPage, getD_set_page]

theorem pickFrame_free (s : BufferPoolManager) (f : frame_id_t) (rest : List frame_id_t)
    (h : s.free_list = f :: rest) :
    s.pickFrame = (some f, { s with free_list := rest }) := by
  simp only [pickFrame, h]

theorem pickFrame_none (s : BufferPoolManager) (h : s.free_list = [])
    (hl : s.replacer.LRU = []) : s.pickFrame = (none, s) := by
  obtain ⟨ps, pg, pt, fl, ⟨l, c⟩, dm⟩ := s
  simp only at h hl
  subst h hl
  rfl

theorem pickFrame_victim (s : BufferPoolManager) (f : frame_id_t) (rest : List frame_id_t)
    (h : s.free_list = []) (hl : s.replacer.LRU = f :: rest) :
    s.pickFrame = (some f,
      { s with
        replacer := { s.replacer with LRU := rest }
        disk_manager :=
          if (s.pageAt f).is_dirty then
            s.disk_manager.WritePage (s.pageAt f).page_id (s.pageAt f).data
          else s.disk_manager }) := by
  simp only [pickFrame, h, LRUReplacer.Victim, hl, pageAt]
  split <;> rfl

theorem FetchPageImpl_hit (s : BufferPoolManager) (p : page_id_t) (f : frame_id_t)
    (h : ptFind s.page_table p = some f) :
    s.FetchPageImpl p = (some f,
      { s with
        pages := s.pages.set f { s.pageAt f with pin_count := (s.pageAt f).pin_count + 1 }
        replacer := s.replacer.Pin f }) := by
  simp only [FetchPageImpl, h, setPage]

theorem FetchPageImpl_null (s s1 : BufferPoolManager) (p : page_id_t)
    (h : ptFind s.page_table p = none) (hp : s.pickFrame = (none, s1)) :
    s.FetchPageImpl p = (none, s1) := by
  simp only [FetchPageImpl, h, hp]

theorem erase_if_present (s1 : BufferPoolManager) (k : page_id_t) :
    (if ptFind s1.page_table k ≠ none then
        ({ s1 with page_table := ptErase s1.page_table k } : BufferPoolManager)
      else s1) = { s1 with page_table := ptErase s1.page_table k } := by
  by_cases h : ptFind s1.page_table k = none
  · simp only [h, ne_eq, not_true_eq_false, if_false, ptErase_absent _ _ h]
  · simp only [h, ne_eq, not_false_eq_true, if_true]

theorem set_refine_page (l : List Page) (f : Nat) (a : Page) (d : PageData) :
    (l.set f a).set f { (l.set f a).getD f Page.empty with data := d } =
      l.set f { a with data := d } := by
  rw [set_set_page, getD_set_page]
  by_cases hf : f < l.length
  · simp [hf]
  · rw [List.set_eq_of_length_le (Nat.le_of_not_lt hf),
      List.set_eq_of_length_le (Nat.le_of_not_lt hf)]

theorem FetchPageImpl_miss (s s1 : BufferPoolManager) (p : page_id_t) (f : frame_id_t)
    (h : ptFind s.page_table p = none) (hp : s.pickFrame = (some f, s1)) :
    s.FetchPageImpl p =
      (some f, s1.install f p (s1.disk_manager.ReadPage p) s1.disk_manager) := by
  simp only [FetchPageImpl, h, hp, erase_if_present]
  simp only [install, setPage, pageAt, set_refine_page]

theorem NewPageImpl_null (s s1 : BufferPoolManager) (a : page_id_t)
    (hp : s.pickFrame = (none, s1)) :
    s.NewPageImpl a = (none, INVALID_PAGE_ID, s1) := by
  simp only [NewPageImpl, hp]

theorem NewPageImpl_some (s s1 : BufferPoolManager) (a : page_id_t) (f : frame_id_t)
    (hp : s.pickFrame = (some f, s1)) :
    s.NewPageImpl a =
      (some f, a, s1.install f a zeroData (s1.disk_manager.AllocatePage a).2) := by
  simp only [NewPageImpl, hp]
  have e := erase_if_present
    ({ s1 with disk_manager := (s1.disk_manager.AllocatePage a).2 } : BufferPoolManager)
    (s1.pageAt f).page_id
  simp only [pageAt] at e ⊢
  simp only [e]
  simp only [install, setPage, pageAt, DiskManager.AllocatePage]

end bustub

/-! ## Normal forms of unpin, flush and delete -/

namespace bustub
open BufferPoolManager

theorem pickFrame_cases (s : BufferPoolManager) :
    (∃ f rest, s.free_list = f :: rest ∧
      s.pickFrame = (some f, { s with free_list := rest })) ∨
    (s.free_list = [] ∧ s.replacer.LRU = [] ∧ s.pickFrame = (none, s)) ∨
    (∃ f rest, s.free_list = [] ∧ s.replacer.LRU = f :: rest ∧
      s.pickFrame = (some f,
        { s with
          replacer := { s.replacer with LRU := rest }
          disk_manager :=
            if (s.pageAt f).is_dirty then
              s.disk_manager.WritePage (s.pageAt f).page_id (s.pageAt f).data
            else s.disk_manager })) := by
  obtain ⟨ps, pg, pt, fl, ⟨l, c⟩, dm⟩ := s
  cases fl with
  | cons f rest => exact Or.inl ⟨f, rest, rfl, rfl⟩
  | nil =>
    cases l with
    | nil => exact Or.inr (Or.inl ⟨rfl, rfl, rfl⟩)
    | cons f rest => exact Or.inr (Or.inr ⟨f, rest, rfl, rfl, pickFrame_victim _ f rest rfl rfl⟩)

theorem UnpinPageImpl_ok (s : BufferPoolManager) (p : page_id_t) (d : Bool) (f : frame_id_t)
    (h : ptFind s.page_table p = some f) (hf : f < s.pages.length)
    (hc : 0 < (s.pageAt f).pin_count) :
    s.UnpinPageImpl p d = (true,
      { s with
        pages := s.pages.set f
          { s.pageAt f with
            pin_count := (s.pageAt f).pin_count - 1
            is_dirty := (s.pageAt f).is_dirty || d }
        replacer :=
          if (s.pageAt f).pin_count - 1 = 0 then s.replacer.Unpin f else s.replacer }) := by
  have hc2 : ¬ (s.pages.getD f Page.empty).pin_count ≤ 0 := not_le.mpr hc
  simp only [UnpinPageImpl, h, pageAt, setPage, getD_set_page, set_set_page, hf, and_self,
    if_true, hc2, if_false]
  cases hd : (s.pages.getD f Page.empty).is_dirty <;>
    by_cases h0 : (s.pages.getD f Page.empty).pin_count - 1 = 0 <;>
    simp only [hd, h0, set_set_page, Bool.false_eq_true, not_false_eq_true,
      not_true_eq_false, if_true, if_false, getD_set_page, hf, and_self, Bool.false_or,
      Bool.true_or]

theorem FlushPageImpl_hit (s : BufferPoolManager) (p : page_id_t) (f : frame_id_t)
    (h : ptFind s.page_table p = some f) (hf : f < s.pages.length) :
    s.FlushPageImpl p = (true,
      { s with
        pages := s.pages.set f { s.pageAt f with is_dirty := false, pin_count := 0 }
        disk_manager := s.disk_manager.WritePage p (s.pageAt f).data }) := by
  simp only [FlushPageImpl, h, setPage, pageAt, set_set_page, getD_set_page, hf, and_self,
    if_true]

theorem DeletePageImpl_ok (s : BufferPoolManager) (p : page_id_t) (f : frame_id_t)
    (h : ptFind s.page_table p = some f) (hc : ¬ (s.pageAt f).pin_count > 0) :
    s.DeletePageImpl p = (true,
      { s with
        page_table := ptErase s.page_table (s.pageAt f).page_id
        pages := s.pages.set f Page.empty
        replacer := s.replacer.Pin f
        free_list := s.free_list ++ [f]
        disk_manager :=
          if (s.pageAt f).is_dirty then
            s.disk_manager.WritePage (s.pageAt f).page_id (s.pageAt f).data
          else s.disk_manager }) := by
  have hc2 : ¬ (s.pages.getD f Page.empty).pin_count > 0 := hc
  simp only [DeletePageImpl, h, pageAt, hc2, if_false, setPage]
  cases hd : (s.pages.getD f Page.empty).is_dirty <;>
    simp only [Bool.false_eq_true, if_true, if_false] <;> rfl

end bustub

/-! ## The invariant `WF`: new pool and victim selection -/

namespace bustub
open BufferPoolManager

theorem getD_replicate_page (n f : Nat) :
    (List.replicate n Page.empty).getD f Page.empty = Page.empty := by
  induction n generalizing f with
  | zero => simp
  | succ n ih =>
    cases f with
    | zero => simp [List.replicate]
    | succ f =>
      have h := ih f
      simp only [List.getD_eq_getElem?_getD] at h
      simp [List.replicate, h]

theorem WF_create (n : Nat) (dm : DiskManager) : WF n (create n dm) where
  pages_len := by simp [create]
  cap := rfl
  pt := by intro k f h; simp [create, ptFind] at h
  free_nodup := List.nodup_range n
  free := by
    intro f hf
    refine ⟨List.mem_range.mp hf, ?_, ?_⟩ <;>
      simp only [pageAt, create, getD_replicate_page] <;> rfl
  lru_nodup := List.nodup_nil
  lru := by intro f hf; simp [create, LRUReplacer.create] at hf
  pin_nonneg := by
    intro f
    simp only [pageAt, create, getD_replicate_page]
    exact le_of_eq rfl

theorem WF_pick (n : Nat) (s s1 : BufferPoolManager) (f : frame_id_t) (h : WF n s)
    (hp : s.pickFrame = (some f, s1)) :
    WF n s1 ∧ f < n ∧ f ∉ s1.free_list ∧ f ∉ s1.replacer.LRU ∧ s1.pages = s.pages ∧
      s1.page_table = s.page_table ∧ (s.pageAt f).pin_count = 0 := by
  rcases pickFrame_cases s with ⟨g, rest, hfl, hq⟩ | ⟨_, _, hq⟩ | ⟨g, rest, hfl, hl, hq⟩
  · rw [hq] at hp
    simp only [Prod.mk.injEq, Option.some.injEq] at hp
    obtain ⟨hg, hs⟩ := hp
    subst hg hs
    have hnd : (g :: rest).Nodup := hfl ▸ h.free_nodup
    have hmem : g ∈ s.free_list := by rw [hfl]; exact List.mem_cons_self _ _
    have hsub : ∀ x, x ∈ rest → x ∈ s.free_list := by
      intro x hx; rw [hfl]; exact List.mem_cons_of_mem _ hx
    refine ⟨⟨h.pages_len, h.cap, ?_, (List.nodup_cons.mp hnd).2, ?_, h.lru_nodup, ?_,
      h.pin_nonneg⟩, (h.free g hmem).1, (List.nodup_cons.mp hnd).1, ?_, rfl, rfl,
      (h.free g hmem).2.1⟩
    · intro k x hk
      obtain ⟨a, b, c⟩ := h.pt k x hk
      exact ⟨a, b, fun hx => c (hsub x hx)⟩
    · intro x hx
      exact h.free x (hsub x hx)
    · intro x hx
      obtain ⟨a, b, c⟩ := h.lru x hx
      exact ⟨a, b, fun hx2 => c (hsub x hx2)⟩
    · intro hx
      exact (h.lru g hx).2.2 hmem
  · rw [hq] at hp
    simp at hp
  · rw [hq] at hp
    simp only [Prod.mk.injEq, Option.some.injEq] at hp
    obtain ⟨hg, hs⟩ := hp
    subst hg hs
    have hnd : (g :: rest).Nodup := hl ▸ h.lru_nodup
    have hmem : g ∈ s.replacer.LRU := by rw [hl]; exact List.mem_cons_self _ _
    have hsub : ∀ x, x ∈ rest → x ∈ s.replacer.LRU := by
      intro x hx; rw [hl]; exact List.mem_cons_of_mem _ hx
    refine ⟨⟨h.pages_len, h.cap, h.pt, h.free_nodup, h.free, (List.nodup_cons.mp hnd).2, ?_,
      h.pin_nonneg⟩, (h.lru g hmem).1, (h.lru g hmem).2.2, (List.nodup_cons.mp hnd).1, rfl, rfl,
      (h.lru g hmem).2.1⟩
    intro x hx
    exact h.lru x (hsub x hx)

theorem mem_Pin (r : LRUReplacer) (f g : frame_id_t) :
    g ∈ (r.Pin f).LRU ↔ g ∈ r.LRU ∧ g ≠ f := by
  unfold LRUReplacer.Pin
  by_cases h : f ∈ r.LRU
  · simp [h, List.mem_filter]
  · simp only [h, if_false]
    constructor
    · intro hg
      exact ⟨hg, fun e => h (e ▸ hg)⟩
    · exact fun hg => hg.1

theorem Pin_LRU (r : LRUReplacer) (f : frame_id_t) :
    (r.Pin f).LRU = r.LRU.filter (fun g => decide (g ≠ f)) := by
  unfold LRUReplacer.Pin
  by_cases h : f ∈ r.LRU
  · simp [h]
  · simp only [h, if_false]
    symm
    rw [List.filter_eq_self]
    intro g hg
    simp only [ne_eq, decide_eq_true_eq]
    exact fun e => h (e ▸ hg)

theorem Pin_number_pages (r : LRUReplacer) (f : frame_id_t) :
    (r.Pin f).number_pages = r.number_pages := by
  unfold LRUReplacer.Pin
  split <;> rfl

theorem Pin_nodup (r : LRUReplacer) (f : frame_id_t) (h : r.LRU.Nodup) :
    (r.Pin f).LRU.Nodup := by
  rw [Pin_LRU]
  exact List.Nodup.sublist (List.filter_sublist _) h

end bustub

/-! ## The invariant `WF`: taking over a frame, cache hit -/

namespace bustub
open BufferPoolManager

theorem pageAt_of_pages (s s1 : BufferPoolManager) (f g : frame_id_t) (pg : Page)
    (h : s1.pages = s.pages.set f pg) :
    s1.pageAt g = if f = g ∧ f < s.pages.length then pg else s.pageAt g := by
  simp only [pageAt, h, getD_set_page]

theorem pageAt_of_pages_ne (s s1 : BufferPoolManager) (f g : frame_id_t) (pg : Page)
    (h : s1.pages = s.pages.set f pg) (hne : g ≠ f) : s1.pageAt g = s.pageAt g := by
  rw [pageAt_of_pages s s1 f g pg h]
  have : ¬ (f = g ∧ f < s.pages.length) := fun e => hne e.1.symm
  simp only [this, if_false]

theorem pageAt_of_pages_self (s s1 : BufferPoolManager) (f : frame_id_t) (pg : Page)
    (h : s1.pages = s.pages.set f pg) (hf : f < s.pages.length) : s1.pageAt f = pg := by
  rw [pageAt_of_pages s s1 f f pg h]
  simp only [hf, and_self, if_true]

theorem WF_install (n : Nat) (s : BufferPoolManager) (f : frame_id_t) (p : page_id_t)
    (data : PageData) (dm : DiskManager) (h : WF n s) (hf : f < n) (hfree : f ∉ s.free_list) :
    WF n (s.install f p data dm) := by
  have hlen : f < s.pages.length := h.pages_len.symm ▸ hf
  have hself := pageAt_of_pages_self s (s.install f p data dm) f _ rfl hlen
  have hne : ∀ g, g ≠ f → (s.install f p data dm).pageAt g = s.pageAt g :=
    fun g hg => pageAt_of_pages_ne s _ f g _ rfl hg
  refine ⟨?_, ?_, ?_, h.free_nodup, ?_, Pin_nodup _ _ h.lru_nodup, ?_, ?_⟩
  · show (s.pages.set f _).length = n
    rw [List.length_set, h.pages_len]
  · exact (Pin_number_pages _ _).trans h.cap
  · intro k g hk
    change ptFind (ptAssign (ptErase s.page_table (s.pageAt f).page_id) p f) k = some g at hk
    rw [ptFind_assign] at hk
    by_cases hpk : p = k
    · simp only [hpk, if_true, Option.some.injEq] at hk
      subst hk
      refine ⟨hf, ?_, hfree⟩
      rw [hself]
      exact hpk
    · simp only [hpk, if_false, ptFind_erase] at hk
      by_cases hko : k = (s.pageAt f).page_id
      · simp [hko] at hk
      · simp only [hko, if_false] at hk
        obtain ⟨a, b, c⟩ := h.pt k g hk
        have hgf : g ≠ f := by
          intro e
          subst e
          exact hko b.symm
        exact ⟨a, by rw [hne g hgf]; exact b, c⟩
  · intro g hg
    have hgf : g ≠ f := fun e => hfree (e ▸ hg)
    rw [hne g hgf]
    exact h.free g hg
  · intro g hg
    have hg2 := (mem_Pin _ _ _).mp hg
    rw [hne g hg2.2]
    exact h.lru g hg2.1
  · intro g
    by_cases hgf : g = f
    · subst hgf
      rw [hself]
      show (0 : Int) ≤ 1
      omega
    · rw [hne g hgf]
      exact h.pin_nonneg g

theorem WF_fetch_hit (n : Nat) (s : BufferPoolManager) (p : page_id_t) (f : frame_id_t)
    (h : WF n s) (hp : ptFind s.page_table p = some f) : WF n (s.FetchPageImpl p).2 := by
  rw [FetchPageImpl_hit s p f hp]
  obtain ⟨hf, hid, hfree⟩ := h.pt p f hp
  have hlen : f < s.pages.length := h.pages_len.symm ▸ hf
  generalize hs1 : (some f, ({ s with
        pages := s.pages.set f { s.pageAt f with pin_count := (s.pageAt f).pin_count + 1 }
        replacer := s.replacer.Pin f } : BufferPoolManager)).2 = s1
  have hpages : s1.pages =
      s.pages.set f { s.pageAt f with pin_count := (s.pageAt f).pin_count + 1 } := by
    rw [← hs1]
  have hpt : s1.page_table = s.page_table := by rw [← hs1]
  have hfl : s1.free_list = s.free_list := by rw [← hs1]
  have hrep : s1.replacer = s.replacer.Pin f := by rw [← hs1]
  have hself := pageAt_of_pages_self s s1 f _ hpages hlen
  have hne : ∀ g, g ≠ f → s1.pageAt g = s.pageAt g :=
    fun g hg => pageAt_of_pages_ne s _ f g _ hpages hg
  refine ⟨?_, ?_, ?_, hfl ▸ h.free_nodup, ?_, ?_, ?_, ?_⟩
  · rw [hpages, List.length_set, h.pages_len]
  · rw [hrep]; exact (Pin_number_pages _ _).trans h.cap
  · intro k g hk
    rw [hpt] at hk
    obtain ⟨a, b, c⟩ := h.pt k g hk
    refine ⟨a, ?_, hfl ▸ c⟩
    by_cases hgf : g = f
    · subst hgf; rw [hself]; exact b
    · rw [hne g hgf]; exact b
  · intro g hg
    rw [hfl] at hg
    have hgf : g ≠ f := fun e => hfree (e ▸ hg)
    rw [hne g hgf]
    exact h.free g hg
  · rw [hrep]; exact Pin_nodup _ _ h.lru_nodup
  · intro g hg
    rw [hrep] at hg
    have hg2 := (mem_Pin _ _ _).mp hg
    rw [hne g hg2.2, hfl]
    exact h.lru g hg2.1
  · intro g
    by_cases hgf : g = f
    · subst hgf
      rw [hself]
      have := h.pin_nonneg g
      show 0 ≤ (s.pageAt g).pin_count + 1
      omega
    · rw [hne g hgf]
      exact h.pin_nonneg g

end bustub

/-! ## The invariant `WF` along every run -/

namespace bustub
open BufferPoolManager

theorem WF_modify (n : Nat) (s s1 : BufferPoolManager) (f : frame_id_t) (pg : Page)
    (h : WF n s) (hf : f < n) (hpages : s1.pages = s.pages.set f pg)
    (hpt : s1.page_table = s.page_table) (hfl : s1.free_list = s.free_list)
    (hcap : s1.replacer.number_pages = s.replacer.number_pages)
    (hid : pg.page_id = (s.pageAt f).page_id) (hpin : 0 ≤ pg.pin_count)
    (hffree : f ∉ s.free_list) (hnd : s1.replacer.LRU.Nodup)
    (hlru : ∀ g, g ∈ s1.replacer.LRU →
      (g ∈ s.replacer.LRU ∧ g ≠ f) ∨ (g = f ∧ pg.pin_count = 0)) : WF n s1 := by
  have hlen : f < s.pages.length := h.pages_len.symm ▸ hf
  have hself := pageAt_of_pages_self s s1 f _ hpages hlen
  have hne : ∀ g, g ≠ f → s1.pageAt g = s.pageAt g :=
    fun g hg => pageAt_of_pages_ne s _ f g _ hpages hg
  refine ⟨?_, hcap.trans h.cap, ?_, hfl ▸ h.free_nodup, ?_, hnd, ?_, ?_⟩
  · rw [hpages, List.length_set, h.pages_len]
  · intro k g hk
    rw [hpt] at hk
    obtain ⟨a, b, c⟩ := h.pt k g hk
    refine ⟨a, ?_, hfl ▸ c⟩
    by_cases hgf : g = f
    · subst hgf; rw [hself, hid]; exact b
    · rw [hne g hgf]; exact b
  · intro g hg
    rw [hfl] at hg
    have hgf : g ≠ f := fun e => hffree (e ▸ hg)
    rw [hne g hgf]
    exact h.free g hg
  · intro g hg
    rcases hlru g hg with ⟨hg1, hg2⟩ | ⟨hg1, hg2⟩
    · rw [hne g hg2, hfl]
      exact h.lru g hg1
    · subst hg1
      rw [hself, hfl]
      exact ⟨hf, hg2, hffree⟩
  · intro g
    by_cases hgf : g = f
    · subst hgf; rw [hself]; exact hpin
    · rw [hne g hgf]; exact h.pin_nonneg g

theorem mem_Unpin (r : LRUReplacer) (f g : frame_id_t) (h : g ∈ (r.Unpin f).LRU) :
    g ∈ r.LRU ∨ g = f := by
  unfold LRUReplacer.Unpin at h
  split at h
  · split at h
    · exact Or.inl h
    · simp only [List.mem_append, List.mem_singleton] at h
      exact h
  · exact Or.inl h

theorem Unpin_nodup (r : LRUReplacer) (f : frame_id_t) (h : r.LRU.Nodup) :
    (r.Unpin f).LRU.Nodup := by
  unfold LRUReplacer.Unpin
  split
  · split
    · exact h
    · rename_i hf
      show (r.LRU ++ [f]).Nodup
      rw [List.nodup_append]
      refine ⟨h, List.nodup_singleton f, ?_⟩
      intro a ha hb
      simp only [List.mem_singleton] at hb
      exact hf (hb ▸ ha)
  · exact h

theorem Unpin_number_pages (r : LRUReplacer) (f : frame_id_t) :
    (r.Unpin f).number_pages = r.number_pages := by
  unfold LRUReplacer.Unpin
  split
  · split <;> rfl
  · rfl

theorem WF_unpin (n : Nat) (s : BufferPoolManager) (p : page_id_t) (d : Bool) (h : WF n s) :
    WF n (s.UnpinPageImpl p d).2 := by
  cases hp : ptFind s.page_table p with
  | none => simp only [UnpinPageImpl, hp]; exact h
  | some f =>
    by_cases hc : (s.pageAt f).pin_count ≤ 0
    · simp only [UnpinPageImpl, hp, hc, if_true]; exact h
    · obtain ⟨hf, hid, hfree⟩ := h.pt p f hp
      have hlen : f < s.pages.length := h.pages_len.symm ▸ hf
      have hc1 : 0 < (s.pageAt f).pin_count := not_le.mp hc
      rw [UnpinPageImpl_ok s p d f hp hlen hc1]
      refine WF_modify n s _ f _ h hf rfl rfl rfl ?_ rfl ?_ hfree ?_ ?_
      · show (if (s.pageAt f).pin_count - 1 = 0 then s.replacer.Unpin f
            else s.replacer).number_pages = _
        split
        · exact Unpin_number_pages _ _
        · rfl
      · show 0 ≤ (s.pageAt f).pin_count - 1
        omega
      · show (if (s.pageAt f).pin_count - 1 = 0 then s.replacer.Unpin f
            else s.replacer).LRU.Nodup
        split
        · exact Unpin_nodup _ _ h.lru_nodup
        · exact h.lru_nodup
      · intro g hg
        change g ∈ (if (s.pageAt f).pin_count - 1 = 0 then s.replacer.Unpin f
            else s.replacer).LRU at hg
        by_cases h0 : (s.pageAt f).pin_count - 1 = 0
        · simp only [h0, if_true] at hg
          by_cases hgf : g = f
          · exact Or.inr ⟨hgf, h0⟩
          · rcases mem_Unpin _ _ _ hg with hg1 | hg1
            · exact Or.inl ⟨hg1, hgf⟩
            · exact absurd hg1 hgf
        · simp only [h0, if_false] at hg
          refine Or.inl ⟨hg, ?_⟩
          intro e
          subst e
          have := (h.lru g hg).2.1
          omega

theorem WF_flush (n : Nat) (s : BufferPoolManager) (p : page_id_t) (h : WF n s) :
    WF n (s.FlushPageImpl p).2 := by
  cases hp : ptFind s.page_table p with
  | none => simp only [FlushPageImpl, hp]; exact h
  | some f =>
    obtain ⟨hf, hid, hfree⟩ := h.pt p f hp
    have hlen : f < s.pages.length := h.pages_len.symm ▸ hf
    rw [FlushPageImpl_hit s p f hp hlen]
    refine WF_modify n s _ f _ h hf rfl rfl rfl rfl rfl (le_of_eq rfl) hfree h.lru_nodup ?_
    intro g hg
    by_cases hgf : g = f
    · exact Or.inr ⟨hgf, rfl⟩
    · exact Or.inl ⟨hg, hgf⟩

theorem WF_delete (n : Nat) (s : BufferPoolManager) (p : page_id_t) (h : WF n s) :
    WF n (s.DeletePageImpl p).2 := by
  cases hp : ptFind s.page_table p with
  | none => simp only [DeletePageImpl, hp]; exact h
  | some f =>
    by_cases hc : (s.pageAt f).pin_count > 0
    · simp only [DeletePageImpl, hp, hc, if_true]; exact h
    · obtain ⟨hf, hid, hfree⟩ := h.pt p f hp
      have hlen : f < s.pages.length := h.pages_len.symm ▸ hf
      rw [DeletePageImpl_ok s p f hp hc]
      generalize hs1 : ((true, ({ s with
        page_table := ptErase s.page_table (s.pageAt f).page_id
        pages := s.pages.set f Page.empty
        replacer := s.replacer.Pin f
        free_list := s.free_list ++ [f]
        disk_manager :=
          if (s.pageAt f).is_dirty then
            s.disk_manager.WritePage (s.pageAt f).page_id (s.pageAt f).data
          else s.disk_manager } : BufferPoolManager)) : Bool × BufferPoolManager).2 = s1
      have hpages : s1.pages = s.pages.set f Page.empty := by rw [← hs1]
      have hpt : s1.page_table = ptErase s.page_table (s.pageAt f).page_id := by rw [← hs1]
      have hfl : s1.free_list = s.free_list ++ [f] := by rw [← hs1]
      have hrep : s1.replacer = s.replacer.Pin f := by rw [← hs1]
      have hself := pageAt_of_pages_self s s1 f _ hpages hlen
      have hne : ∀ g, g ≠ f → s1.pageAt g = s.pageAt g :=
        fun g hg => pageAt_of_pages_ne s _ f g _ hpages hg
      refine ⟨?_, ?_, ?_, ?_, ?_, ?_, ?_, ?_⟩
      · rw [hpages, List.length_set, h.pages_len]
      · rw [hrep]; exact (Pin_number_pages _ _).trans h.cap
      · intro k g hk
        rw [hpt, ptFind_erase] at hk
        by_cases hko : k = (s.pageAt f).page_id
        · simp [hko] at hk
        · simp only [hko, if_false] at hk
          obtain ⟨a, b, c⟩ := h.pt k g hk
          have hgf : g ≠ f := by
            intro e
            subst e
            exact hko b.symm
          refine ⟨a, by rw [hne g hgf]; exact b, ?_⟩
          rw [hfl, List.mem_append, List.mem_singleton]
          rintro (h1 | h1)
          · exact c h1
          · exact hgf h1
      · rw [hfl, List.nodup_append]
        refine ⟨h.free_nodup, List.nodup_singleton f, ?_⟩
        intro a ha hb
        simp only [List.mem_singleton] at hb
        exact hfree (hb ▸ ha)
      · intro g hg
        rw [hfl, List.mem_append, List.mem_singleton] at hg
        by_cases hgf : g = f
        · subst hgf
          rw [hself]
          exact ⟨hf, rfl, rfl⟩
        · rcases hg with hg | hg
          · rw [hne g hgf]; exact h.free g hg
          · exact absurd hg hgf
      · rw [hrep]; exact Pin_nodup _ _ h.lru_nodup
      · intro g hg
        rw [hrep] at hg
        have hg2 := (mem_Pin _ _ _).mp hg
        obtain ⟨a, b, c⟩ := h.lru g hg2.1
        refine ⟨a, by rw [hne g hg2.2]; exact b, ?_⟩
        rw [hfl, List.mem_append, List.mem_singleton]
        rintro (h1 | h1)
        · exact c h1
        · exact hg2.2 h1
      · intro g
        by_cases hgf : g = f
        · subst hgf; rw [hself]; exact le_of_eq rfl
        · rw [hne g hgf]; exact h.pin_nonneg g

theorem WF_fetch (n : Nat) (s : BufferPoolManager) (p : page_id_t) (h : WF n s) :
    WF n (s.FetchPageImpl p).2 := by
  cases hp : ptFind s.page_table p with
  | some f => exact WF_fetch_hit n s p f h hp
  | none =>
    rcases hq : s.pickFrame with ⟨_ | f, s1⟩
    · rw [FetchPageImpl_null s s1 p hp hq]
      rcases pickFrame_cases s with ⟨g, rest, _, hq2⟩ | ⟨_, _, hq2⟩ | ⟨g, rest, _, _, hq2⟩
      · rw [hq2] at hq; simp at hq
      · rw [hq2] at hq
        simp only [Prod.mk.injEq, true_and] at hq
        exact hq ▸ h
      · rw [hq2] at hq; simp at hq
    · rw [FetchPageImpl_miss s s1 p f hp hq]
      obtain ⟨h1, hf, hfree, _⟩ := WF_pick n s s1 f h hq
      exact WF_install n s1 f p _ _ h1 hf hfree

theorem WF_new (n : Nat) (s : BufferPoolManager) (a : page_id_t) (h : WF n s) :
    WF n (s.NewPageImpl a).2.2 := by
  rcases hq : s.pickFrame with ⟨_ | f, s1⟩
  · rw [NewPageImpl_null s s1 a hq]
    rcases pickFrame_cases s with ⟨g, rest, _, hq2⟩ | ⟨_, _, hq2⟩ | ⟨g, rest, _, _, hq2⟩
    · rw [hq2] at hq; simp at hq
    · rw [hq2] at hq
      simp only [Prod.mk.injEq, true_and] at hq
      exact hq ▸ h
    · rw [hq2] at hq; simp at hq
  · rw [NewPageImpl_some s s1 a f hq]
    obtain ⟨h1, hf, hfree, _⟩ := WF_pick n s s1 f h hq
    exact WF_install n s1 f a _ _ h1 hf hfree

theorem WF_step (n : Nat) (s : BufferPoolManager) (op : Op) (h : WF n s) : WF n (step s op) := by
  cases op with
  | fetch p => exact WF_fetch n s p h
  | unpin p d => exact WF_unpin n s p d h
  | new_page a => exact WF_new n s a h
  | flush p => exact WF_flush n s p h
  | delete p => exact WF_delete n s p h

theorem WF_run (n : Nat) (s : BufferPoolManager) (ops : List Op) (h : WF n s) :
    WF n (run s ops) := by
  induction ops generalizing s with
  | nil => exact h
  | cons op rest ih => exact ih (step s op) (WF_step n s op h)

theorem WF_reachable (n : Nat) (dm : DiskManager) (ops : List Op) :
    WF n (run (create n dm) ops) :=
  WF_run n _ ops (WF_create n dm)

end bustub

/-! ## The invariant `Tight`, step by step -/

namespace bustub
open BufferPoolManager

theorem Tight_create (n : Nat) (dm : DiskManager) : Tight n (create n dm) where
  keys_nodup := List.nodup_nil
  free_invalid := by
    intro f _
    simp only [pageAt, create, getD_replicate_page]
    rfl
  no_invalid := rfl
  cover := fun f hf => Or.inl (List.mem_range.mpr hf)

theorem Tight_modify (n : Nat) (s s1 : BufferPoolManager) (f : frame_id_t) (pg : Page)
    (t : Tight n s) (hpages : s1.pages = s.pages.set f pg)
    (hpt : s1.page_table = s.page_table) (hfl : s1.free_list = s.free_list)
    (hffree : f ∉ s.free_list) : Tight n s1 := by
  refine ⟨hpt ▸ t.keys_nodup, ?_, hpt ▸ t.no_invalid, ?_⟩
  · intro g hg
    rw [hfl] at hg
    have hgf : g ≠ f := fun e => hffree (e ▸ hg)
    rw [pageAt_of_pages_ne s s1 f g pg hpages hgf]
    exact t.free_invalid g hg
  · intro g hg
    rw [hfl, hpt]
    exact t.cover g hg

theorem Tight_fetch_hit (n : Nat) (s : BufferPoolManager) (p : page_id_t) (f : frame_id_t)
    (h : WF n s) (t : Tight n s) (hp : ptFind s.page_table p = some f) :
    Tight n (s.FetchPageImpl p).2 := by
  rw [FetchPageImpl_hit s p f hp]
  exact Tight_modify n s _ f _ t rfl rfl rfl (h.pt p f hp).2.2

theorem Tight_unpin (n : Nat) (s : BufferPoolManager) (p : page_id_t) (d : Bool) (h : WF n s)
    (t : Tight n s) : Tight n (s.UnpinPageImpl p d).2 := by
  cases hp : ptFind s.page_table p with
  | none => simp only [UnpinPageImpl, hp]; exact t
  | some f =>
    by_cases hc : (s.pageAt f).pin_count ≤ 0
    · simp only [UnpinPageImpl, hp, hc, if_true]; exact t
    · obtain ⟨hf, hid, hfree⟩ := h.pt p f hp
      have hlen : f < s.pages.length := h.pages_len.symm ▸ hf
      rw [UnpinPageImpl_ok s p d f hp hlen (not_le.mp hc)]
      exact Tight_modify n s _ f _ t rfl rfl rfl hfree

theorem Tight_flush (n : Nat) (s : BufferPoolManager) (p : page_id_t) (h : WF n s)
    (t : Tight n s) : Tight n (s.FlushPageImpl p).2 := by
  cases hp : ptFind s.page_table p with
  | none => simp only [FlushPageImpl, hp]; exact t
  | some f =>
    obtain ⟨hf, hid, hfree⟩ := h.pt p f hp
    have hlen : f < s.pages.length := h.pages_len.symm ▸ hf
    rw [FlushPageImpl_hit s p f hp hlen]
    exact Tight_modify n s _ f _ t rfl rfl rfl hfree

theorem Tight_delete (n : Nat) (s : BufferPoolManager) (p : page_id_t) (h : WF n s)
    (t : Tight n s) : Tight n (s.DeletePageImpl p).2 := by
  cases hp : ptFind s.page_table p with
  | none => simp only [DeletePageImpl, hp]; exact t
  | some f =>
    by_cases hc : (s.pageAt f).pin_count > 0
    · simp only [DeletePageImpl, hp, hc, if_true]; exact t
    · obtain ⟨hf, hid, hfree⟩ := h.pt p f hp
      have hlen : f < s.pages.length := h.pages_len.symm ▸ hf
      rw [DeletePageImpl_ok s p f hp hc]
      refine ⟨ptErase_keys_nodup _ _ t.keys_nodup, ?_, ?_, ?_⟩
      · intro g hg
        change g ∈ s.free_list ++ [f] at hg
        rw [List.mem_append, List.mem_singleton] at hg
        by_cases hgf : g = f
        · subst hgf
          rw [pageAt_of_pages_self s _ g Page.empty rfl hlen]
          rfl
        · rw [pageAt_of_pages_ne s _ f g Page.empty rfl hgf]
          rcases hg with hg | hg
          · exact t.free_invalid g hg
          · exact absurd hg hgf
      · show ptFind (ptErase s.page_table (s.pageAt f).page_id) INVALID_PAGE_ID = none
        rw [ptFind_erase, t.no_invalid]
        simp
      · intro g hg
        show g ∈ s.free_list ++ [f] ∨
          ∃ k, ptFind (ptErase s.page_table (s.pageAt f).page_id) k = some g
        by_cases hgf : g = f
        · exact Or.inl (by simp [hgf])
        · rcases t.cover g hg with hg1 | ⟨k, hk⟩
          · exact Or.inl (List.mem_append_left _ hg1)
          · refine Or.inr ⟨k, ?_⟩
            rw [ptFind_erase]
            have hko : k ≠ (s.pageAt f).page_id := by
              intro e
              rw [hid] at e
              rw [e, hp] at hk
              exact hgf (Option.some.inj hk).symm
            simp only [hko, if_false]
            exact hk

theorem Tight_acquire (n : Nat) (s s1 : BufferPoolManager) (f : frame_id_t) (p : page_id_t)
    (data : PageData) (dm : DiskManager) (h : WF n s) (t : Tight n s)
    (hq : s.pickFrame = (some f, s1)) (hp : ptFind s.page_table p = none)
    (hpi : p ≠ INVALID_PAGE_ID) : Tight n (s1.install f p data dm) := by
  obtain ⟨h1, hf, hfree1, hlru1, hpages, hpt, _⟩ := WF_pick n s s1 f h hq
  have hlen : f < s1.pages.length := h1.pages_len.symm ▸ hf
  have hpa : ∀ g, s1.pageAt g = s.pageAt g := by
    intro g; simp only [pageAt, hpages]
  -- the id carried by the frame is not the key of another frame
  have hold : ∀ k g, ptFind s.page_table k = some g → g ≠ f → k ≠ (s.pageAt f).page_id := by
    intro k g hk hgf e
    rcases pickFrame_cases s with ⟨g2, rest, hfl, hq2⟩ | ⟨_, _, hq2⟩ | ⟨g2, rest, hfl, hl, hq2⟩
    · rw [hq2] at hq
      simp only [Prod.mk.injEq, Option.some.injEq] at hq
      have hmem : f ∈ s.free_list := by rw [hfl, ← hq.1]; exact List.mem_cons_self _ _
      rw [t.free_invalid f hmem] at e
      rw [e, t.no_invalid] at hk
      exact Option.noConfusion hk
    · rw [hq2] at hq; simp at hq
    · rw [hq2] at hq
      simp only [Prod.mk.injEq, Option.some.injEq] at hq
      rcases t.cover f hf with hc | ⟨k2, hk2⟩
      · rw [hfl] at hc; simp at hc
      · have hkk := (h.pt k2 f hk2).2.1
        rw [← e] at hkk
        rw [← hkk, hk] at hk2
        exact hgf (Option.some.inj hk2)
  refine ⟨?_, ?_, ?_, ?_⟩
  · exact ptAssign_keys_nodup _ _ _ (ptErase_keys_nodup _ _ (hpt ▸ t.keys_nodup))
  · intro g hg
    change g ∈ s1.free_list at hg
    have hgf : g ≠ f := fun e => hfree1 (e ▸ hg)
    rw [pageAt_of_pages_ne s1 _ f g _ rfl hgf, hpa]
    have hsub : g ∈ s.free_list := by
      rcases pickFrame_cases s with ⟨g2, rest, hfl, hq2⟩ | ⟨_, _, hq2⟩ | ⟨g2, rest, hfl, hl, hq2⟩
      · rw [hq2] at hq
        simp only [Prod.mk.injEq, Option.some.injEq] at hq
        rw [← hq.2] at hg
        rw [hfl]
        exact List.mem_cons_of_mem _ hg
      · rw [hq2] at hq; simp at hq
      · rw [hq2] at hq
        simp only [Prod.mk.injEq, Option.some.injEq] at hq
        rw [← hq.2] at hg
        exact hg
    exact t.free_invalid g hsub
  · show ptFind (ptAssign (ptErase s1.page_table (s1.pageAt f).page_id) p f) INVALID_PAGE_ID = none
    rw [ptFind_assign, ptFind_erase, hpt, t.no_invalid]
    simp [hpi]
  · intro g hg
    show g ∈ s1.free_list ∨
      ∃ k, ptFind (ptAssign (ptErase s1.page_table (s1.pageAt f).page_id) p f) k = some g
    by_cases hgf : g = f
    · refine Or.inr ⟨p, ?_⟩
      rw [ptFind_assign]
      simp [hgf]
    · rcases t.cover g hg with hg1 | ⟨k, hk⟩
      · left
        rcases pickFrame_cases s with ⟨g2, rest, hfl, hq2⟩ | ⟨_, _, hq2⟩ | ⟨g2, rest, hfl, hl, hq2⟩
        · rw [hq2] at hq
          simp only [Prod.mk.injEq, Option.some.injEq] at hq
          rw [← hq.2]
          rw [hfl, List.mem_cons] at hg1
          rcases hg1 with hg1 | hg1
          · exact absurd (hg1.trans hq.1) hgf
          · exact hg1
        · rw [hq2] at hq; simp at hq
        · rw [hfl] at hg1; simp at hg1
      · refine Or.inr ⟨k, ?_⟩
        have hkp : p ≠ k := by
          intro e
          rw [← e, hp] at hk
          exact Option.noConfusion hk
        have hko := hold k g hk hgf
        rw [ptFind_assign, ptFind_erase, hpt, hpa]
        simp only [hkp, hko, if_false]
        exact hk

end bustub

/-! ## Runs with a fresh allocator: `Tight` and the frame partition -/

namespace bustub
open BufferPoolManager

theorem pickFrame_null_state (s s1 : BufferPoolManager) (hq : s.pickFrame = (none, s1)) :
    s1 = s ∧ s.free_list = [] ∧ s.replacer.LRU = [] := by
  rcases pickFrame_cases s with ⟨g, rest, _, hq2⟩ | ⟨h1, h2, hq2⟩ | ⟨g, rest, _, _, hq2⟩
  · rw [hq2] at hq; simp at hq
  · rw [hq2] at hq
    simp only [Prod.mk.injEq, true_and] at hq
    exact ⟨hq.symm, h1, h2⟩
  · rw [hq2] at hq; simp at hq

theorem pickFrame_keeps (s s1 : BufferPoolManager) (r : Option frame_id_t)
    (hq : s.pickFrame = (r, s1)) : s1.page_table = s.page_table ∧ s1.pages = s.pages := by
  rcases pickFrame_cases s with ⟨g, rest, _, hq2⟩ | ⟨_, _, hq2⟩ | ⟨g, rest, _, _, hq2⟩ <;>
  · rw [hq2] at hq
    simp only [Prod.mk.injEq] at hq
    rw [← hq.2]
    exact ⟨rfl, rfl⟩

theorem keys_step (n : Nat) (s : BufferPoolManager) (op : Op) (h : WF n s) (k : page_id_t)
    (g : frame_id_t) (hk : ptFind (step s op).page_table k = some g) :
    k = op.pageId ∨ ∃ g2, ptFind s.page_table k = some g2 := by
  cases op with
  | fetch p =>
    simp only [step] at hk
    cases hp : ptFind s.page_table p with
    | some f =>
      rw [FetchPageImpl_hit s p f hp] at hk
      exact Or.inr ⟨g, hk⟩
    | none =>
      rcases hq : s.pickFrame with ⟨_ | f, s1⟩
      · rw [FetchPageImpl_null s s1 p hp hq, (pickFrame_null_state s s1 hq).1] at hk
        exact Or.inr ⟨g, hk⟩
      · rw [FetchPageImpl_miss s s1 p f hp hq] at hk
        change ptFind (ptAssign (ptErase s1.page_table (s1.pageAt f).page_id) p f) k = some g at hk
        rw [ptFind_assign, ptFind_erase, (pickFrame_keeps s s1 _ hq).1] at hk
        by_cases hpk : p = k
        · exact Or.inl hpk.symm
        · simp only [hpk, if_false] at hk
          split at hk
          · exact Option.noConfusion hk
          · exact Or.inr ⟨g, hk⟩
  | new_page a =>
    simp only [step] at hk
    rcases hq : s.pickFrame with ⟨_ | f, s1⟩
    · rw [NewPageImpl_null s s1 a hq, (pickFrame_null_state s s1 hq).1] at hk
      exact Or.inr ⟨g, hk⟩
    · rw [NewPageImpl_some s s1 a f hq] at hk
      change ptFind (ptAssign (ptErase s1.page_table (s1.pageAt f).page_id) a f) k = some g at hk
      rw [ptFind_assign, ptFind_erase, (pickFrame_keeps s s1 _ hq).1] at hk
      by_cases hpk : a = k
      · exact Or.inl hpk.symm
      · simp only [hpk, if_false] at hk
        split at hk
        · exact Option.noConfusion hk
        · exact Or.inr ⟨g, hk⟩
  | unpin p d =>
    simp only [step] at hk
    cases hp : ptFind s.page_table p with
    | none =>
      simp only [UnpinPageImpl, hp] at hk
      exact Or.inr ⟨g, hk⟩
    | some f =>
      by_cases hc : (s.pageAt f).pin_count ≤ 0
      · simp only [UnpinPageImpl, hp, hc, if_true] at hk
        exact Or.inr ⟨g, hk⟩
      · have hlen : f < s.pages.length := h.pages_len.symm ▸ (h.pt p f hp).1
        rw [UnpinPageImpl_ok s p d f hp hlen (not_le.mp hc)] at hk
        exact Or.inr ⟨g, hk⟩
  | flush p =>
    simp only [step] at hk
    cases hp : ptFind s.page_table p with
    | none =>
      simp only [FlushPageImpl, hp] at hk
      exact Or.inr ⟨g, hk⟩
    | some f =>
      have hlen : f < s.pages.length := h.pages_len.symm ▸ (h.pt p f hp).1
      rw [FlushPageImpl_hit s p f hp hlen] at hk
      exact Or.inr ⟨g, hk⟩
  | delete p =>
    simp only [step] at hk
    cases hp : ptFind s.page_table p with
    | none =>
      simp only [DeletePageImpl, hp] at hk
      exact Or.inr ⟨g, hk⟩
    | some f =>
      by_cases hc : (s.pageAt f).pin_count > 0
      · simp only [DeletePageImpl, hp, hc, if_true] at hk
        exact Or.inr ⟨g, hk⟩
      · rw [DeletePageImpl_ok s p f hp hc] at hk
        change ptFind (ptErase s.page_table (s.pageAt f).page_id) k = some g at hk
        rw [ptFind_erase] at hk
        split at hk
        · exact Option.noConfusion hk
        · exact Or.inr ⟨g, hk⟩

theorem KeysSeen_step (n : Nat) (seen : List page_id_t) (s : BufferPoolManager) (op : Op)
    (h : WF n s) (hs : KeysSeen seen s) : KeysSeen (op.pageId :: seen) (step s op) := by
  intro k g hk
  rcases keys_step n s op h k g hk with e | ⟨g2, hg2⟩
  · exact e ▸ List.mem_cons_self _ _
  · exact List.mem_cons_of_mem _ (hs k g2 hg2)

theorem Tight_fetch (n : Nat) (s : BufferPoolManager) (p : page_id_t) (h : WF n s)
    (t : Tight n s) (hpi : p ≠ INVALID_PAGE_ID) : Tight n (s.FetchPageImpl p).2 := by
  cases hp : ptFind s.page_table p with
  | some f => exact Tight_fetch_hit n s p f h t hp
  | none =>
    rcases hq : s.pickFrame with ⟨_ | f, s1⟩
    · rw [FetchPageImpl_null s s1 p hp hq, (pickFrame_null_state s s1 hq).1]
      exact t
    · rw [FetchPageImpl_miss s s1 p f hp hq]
      exact Tight_acquire n s s1 f p _ _ h t hq hp hpi

theorem Tight_new (n : Nat) (s : BufferPoolManager) (a : page_id_t) (h : WF n s)
    (t : Tight n s) (hpi : a ≠ INVALID_PAGE_ID) (hp : ptFind s.page_table a = none) :
    Tight n (s.NewPageImpl a).2.2 := by
  rcases hq : s.pickFrame with ⟨_ | f, s1⟩
  · rw [NewPageImpl_null s s1 a hq, (pickFrame_null_state s s1 hq).1]
    exact t
  · rw [NewPageImpl_some s s1 a f hq]
    exact Tight_acquire n s s1 f a _ _ h t hq hp hpi

theorem not_seen_absent (seen : List page_id_t) (s : BufferPoolManager) (a : page_id_t)
    (hs : KeysSeen seen s) (ha : a ∉ seen) : ptFind s.page_table a = none := by
  cases hp : ptFind s.page_table a with
  | none => rfl
  | some f => exact absurd (hs a f hp) ha

theorem Tight_run (n : Nat) (ops : List Op) :
    ∀ (seen : List page_id_t) (s : BufferPoolManager), WF n s → Tight n s → KeysSeen seen s →
      INVALID_PAGE_ID ∈ seen → FreshFrom seen ops → NoInvalidFetch ops →
      Tight n (run s ops) ∧ KeysSeen (seenAfter seen ops) (run s ops) := by
  induction ops with
  | nil => intro seen s _ t hs _ _ _; exact ⟨t, hs⟩
  | cons op rest ih =>
    intro seen s h t hs hinv hfresh hno
    have hno2 : NoInvalidFetch rest := fun hm => hno (List.mem_cons_of_mem _ hm)
    have hks := KeysSeen_step n seen s op h hs
    have hinv2 : INVALID_PAGE_ID ∈ op.pageId :: seen := List.mem_cons_of_mem _ hinv
    have hwf := WF_step n s op h
    show Tight n (run (step s op) rest) ∧
      KeysSeen (seenAfter (op.pageId :: seen) rest) (run (step s op) rest)
    cases op with
    | fetch p =>
      have hpi : p ≠ INVALID_PAGE_ID := by
        intro e
        exact hno (e ▸ List.mem_cons_self _ _)
      exact ih _ _ hwf (Tight_fetch n s p h t hpi) hks hinv2 hfresh hno2
    | unpin p d => exact ih _ _ hwf (Tight_unpin n s p d h t) hks hinv2 hfresh hno2
    | new_page a =>
      have ha : a ∉ seen := hfresh.1
      have hpi : a ≠ INVALID_PAGE_ID := fun e => ha (e ▸ hinv)
      exact ih _ _ hwf (Tight_new n s a h t hpi (not_seen_absent seen s a hs ha)) hks hinv2
        hfresh.2 hno2
    | flush p => exact ih _ _ hwf (Tight_flush n s p h t) hks hinv2 hfresh hno2
    | delete p => exact ih _ _ hwf (Tight_delete n s p h t) hks hinv2 hfresh hno2

theorem countP_eq_one_of_unique {α : Type} (l : List α) (p : α → Bool) (a : α)
    (hnd : l.Nodup) (ha : a ∈ l) (hp : ∀ x, x ∈ l → (p x = true ↔ x = a)) :
    l.countP p = 1 := by
  induction l with
  | nil => simp at ha
  | cons x xs ih =>
    obtain ⟨hx, hxs⟩ := List.nodup_cons.mp hnd
    by_cases hxa : x = a
    · have hpx : p x = true := (hp x (List.mem_cons_self _ _)).mpr hxa
      rw [List.countP_cons_of_pos _ _ hpx]
      have h0 : xs.countP p = 0 := by
        rw [List.countP_eq_zero]
        intro y hy hpy
        have hya := (hp y (List.mem_cons_of_mem _ hy)).mp hpy
        exact hx (hxa ▸ hya ▸ hy)
      omega
    · have hpx : ¬ p x = true := fun e => hxa ((hp x (List.mem_cons_self _ _)).mp e)
      rw [List.countP_cons_of_neg _ _ hpx]
      have ha2 : a ∈ xs := by
        rcases List.mem_cons.mp ha with e | e
        · exact absurd e.symm hxa
        · exact e
      exact ih hxs ha2 (fun y hy => hp y (List.mem_cons_of_mem _ hy))

theorem FramePartition_of (n : Nat) (s : BufferPoolManager) (h : WF n s) (t : Tight n s) :
    FramePartition n s := by
  have hnd : s.page_table.Nodup := List.Nodup.of_map _ t.keys_nodup
  have hfind : ∀ e, e ∈ s.page_table → ptFind s.page_table e.1 = some e.2 :=
    fun e he => ptFind_of_mem _ t.keys_nodup e.1 e.2 he
  constructor
  · intro f hf
    rcases t.cover f hf with hfree | ⟨k, hk⟩
    · refine Or.inl ⟨hfree, ?_⟩
      rw [List.countP_eq_zero]
      intro e he hv
      simp only [decide_eq_true_eq] at hv
      exact (h.pt e.1 e.2 (hfind e he)).2.2 (hv ▸ hfree)
    · refine Or.inr ⟨(h.pt k f hk).2.2, ?_⟩
      have hmem : (k, f) ∈ s.page_table := ptFind_mem _ _ _ hk
      refine countP_eq_one_of_unique _ _ (k, f) hnd hmem ?_
      intro e he
      simp only [decide_eq_true_eq]
      constructor
      · intro hv
        have h1 := (h.pt e.1 e.2 (hfind e he)).2.1
        rw [hv, (h.pt k f hk).2.1] at h1
        exact Prod.ext h1.symm hv
      · intro hv
        rw [hv]
  · have hvals : (s.page_table.map Prod.snd).Nodup := by
      refine List.Nodup.map_on ?_ hnd
      intro x hx y hy hxy
      have h1 := (h.pt x.1 x.2 (hfind x hx)).2.1
      have h2 := (h.pt y.1 y.2 (hfind y hy)).2.1
      rw [hxy, h2] at h1
      exact Prod.ext h1.symm hxy
    have hall : (s.free_list ++ s.page_table.map Prod.snd).Nodup := by
      rw [List.nodup_append]
      refine ⟨h.free_nodup, hvals, ?_⟩
      intro a ha hb
      rw [List.mem_map] at hb
      obtain ⟨e, he, hea⟩ := hb
      exact (h.pt e.1 e.2 (hfind e he)).2.2 (hea ▸ ha)
    have hperm : (s.free_list ++ s.page_table.map Prod.snd).Perm (List.range n) := by
      rw [List.perm_ext_iff_of_nodup hall (List.nodup_range n)]
      intro a
      rw [List.mem_append, List.mem_range, List.mem_map]
      constructor
      · rintro (ha | ⟨e, he, hea⟩)
        · exact (h.free a ha).1
        · exact hea ▸ (h.pt e.1 e.2 (hfind e he)).1
      · intro ha
        rcases t.cover a ha with hfree | ⟨k, hk⟩
        · exact Or.inl hfree
        · exact Or.inr ⟨(k, a), ptFind_mem _ _ _ hk, rfl⟩
    have hlen := hperm.length_eq
    rw [List.length_append, List.length_map, List.length_range] at hlen
    exact hlen

end bustub

/-! ## C1: frame partition -/

namespace bustub
open BufferPoolManager

/-- C1 (counterexample): the claim as stated, with arbitrary page-id arguments,
fails.  On a new pool of two frames, fetching the sentinel id and then page 5
(no allocation happens, so the allocator contract holds) leaves frame 0 neither
free nor cached: the free list is empty, the page table has one entry, and the
two sizes add up to 1, not 2. -/
theorem C1_counterexample :
    FreshAllocs [Op.fetch INVALID_PAGE_ID, Op.fetch 5] ∧
      ¬ FramePartition 2 (run (create 2 blankDisk) [Op.fetch INVALID_PAGE_ID, Op.fetch 5]) := by
  refine ⟨by simp [FreshAllocs, FreshFrom], ?_⟩
  intro h
  have h2 := h.2
  revert h2
  decide

/-- C1 (amended): in every state reached from a new pool of `n` frames by any
sequence of fetch, unpin, new_page, flush and delete calls in which fetch is
never called with the sentinel INVALID and `allocate_page` answers with ids never
seen before, every frame id below `n` is either in the free list and in no
page-table entry, or outside the free list and the value of exactly one
page-table entry; and free-list size + page-table size = `n`. -/
theorem frame_partition_invariant (n : Nat) (dm : DiskManager) (ops : List Op)
    (hfresh : FreshAllocs ops) (hno : NoInvalidFetch ops) :
    FramePartition n (run (create n dm) ops) :=
  FramePartition_of n _ (WF_reachable n dm ops)
    (Tight_run n ops [INVALID_PAGE_ID] (create n dm) (WF_create n dm) (Tight_create n dm)
      (fun _ _ hk => Option.noConfusion hk) (List.mem_singleton.mpr rfl) hfresh hno).1

/-- C1 (witness): the amended invariant on a pool of two frames after a run that
allocates, fetches, unpins, deletes and flushes. -/
theorem frame_partition_invariant_witness :
    FreshAllocs [Op.new_page 0, Op.fetch 7, Op.unpin 0 true, Op.delete 0, Op.flush 7,
        Op.new_page 1] ∧
      NoInvalidFetch [Op.new_page 0, Op.fetch 7, Op.unpin 0 true, Op.delete 0, Op.flush 7,
        Op.new_page 1] ∧
      FramePartition 2 (run (create 2 blankDisk)
        [Op.new_page 0, Op.fetch 7, Op.unpin 0 true, Op.delete 0, Op.flush 7, Op.new_page 1]) :=
  ⟨by simp [FreshAllocs, FreshFrom, Op.pageId, INVALID_PAGE_ID], by simp [NoInvalidFetch, INVALID_PAGE_ID],
    frame_partition_invariant 2 blankDisk _
      (by simp [FreshAllocs, FreshFrom, Op.pageId, INVALID_PAGE_ID]) (by simp [NoInvalidFetch, INVALID_PAGE_ID])⟩

end bustub

/-! ## C2: pinned frames are not evicted -/

namespace bustub
open BufferPoolManager

theorem fetch_miss_inv (s : BufferPoolManager) (p : page_id_t) (f : frame_id_t)
    (hp : ptFind s.page_table p = none) (hr : (s.FetchPageImpl p).1 = some f) :
    ∃ s1, s.pickFrame = (some f, s1) ∧
      s.FetchPageImpl p =
        (some f, s1.install f p (s1.disk_manager.ReadPage p) s1.disk_manager) := by
  rcases hq : s.pickFrame with ⟨_ | g, s1⟩
  · rw [FetchPageImpl_null s s1 p hp hq] at hr
    exact Option.noConfusion hr
  · have e := FetchPageImpl_miss s s1 p g hp hq
    rw [e] at hr
    have hg : g = f := Option.some.inj hr
    subst hg
    exact ⟨s1, rfl, e⟩

theorem new_inv (s : BufferPoolManager) (a : page_id_t) (f : frame_id_t)
    (hr : (s.NewPageImpl a).1 = some f) :
    ∃ s1, s.pickFrame = (some f, s1) ∧
      s.NewPageImpl a =
        (some f, a, s1.install f a zeroData (s1.disk_manager.AllocatePage a).2) := by
  rcases hq : s.pickFrame with ⟨_ | g, s1⟩
  · rw [NewPageImpl_null s s1 a hq] at hr
    exact Option.noConfusion hr
  · have e := NewPageImpl_some s s1 a g hq
    rw [e] at hr
    have hg : g = f := Option.some.inj hr
    subst hg
    exact ⟨s1, rfl, e⟩

theorem install_post (s1 : BufferPoolManager) (f : frame_id_t) (p : page_id_t)
    (data : PageData) (dm : DiskManager) (hlen : f < s1.pages.length) :
    ptFind (s1.install f p data dm).page_table p = some f ∧
      (s1.install f p data dm).pageAt f =
        { data := data, page_id := p, pin_count := 1, is_dirty := false } ∧
      f ∉ (s1.install f p data dm).replacer.LRU := by
  refine ⟨?_, pageAt_of_pages_self s1 _ f _ rfl hlen, ?_⟩
  · show ptFind (ptAssign _ p f) p = some f
    rw [ptFind_assign]
    simp
  · intro hm
    exact ((mem_Pin _ _ _).mp hm).2 rfl

theorem fetch_post (n : Nat) (s : BufferPoolManager) (p : page_id_t) (f : frame_id_t)
    (h : WF n s) (hr : (s.FetchPageImpl p).1 = some f) :
    ptFind (s.FetchPageImpl p).2.page_table p = some f ∧
      1 ≤ ((s.FetchPageImpl p).2.pageAt f).pin_count ∧
      f ∉ (s.FetchPageImpl p).2.replacer.LRU := by
  cases hp : ptFind s.page_table p with
  | some g =>
    have e := FetchPageImpl_hit s p g hp
    rw [e] at hr ⊢
    have hg : g = f := Option.some.inj hr
    subst hg
    have hlen : g < s.pages.length := h.pages_len.symm ▸ (h.pt p g hp).1
    refine ⟨hp, ?_, ?_⟩
    · rw [pageAt_of_pages_self s _ g _ rfl hlen]
      have := h.pin_nonneg g
      show 1 ≤ (s.pageAt g).pin_count + 1
      omega
    · intro hm
      exact ((mem_Pin _ _ _).mp hm).2 rfl
  | none =>
    obtain ⟨s1, hq, e⟩ := fetch_miss_inv s p f hp hr
    obtain ⟨h1, hf, _⟩ := WF_pick n s s1 f h hq
    have hlen : f < s1.pages.length := h1.pages_len.symm ▸ hf
    rw [e]
    obtain ⟨a, b, c⟩ := install_post s1 f p (s1.disk_manager.ReadPage p) s1.disk_manager hlen
    refine ⟨a, ?_, c⟩
    rw [b]

/-- C2: a pinned frame is never evicted.  In every state `s` reachable from a new
pool by fetch, unpin, new_page, flush and delete calls (any arguments), every
frame in the replacer's eligible list and every frame in the free list has
pin_count = 0; hence the frame that a fetch of an uncached page or a new_page
takes over has pin_count = 0 at the time of the call; and after two fetches of the
same page and one unpin, the frame the fetch returned is not in the replacer. -/
theorem pinned_never_evicted (n : Nat) (dm : DiskManager) (ops : List Op) :
    (∀ f, f ∈ (run (create n dm) ops).replacer.LRU →
      ((run (create n dm) ops).pageAt f).pin_count = 0) ∧
    (∀ f, f ∈ (run (create n dm) ops).free_list →
      ((run (create n dm) ops).pageAt f).pin_count = 0) ∧
    (∀ p f, ptFind (run (create n dm) ops).page_table p = none →
      ((run (create n dm) ops).FetchPageImpl p).1 = some f →
      ((run (create n dm) ops).pageAt f).pin_count = 0) ∧
    (∀ a f, ((run (create n dm) ops).NewPageImpl a).1 = some f →
      ((run (create n dm) ops).pageAt f).pin_count = 0) ∧
    (∀ p d f, ((run (create n dm) ops).FetchPageImpl p).1 = some f →
      f ∉ (run (run (create n dm) ops)
        [Op.fetch p, Op.fetch p, Op.unpin p d]).replacer.LRU) := by
  have h := WF_reachable n dm ops
  generalize run (create n dm) ops = s at h
  refine ⟨fun f hf => (h.lru f hf).2.1, fun f hf => (h.free f hf).2.1, ?_, ?_, ?_⟩
  · intro p f hp hr
    obtain ⟨s1, hq, _⟩ := fetch_miss_inv s p f hp hr
    exact (WF_pick n s s1 f h hq).2.2.2.2.2.2
  · intro a f hr
    obtain ⟨s1, hq, _⟩ := new_inv s a f hr
    exact (WF_pick n s s1 f h hq).2.2.2.2.2.2
  · intro p d f hr
    obtain ⟨hpt1, hpin1, _⟩ := fetch_post n s p f h hr
    have h1 := WF_fetch n s p h
    show f ∉ (((s.FetchPageImpl p).2.FetchPageImpl p).2.UnpinPageImpl p d).2.replacer.LRU
    generalize (s.FetchPageImpl p).2 = s1 at hpt1 hpin1 h1
    have hlen : f < s1.pages.length := h1.pages_len.symm ▸ (h1.pt p f hpt1).1
    have e2 : (s1.FetchPageImpl p).2 = { s1 with
        pages := s1.pages.set f { s1.pageAt f with pin_count := (s1.pageAt f).pin_count + 1 }
        replacer := s1.replacer.Pin f } := by
      rw [FetchPageImpl_hit s1 p f hpt1]
    generalize (s1.FetchPageImpl p).2 = s2 at e2
    have hpt2 : ptFind s2.page_table p = some f := by rw [e2]; exact hpt1
    have hlen2 : f < s2.pages.length := by rw [e2]; simpa using hlen
    have hpin2 : (s2.pageAt f).pin_count = (s1.pageAt f).pin_count + 1 := by
      rw [pageAt_of_pages_self s1 s2 f _ (by rw [e2]) hlen]
    have hrep2 : s2.replacer = s1.replacer.Pin f := by rw [e2]
    rw [UnpinPageImpl_ok s2 p d f hpt2 hlen2 (by rw [hpin2]; omega)]
    have hne : ¬ ((s2.pageAt f).pin_count - 1 = 0) := by rw [hpin2]; omega
    simp only [hne, if_false, hrep2]
    intro hm
    exact ((mem_Pin _ _ _).mp hm).2 rfl

/-- C2 (witness): on a pool of one frame, after fetch 1 and unpin 1 the frame is
in the replacer and its pin count is 0; a fetch of page 2 then takes it over. -/
theorem pinned_never_evicted_witness :
    0 ∈ (run (create 1 blankDisk) [Op.fetch 1, Op.unpin 1 false]).replacer.LRU ∧
      ((run (create 1 blankDisk) [Op.fetch 1, Op.unpin 1 false]).pageAt 0).pin_count = 0 :=
  ⟨by decide,
    (pinned_never_evicted 1 blankDisk [Op.fetch 1, Op.unpin 1 false]).1 0 (by decide)⟩

end bustub

/-! ## C3: capacity exhaustion -/

namespace bustub
open BufferPoolManager

theorem pickFrame_none_iff (s : BufferPoolManager) :
    s.pickFrame.1 = none ↔ s.free_list = [] ∧ s.replacer.LRU = [] := by
  rcases pickFrame_cases s with ⟨g, rest, hfl, hq⟩ | ⟨h1, h2, hq⟩ | ⟨g, rest, hfl, hl, hq⟩
  · rw [hq, hfl]; simp
  · rw [hq]; simp [h1, h2]
  · rw [hq, hl]; simp

theorem fetch_none_iff (s : BufferPoolManager) (p : page_id_t) :
    (s.FetchPageImpl p).1 = none ↔
      ptFind s.page_table p = none ∧ s.free_list = [] ∧ s.replacer.LRU = [] := by
  cases hp : ptFind s.page_table p with
  | some f => rw [FetchPageImpl_hit s p f hp]; simp
  | none =>
    rw [← pickFrame_none_iff]
    rcases hq : s.pickFrame with ⟨_ | f, s1⟩
    · rw [FetchPageImpl_null s s1 p hp hq]; simp
    · rw [FetchPageImpl_miss s s1 p f hp hq]; simp

theorem new_none_iff (s : BufferPoolManager) (a : page_id_t) :
    (s.NewPageImpl a).1 = none ↔ s.free_list = [] ∧ s.replacer.LRU = [] := by
  rw [← pickFrame_none_iff]
  rcases hq : s.pickFrame with ⟨_ | f, s1⟩
  · rw [NewPageImpl_null s s1 a hq]
  · rw [NewPageImpl_some s s1 a f hq]

theorem fetch_none_state (s : BufferPoolManager) (p : page_id_t)
    (h : (s.FetchPageImpl p).1 = none) : (s.FetchPageImpl p).2 = s := by
  have hp := ((fetch_none_iff s p).mp h).1
  rcases hq : s.pickFrame with ⟨_ | f, s1⟩
  · rw [FetchPageImpl_null s s1 p hp hq]
    exact (pickFrame_null_state s s1 hq).1
  · rw [FetchPageImpl_miss s s1 p f hp hq] at h
    exact Option.noConfusion h

theorem new_none_state (s : BufferPoolManager) (a : page_id_t)
    (h : (s.NewPageImpl a).1 = none) : (s.NewPageImpl a).2 = (INVALID_PAGE_ID, s) := by
  rcases hq : s.pickFrame with ⟨_ | f, s1⟩
  · rw [NewPageImpl_null s s1 a hq, (pickFrame_null_state s s1 hq).1]
  · rw [NewPageImpl_some s s1 a f hq] at h
    exact Option.noConfusion h

theorem run_three_fetches (dm : DiskManager) (a b c : page_id_t) (hab : a ≠ b) (hac : a ≠ c)
    (hbc : b ≠ c) :
    run (create 3 dm) [Op.fetch a, Op.fetch b, Op.fetch c] = threePinned dm a b c := by
  have e1 : (create 3 dm).FetchPageImpl a = (some 0, _) :=
    FetchPageImpl_miss (create 3 dm) _ a 0 rfl (pickFrame_free _ 0 [1, 2] rfl)
  have r1 : step (create 3 dm) (Op.fetch a) = _ := congrArg Prod.snd e1
  simp only at r1
  have hb : ptFind (step (create 3 dm) (Op.fetch a)).page_table b = none := by
    rw [r1]
    show ptFind (ptAssign _ a 0) b = none
    rw [ptFind_assign, ptFind_erase]
    simp [hab, create, ptFind]
  have e2 := FetchPageImpl_miss (step (create 3 dm) (Op.fetch a)) _ b 1 hb
    (pickFrame_free _ 1 [2] (by rw [r1]; rfl))
  have r2 : step (step (create 3 dm) (Op.fetch a)) (Op.fetch b) = _ := congrArg Prod.snd e2
  simp only at r2
  have hc : ptFind (step (step (create 3 dm) (Op.fetch a)) (Op.fetch b)).page_table c = none := by
    rw [r2, r1]
    show ptFind (ptAssign (ptErase (ptAssign _ a 0) _) b 1) c = none
    rw [ptFind_assign, ptFind_erase, ptFind_assign, ptFind_erase]
    simp [hac, hbc, create, ptFind]
  have e3 := FetchPageImpl_miss (step (step (create 3 dm) (Op.fetch a)) (Op.fetch b)) _ c 2 hc
    (pickFrame_free _ 2 [] (by rw [r2, r1]; rfl))
  have r3 : step (step (step (create 3 dm) (Op.fetch a)) (Op.fetch b)) (Op.fetch c) = _ :=
    congrArg Prod.snd e3
  simp only at r3
  show step (step (step (create 3 dm) (Op.fetch a)) (Op.fetch b)) (Op.fetch c) = _
  rw [r3, r2, r1]
  rfl

end bustub

namespace bustub
open BufferPoolManager

/-- C3: capacity exhaustion.  For every pool state: fetch(p) returns null iff p is
not in the page table, the free list is empty and the replacer has no eligible
frame; new_page returns null iff the free list is empty and the replacer has no
eligible frame; a null fetch leaves the whole state (page table, free list,
replacer, frames, disk, allocator log) unchanged, and so does a null new_page,
which reports INVALID as its out id.  Scenario: in a new pool of 3 frames, after
fetching three distinct pages `a`, `b`, `c` that are still pinned (each cached
with pin_count > 0), a fetch of another page `d` returns null; unpinning any one
of the three then succeeds and the fetch of `d` after it returns a frame. -/
theorem capacity_exhaustion :
    (∀ (s : BufferPoolManager) (p : page_id_t), (s.FetchPageImpl p).1 = none ↔
      ptFind s.page_table p = none ∧ s.free_list = [] ∧ s.replacer.LRU = []) ∧
    (∀ (s : BufferPoolManager) (a : page_id_t), (s.NewPageImpl a).1 = none ↔
      s.free_list = [] ∧ s.replacer.LRU = []) ∧
    (∀ (s : BufferPoolManager) (p : page_id_t), (s.FetchPageImpl p).1 = none →
      (s.FetchPageImpl p).2 = s) ∧
    (∀ (s : BufferPoolManager) (a : page_id_t), (s.NewPageImpl a).1 = none →
      (s.NewPageImpl a).2 = (INVALID_PAGE_ID, s)) ∧
    (∀ (dm : DiskManager) (a b c d x : page_id_t) (flag : Bool),
      a ≠ b → a ≠ c → b ≠ c → d ≠ a → d ≠ b → d ≠ c → x ∈ [a, b, c] →
      (∀ y, y ∈ [a, b, c] → ∃ f,
        ptFind (run (create 3 dm) [Op.fetch a, Op.fetch b, Op.fetch c]).page_table y = some f ∧
        0 < ((run (create 3 dm) [Op.fetch a, Op.fetch b, Op.fetch c]).pageAt f).pin_count) →
      ((run (create 3 dm) [Op.fetch a, Op.fetch b, Op.fetch c]).FetchPageImpl d).1 = none ∧
      ((run (create 3 dm) [Op.fetch a, Op.fetch b, Op.fetch c]).UnpinPageImpl x flag).1 = true ∧
      (((run (create 3 dm) [Op.fetch a, Op.fetch b, Op.fetch c]).UnpinPageImpl x flag).2.FetchPageImpl
        d).1 ≠ none) := by
  refine ⟨fetch_none_iff, new_none_iff, fetch_none_state, new_none_state, ?_⟩
  intro dm a b c d x flag hab hac hbc hda hdb hdc hx hpinned
  have hwf := WF_reachable 3 dm [Op.fetch a, Op.fetch b, Op.fetch c]
  rw [run_three_fetches dm a b c hab hac hbc] at hwf hpinned ⊢
  have hd : ptFind (threePinned dm a b c).page_table d = none := by
    show ptFind (ptAssign (ptErase (ptAssign (ptErase (ptAssign [] a 0) _) b 1) _) c 2) d = none
    have h1 : ¬ a = d := fun e => hda e.symm
    have h2 : ¬ b = d := fun e => hdb e.symm
    have h3 : ¬ c = d := fun e => hdc e.symm
    simp [ptFind_assign, ptFind_erase, h1, h2, h3, ptFind]
  obtain ⟨f, hf, hpin⟩ := hpinned x hx
  have hf3 : f < 3 := (hwf.pt x f hf).1
  have hlen : f < (threePinned dm a b c).pages.length := hf3
  have hpin1 : ((threePinned dm a b c).pageAt f).pin_count = 1 := by
    interval_cases f <;> rfl
  have e := UnpinPageImpl_ok (threePinned dm a b c) x flag f hf hlen hpin
  refine ⟨(fetch_none_iff _ d).mpr ⟨hd, rfl, rfl⟩, by rw [e], ?_⟩
  intro hnone
  have hl := ((fetch_none_iff _ d).mp hnone).2.2
  rw [e] at hl
  simp only [hpin1, sub_self, if_true] at hl
  simp [LRUReplacer.Unpin, threePinned] at hl

/-- C3 (witness): the scenario with pages 1, 2, 3, then 4, unpinning page 2. -/
theorem capacity_exhaustion_witness :
    ((run (create 3 blankDisk) [Op.fetch 1, Op.fetch 2, Op.fetch 3]).FetchPageImpl 4).1 = none ∧
    ((run (create 3 blankDisk) [Op.fetch 1, Op.fetch 2, Op.fetch 3]).UnpinPageImpl 2 false).1
      = true ∧
    (((run (create 3 blankDisk) [Op.fetch 1, Op.fetch 2, Op.fetch 3]).UnpinPageImpl 2
      false).2.FetchPageImpl 4).1 ≠ none :=
  capacity_exhaustion.2.2.2.2 blankDisk 1 2 3 4 2 false (by decide) (by decide) (by decide)
    (by decide) (by decide) (by decide) (by decide) (by decide)

end bustub

/-! ## C4: dirty write-back -/

namespace bustub
open BufferPoolManager

theorem pick_cached_disk (n : Nat) (s s1 : BufferPoolManager) (f : frame_id_t) (q : page_id_t)
    (h : WF n s) (hq : s.pickFrame = (some f, s1)) (hc : ptFind s.page_table q = some f)
    (hd : (s.pageAt f).is_dirty = true) :
    s1.disk_manager.store q = (s.pageAt f).data := by
  obtain ⟨_, hid, hfree⟩ := h.pt q f hc
  rcases pickFrame_cases s with ⟨g, rest, hfl, hq2⟩ | ⟨_, _, hq2⟩ | ⟨g, rest, hfl, hl, hq2⟩
  · rw [hq2] at hq
    simp only [Prod.mk.injEq, Option.some.injEq] at hq
    exact absurd (by rw [hfl, hq.1]; exact List.mem_cons_self _ _) hfree
  · rw [hq2] at hq; simp at hq
  · rw [hq2] at hq
    simp only [Prod.mk.injEq, Option.some.injEq] at hq
    obtain ⟨hg, hs⟩ := hq
    subst hg
    rw [← hs]
    simp only [hd, if_true, DiskManager.WritePage, hid]

/-- C4: dirty write-back on eviction.  In every state reachable from a new pool,
whenever a fetch of an uncached page or a new_page takes over a frame `f` that
currently caches a page `q` (the page table maps `q` to `f`) whose dirty flag is
set, the disk contents stored under `q` after the call equal the bytes the frame
held immediately before the call. -/
theorem dirty_write_back (n : Nat) (dm : DiskManager) (ops : List Op) :
    (∀ p q f, ptFind (run (create n dm) ops).page_table p = none →
      ((run (create n dm) ops).FetchPageImpl p).1 = some f →
      ptFind (run (create n dm) ops).page_table q = some f →
      ((run (create n dm) ops).pageAt f).is_dirty = true →
      ((run (create n dm) ops).FetchPageImpl p).2.disk_manager.store q =
        ((run (create n dm) ops).pageAt f).data) ∧
    (∀ a q f, ((run (create n dm) ops).NewPageImpl a).1 = some f →
      ptFind (run (create n dm) ops).page_table q = some f →
      ((run (create n dm) ops).pageAt f).is_dirty = true →
      ((run (create n dm) ops).NewPageImpl a).2.2.disk_manager.store q =
        ((run (create n dm) ops).pageAt f).data) := by
  have h := WF_reachable n dm ops
  generalize run (create n dm) ops = s at h
  constructor
  · intro p q f hp hr hc hd
    obtain ⟨s1, hq, e⟩ := fetch_miss_inv s p f hp hr
    rw [e]
    exact pick_cached_disk n s s1 f q h hq hc hd
  · intro a q f hr hc hd
    obtain ⟨s1, hq, e⟩ := new_inv s a f hr
    rw [e]
    exact pick_cached_disk n s s1 f q h hq hc hd

/-- C4 (witness): pool of one frame; page 1 is fetched and unpinned dirty, then
page 2 is fetched: frame 0 is reused and its former bytes are on disk under 1. -/
theorem dirty_write_back_witness :
    ((run (create 1 blankDisk) [Op.fetch 1, Op.unpin 1 true]).FetchPageImpl 2).2.disk_manager.store 1
      = ((run (create 1 blankDisk) [Op.fetch 1, Op.unpin 1 true]).pageAt 0).data :=
  (dirty_write_back 1 blankDisk [Op.fetch 1, Op.unpin 1 true]).1 2 1 0 (by decide) (by decide)
    (by decide) (by decide)

end bustub

/-! ## C5: frame acquisition -/

namespace bustub
open BufferPoolManager

theorem KeysSeen_run (n : Nat) (ops : List Op) :
    ∀ (seen : List page_id_t) (s : BufferPoolManager), WF n s → KeysSeen seen s →
      KeysSeen (seenAfter seen ops) (run s ops) := by
  induction ops with
  | nil => intro seen s _ hs; exact hs
  | cons op rest ih =>
    intro seen s h hs
    exact ih _ _ (WF_step n s op h) (KeysSeen_step n seen s op h hs)

theorem FreshFrom_last (ops : List Op) :
    ∀ (seen : List page_id_t) (a : page_id_t), FreshFrom seen (ops ++ [Op.new_page a]) →
      a ∉ seenAfter seen ops := by
  induction ops with
  | nil => intro seen a h; exact h.1
  | cons op rest ih =>
    intro seen a h
    show a ∉ seenAfter (op.pageId :: seen) rest
    cases op with
    | new_page b => exact ih _ a h.2
    | fetch p => exact ih _ a h
    | unpin p d => exact ih _ a h
    | flush p => exact ih _ a h
    | delete p => exact ih _ a h

theorem pick_head (s s1 : BufferPoolManager) (f : frame_id_t)
    (hq : s.pickFrame = (some f, s1)) :
    (∃ rest, s.free_list = f :: rest) ∨
      (s.free_list = [] ∧ ∃ rest, s.replacer.LRU = f :: rest) := by
  rcases pickFrame_cases s with ⟨g, rest, hfl, hq2⟩ | ⟨_, _, hq2⟩ | ⟨g, rest, hfl, hl, hq2⟩
  · rw [hq2] at hq
    simp only [Prod.mk.injEq, Option.some.injEq] at hq
    exact Or.inl ⟨rest, hq.1 ▸ hfl⟩
  · rw [hq2] at hq; simp at hq
  · rw [hq2] at hq
    simp only [Prod.mk.injEq, Option.some.injEq] at hq
    exact Or.inr ⟨hfl, rest, hq.1 ▸ hl⟩

theorem install_table (n : Nat) (s s1 : BufferPoolManager) (f : frame_id_t) (p : page_id_t)
    (data : PageData) (dm : DiskManager) (h : WF n s) (hq : s.pickFrame = (some f, s1))
    (hp : ptFind s.page_table p = none) :
    (∀ q, ptFind s.page_table q = some f →
      ptFind (s1.install f p data dm).page_table q = none) ∧
    ((s.pageAt f).page_id ≠ p →
      ptFind (s1.install f p data dm).page_table (s.pageAt f).page_id = none) := by
  obtain ⟨hpt, hpages⟩ := pickFrame_keeps s s1 _ hq
  have hpa : s1.pageAt f = s.pageAt f := by simp only [pageAt, hpages]
  constructor
  · intro q hc
    show ptFind (ptAssign (ptErase s1.page_table (s1.pageAt f).page_id) p f) q = none
    have hpq : p ≠ q := by
      intro e
      rw [e, hc] at hp
      exact Option.noConfusion hp
    rw [ptFind_assign, ptFind_erase, hpa, (h.pt q f hc).2.1]
    simp [hpq]
  · intro hne
    show ptFind (ptAssign (ptErase s1.page_table (s1.pageAt f).page_id) p f) _ = none
    rw [ptFind_assign, ptFind_erase, hpa]
    have : ¬ p = (s.pageAt f).page_id := fun e => hne e.symm
    simp [this]

/-- C5: frame acquisition postcondition.  Let `s` be reachable from a new pool.
When a fetch of an uncached page `p` returns frame `f`: `f` was the front of the
free list if that was non-empty and otherwise the replacer's oldest eligible
frame; afterwards the page table maps `p` to `f` and maps no id that it mapped
to `f` before (nor the id the frame carried, when that differs from `p`); the
frame's page id is `p`, pin_count = 1, dirty = false, `f` is not in the replacer,
and its bytes are the disk contents of `p` (those before the call too, unless the
frame carried `p` itself).  When new_page returns frame `f`, the allocator having
answered with an id `a` never seen before in the run: the same holds with `a`
for `p`, `a` is the out parameter and is recorded as allocated, and the bytes are
all zero. -/
theorem frame_acquisition (n : Nat) (dm : DiskManager) (ops : List Op) :
    (∀ p f, ptFind (run (create n dm) ops).page_table p = none →
      ((run (create n dm) ops).FetchPageImpl p).1 = some f →
      ((∃ rest, (run (create n dm) ops).free_list = f :: rest) ∨
        ((run (create n dm) ops).free_list = [] ∧
          ∃ rest, (run (create n dm) ops).replacer.LRU = f :: rest)) ∧
      ptFind ((run (create n dm) ops).FetchPageImpl p).2.page_table p = some f ∧
      (∀ q, ptFind (run (create n dm) ops).page_table q = some f →
        ptFind ((run (create n dm) ops).FetchPageImpl p).2.page_table q = none) ∧
      (((run (create n dm) ops).pageAt f).page_id ≠ p →
        ptFind ((run (create n dm) ops).FetchPageImpl p).2.page_table
          ((run (create n dm) ops).pageAt f).page_id = none) ∧
      (((run (create n dm) ops).FetchPageImpl p).2.pageAt f).page_id = p ∧
      (((run (create n dm) ops).FetchPageImpl p).2.pageAt f).pin_count = 1 ∧
      (((run (create n dm) ops).FetchPageImpl p).2.pageAt f).is_dirty = false ∧
      f ∉ ((run (create n dm) ops).FetchPageImpl p).2.replacer.LRU ∧
      (((run (create n dm) ops).FetchPageImpl p).2.pageAt f).data =
        ((run (create n dm) ops).FetchPageImpl p).2.disk_manager.store p ∧
      (((run (create n dm) ops).pageAt f).page_id ≠ p →
        (((run (create n dm) ops).FetchPageImpl p).2.pageAt f).data =
          (run (create n dm) ops).disk_manager.store p)) ∧
    (∀ a f, FreshAllocs (ops ++ [Op.new_page a]) →
      ((run (create n dm) ops).NewPageImpl a).1 = some f →
      ((∃ rest, (run (create n dm) ops).free_list = f :: rest) ∨
        ((run (create n dm) ops).free_list = [] ∧
          ∃ rest, (run (create n dm) ops).replacer.LRU = f :: rest)) ∧
      ((run (create n dm) ops).NewPageImpl a).2.1 = a ∧
      ((run (create n dm) ops).NewPageImpl a).2.2.disk_manager.allocated =
        (run (create n dm) ops).disk_manager.allocated ++ [a] ∧
      ptFind ((run (create n dm) ops).NewPageImpl a).2.2.page_table a = some f ∧
      (∀ q, ptFind (run (create n dm) ops).page_table q = some f →
        ptFind ((run (create n dm) ops).NewPageImpl a).2.2.page_table q = none) ∧
      (((run (create n dm) ops).pageAt f).page_id ≠ a →
        ptFind ((run (create n dm) ops).NewPageImpl a).2.2.page_table
          ((run (create n dm) ops).pageAt f).page_id = none) ∧
      (((run (create n dm) ops).NewPageImpl a).2.2.pageAt f).page_id = a ∧
      (((run (create n dm) ops).NewPageImpl a).2.2.pageAt f).pin_count = 1 ∧
      (((run (create n dm) ops).NewPageImpl a).2.2.pageAt f).is_dirty = false ∧
      f ∉ ((run (create n dm) ops).NewPageImpl a).2.2.replacer.LRU ∧
      (((run (create n dm) ops).NewPageImpl a).2.2.pageAt f).data = zeroData) := by
  have h := WF_reachable n dm ops
  have hks := KeysSeen_run n ops [INVALID_PAGE_ID] (create n dm) (WF_create n dm)
    (fun _ _ hk => Option.noConfusion hk)
  generalize run (create n dm) ops = s at h hks
  constructor
  · intro p f hp hr
    obtain ⟨s1, hq, e⟩ := fetch_miss_inv s p f hp hr
    obtain ⟨h1, hf, _⟩ := WF_pick n s s1 f h hq
    have hlen : f < s1.pages.length := h1.pages_len.symm ▸ hf
    obtain ⟨i1, i2, i3⟩ :=
      install_post s1 f p (s1.disk_manager.ReadPage p) s1.disk_manager hlen
    obtain ⟨t1, t2⟩ :=
      install_table n s s1 f p (s1.disk_manager.ReadPage p) s1.disk_manager h hq hp
    rw [e]
    refine ⟨pick_head s s1 f hq, i1, t1, t2, ?_, ?_, ?_, i3, ?_, ?_⟩
    · show ((s1.install f p _ _).pageAt f).page_id = p
      rw [i2]
    · show ((s1.install f p _ _).pageAt f).pin_count = 1
      rw [i2]
    · show ((s1.install f p _ _).pageAt f).is_dirty = false
      rw [i2]
    · show ((s1.install f p _ _).pageAt f).data = _
      rw [i2]
      rfl
    · intro hne
      show ((s1.install f p _ _).pageAt f).data = _
      rw [i2]
      show s1.disk_manager.store p = s.disk_manager.store p
      rcases pickFrame_cases s with ⟨g, rest, hfl, hq2⟩ | ⟨_, _, hq2⟩ | ⟨g, rest, hfl, hl, hq2⟩
      · rw [hq2] at hq
        simp only [Prod.mk.injEq, Option.some.injEq] at hq
        rw [← hq.2]
      · rw [hq2] at hq; simp at hq
      · rw [hq2] at hq
        simp only [Prod.mk.injEq, Option.some.injEq] at hq
        obtain ⟨hg, hs⟩ := hq
        subst hg
        rw [← hs]
        have hpn : ¬ p = (s.pageAt g).page_id := fun e => hne e.symm
        by_cases hd : (s.pageAt g).is_dirty = true
        · simp only [hd, if_true, DiskManager.WritePage, hpn, if_false]
        · simp only [hd, Bool.false_eq_true, if_false]
  · intro a f hfresh hr
    have ha : ptFind s.page_table a = none :=
      not_seen_absent _ s a hks (FreshFrom_last ops _ a hfresh)
    obtain ⟨s1, hq, e⟩ := new_inv s a f hr
    obtain ⟨h1, hf, _⟩ := WF_pick n s s1 f h hq
    have hlen : f < s1.pages.length := h1.pages_len.symm ▸ hf
    obtain ⟨i1, i2, i3⟩ :=
      install_post s1 f a zeroData (s1.disk_manager.AllocatePage a).2 hlen
    obtain ⟨t1, t2⟩ :=
      install_table n s s1 f a zeroData (s1.disk_manager.AllocatePage a).2 h hq ha
    rw [e]
    refine ⟨pick_head s s1 f hq, rfl, ?_, i1, t1, t2, ?_, ?_, ?_, i3, ?_⟩
    · show s1.disk_manager.allocated ++ [a] = s.disk_manager.allocated ++ [a]
      rcases pickFrame_cases s with ⟨g, rest, hfl, hq2⟩ | ⟨_, _, hq2⟩ | ⟨g, rest, hfl, hl, hq2⟩
      · rw [hq2] at hq
        simp only [Prod.mk.injEq, Option.some.injEq] at hq
        rw [← hq.2]
      · rw [hq2] at hq; simp at hq
      · rw [hq2] at hq
        simp only [Prod.mk.injEq, Option.some.injEq] at hq
        rw [← hq.2]
        by_cases hd : (s.pageAt g).is_dirty = true
        · simp only [hd, if_true, DiskManager.WritePage]
        · simp only [hd, Bool.false_eq_true, if_false]
    · show ((s1.install f a _ _).pageAt f).page_id = a
      rw [i2]
    · show ((s1.install f a _ _).pageAt f).pin_count = 1
      rw [i2]
    · show ((s1.install f a _ _).pageAt f).is_dirty = false
      rw [i2]
    · show ((s1.install f a _ _).pageAt f).data = _
      rw [i2]

/-- C5 (witness): pool of two frames in which page 1 was fetched and unpinned;
new_page with the fresh id 9 takes frame 1, the front of the free list. -/
theorem frame_acquisition_witness :
    ptFind ((run (create 2 blankDisk) [Op.fetch 1, Op.unpin 1 false]).NewPageImpl 9).2.2.page_table 9
      = some 1 :=
  ((frame_acquisition 2 blankDisk [Op.fetch 1, Op.unpin 1 false]).2 9 1
    (by simp [FreshAllocs, FreshFrom, Op.pageId, INVALID_PAGE_ID]) (by decide)).2.2.2.1

end bustub

/-! ## C6: pin accounting of a cache hit -/

namespace bustub
open BufferPoolManager

theorem fetch_unpin_roundtrip (n : Nat) (s : BufferPoolManager) (p : page_id_t)
    (f : frame_id_t) (h : WF n s) (hp : ptFind s.page_table p = some f) :
    ∃ s2 s3, s.FetchPageImpl p = (some f, s2) ∧ s2.UnpinPageImpl p false = (true, s3) ∧
      s2.page_table = s.page_table ∧ s2.free_list = s.free_list ∧
      s2.disk_manager = s.disk_manager ∧
      s2.replacer.LRU = s.replacer.LRU.filter (fun g => decide (g ≠ f)) ∧
      s2.pageAt f = { s.pageAt f with pin_count := (s.pageAt f).pin_count + 1 } ∧
      (∀ g, g ≠ f → s2.pageAt g = s.pageAt g) ∧
      (∀ g, s3.pageAt g = s.pageAt g) := by
  obtain ⟨hf, hid, hfree⟩ := h.pt p f hp
  have hlen : f < s.pages.length := h.pages_len.symm ▸ hf
  have e := FetchPageImpl_hit s p f hp
  generalize hs2 : ({ s with
      pages := s.pages.set f { s.pageAt f with pin_count := (s.pageAt f).pin_count + 1 }
      replacer := s.replacer.Pin f } : BufferPoolManager) = s2 at e
  have hpages2 : s2.pages =
      s.pages.set f { s.pageAt f with pin_count := (s.pageAt f).pin_count + 1 } := by
    rw [← hs2]
  have hpt2 : s2.page_table = s.page_table := by rw [← hs2]
  have hself2 := pageAt_of_pages_self s s2 f _ hpages2 hlen
  have hne2 : ∀ g, g ≠ f → s2.pageAt g = s.pageAt g :=
    fun g hg => pageAt_of_pages_ne s s2 f g _ hpages2 hg
  have hlen2 : f < s2.pages.length := by rw [hpages2, List.length_set]; exact hlen
  have hpin2 : 0 < (s2.pageAt f).pin_count := by
    rw [hself2]
    have := h.pin_nonneg f
    show 0 < (s.pageAt f).pin_count + 1
    omega
  have e3 := UnpinPageImpl_ok s2 p false f (hpt2 ▸ hp) hlen2 hpin2
  refine ⟨s2, _, e, e3, hpt2, by rw [← hs2], by rw [← hs2], ?_, hself2, hne2, ?_⟩
  · rw [← hs2]
    exact Pin_LRU _ _
  · intro g
    by_cases hg : g = f
    · subst hg
      rw [pageAt_of_pages_self s2 _ g _ rfl hlen2, hself2]
      cases hpg : s.pageAt g with
      | mk dt pid pc dr => simp
    · rw [pageAt_of_pages_ne s2 _ f g _ rfl hg]
      exact hne2 g hg

/-- C6: pin accounting of a cache hit.  For every state `s` reachable from a new
pool and every page `p` that the page table maps to frame `f`: fetch(p) returns
`f`, increases its pin_count by exactly one, removes `f` (and nothing else) from
the replacer's list, and changes neither the page table, the free list, any
frame's bytes nor the disk; a following unpin(p, false) succeeds and restores the
pin_count and dirty flag of `f` to their values before the fetch.  Consequently
`operator*` and `operator++` of the iterator positioned on the cached leaf `p`
return normally and leave the pin count of every frame as they found it. -/
theorem cache_hit_pin_accounting (n : Nat) (dm : DiskManager) (ops : List Op) {M : Type}
    (L : LeafAccess M) (p : page_id_t) (f : frame_id_t)
    (hp : ptFind (run (create n dm) ops).page_table p = some f) :
    ((run (create n dm) ops).FetchPageImpl p).1 = some f ∧
    (((run (create n dm) ops).FetchPageImpl p).2.pageAt f).pin_count =
      ((run (create n dm) ops).pageAt f).pin_count + 1 ∧
    f ∉ ((run (create n dm) ops).FetchPageImpl p).2.replacer.LRU ∧
    ((run (create n dm) ops).FetchPageImpl p).2.replacer.LRU =
      (run (create n dm) ops).replacer.LRU.filter (fun g => decide (g ≠ f)) ∧
    ((run (create n dm) ops).FetchPageImpl p).2.page_table =
      (run (create n dm) ops).page_table ∧
    ((run (create n dm) ops).FetchPageImpl p).2.free_list = (run (create n dm) ops).free_list ∧
    (∀ g, (((run (create n dm) ops).FetchPageImpl p).2.pageAt g).data =
      ((run (create n dm) ops).pageAt g).data) ∧
    ((run (create n dm) ops).FetchPageImpl p).2.disk_manager =
      (run (create n dm) ops).disk_manager ∧
    (((run (create n dm) ops).FetchPageImpl p).2.UnpinPageImpl p false).1 = true ∧
    ((((run (create n dm) ops).FetchPageImpl p).2.UnpinPageImpl p false).2.pageAt f).pin_count =
      ((run (create n dm) ops).pageAt f).pin_count ∧
    ((((run (create n dm) ops).FetchPageImpl p).2.UnpinPageImpl p false).2.pageAt f).is_dirty =
      ((run (create n dm) ops).pageAt f).is_dirty ∧
    (∀ it : IndexIterator, it.current_page_id = p →
      (∃ v s2, it.operator_star L (run (create n dm) ops) = some (v, s2) ∧
        ∀ g, (s2.pageAt g).pin_count = ((run (create n dm) ops).pageAt g).pin_count) ∧
      (∃ it2 s2, it.operator_inc L (run (create n dm) ops) = some (it2, s2) ∧
        ∀ g, (s2.pageAt g).pin_count = ((run (create n dm) ops).pageAt g).pin_count)) := by
  have h := WF_reachable n dm ops
  generalize run (create n dm) ops = s at h hp
  obtain ⟨s2, s3, e2, e3, hpt, hfl, hdm, hlru, hself, hne, hall⟩ :=
    fetch_unpin_roundtrip n s p f h hp
  have hid : (s2.pageAt f).page_id = p := by
    rw [hself]
    exact (h.pt p f hp).2.1
  rw [e2]
  refine ⟨rfl, ?_, ?_, hlru, hpt, hfl, ?_, hdm, ?_, ?_, ?_, ?_⟩
  · show (s2.pageAt f).pin_count = _
    rw [hself]
  · show f ∉ s2.replacer.LRU
    rw [hlru]
    simp [List.mem_filter]
  · intro g
    show (s2.pageAt g).data = _
    by_cases hg : g = f
    · subst hg; rw [hself]
    · rw [hne g hg]
  · show (s2.UnpinPageImpl p false).1 = true
    rw [e3]
  · show ((s2.UnpinPageImpl p false).2.pageAt f).pin_count = _
    rw [e3]
    exact congrArg Page.pin_count (hall f)
  · show ((s2.UnpinPageImpl p false).2.pageAt f).is_dirty = _
    rw [e3]
    exact congrArg Page.is_dirty (hall f)
  · intro it hit
    constructor
    · refine ⟨L.GetItem (s2.pageAt f).data it.index, s3, ?_, fun g => by rw [hall g]⟩
      simp only [IndexIterator.operator_star, hit, e2, hid, e3]
    · refine ⟨if it.index + 1 ≥ L.GetSize (s2.pageAt f).data then
          { current_page_id := L.GetNextPageId (s2.pageAt f).data, index := 0 }
        else { it with index := it.index + 1 }, s3, ?_, fun g => by rw [hall g]⟩
      simp only [IndexIterator.operator_inc, hit, e2, hid, e3]

/-- C6 (witness): page 1 cached in frame 0 of a pool of one frame, unpinned. -/
theorem cache_hit_pin_accounting_witness :
    ((run (create 1 blankDisk) [Op.fetch 1, Op.unpin 1 false]).FetchPageImpl 1).1 = some 0 :=
  (cache_hit_pin_accounting 1 blankDisk [Op.fetch 1, Op.unpin 1 false]
    (⟨fun _ => 0, fun _ => INVALID_PAGE_ID, fun _ _ => ()⟩ : LeafAccess Unit) 1 0
    (by decide)).1

end bustub

/-! ## C7: successful unpin -/

namespace bustub
open BufferPoolManager

theorem lru_has_room (n : Nat) (s : BufferPoolManager) (f : frame_id_t) (h : WF n s)
    (hf : f < n) (hnot : f ∉ s.replacer.LRU) :
    s.replacer.LRU.length < s.replacer.number_pages := by
  have hnd : (f :: s.replacer.LRU).Nodup := List.nodup_cons.mpr ⟨hnot, h.lru_nodup⟩
  have hsub : f :: s.replacer.LRU ⊆ List.range n := by
    intro g hg
    rw [List.mem_range]
    rcases List.mem_cons.mp hg with e | e
    · exact e ▸ hf
    · exact (h.lru g e).1
  have hle := (List.subperm_of_subset hnd hsub).length_le
  rw [List.length_cons, List.length_range] at hle
  rw [h.cap]
  omega

theorem Unpin_append (n : Nat) (s : BufferPoolManager) (f : frame_id_t) (h : WF n s)
    (hf : f < n) (hnot : f ∉ s.replacer.LRU) :
    (s.replacer.Unpin f).LRU = s.replacer.LRU ++ [f] := by
  simp only [LRUReplacer.Unpin, lru_has_room n s f h hf hnot, hnot, if_true, if_false]

/-- C7: successful unpin with sticky dirtiness.  In every state reachable from a
new pool, for a page `p` cached in frame `f` with pin_count c > 0 and dirty flag
d, unpin(p, flag) returns true and leaves pin_count = c - 1 and dirty = (d OR
flag); `f` is appended to the replacer's eligible list if c - 1 = 0 and the list
is unchanged otherwise; the page table, free list, disk, replacer capacity, the
frame's bytes and page id, and every other frame are unchanged.  Hence after an
unpin with dirty = true the flag is still set after any further unpin of `p`. -/
theorem unpin_sticky_dirty (n : Nat) (dm : DiskManager) (ops : List Op) (p : page_id_t)
    (f : frame_id_t) (flag : Bool)
    (hp : ptFind (run (create n dm) ops).page_table p = some f)
    (hc : 0 < ((run (create n dm) ops).pageAt f).pin_count) :
    ((run (create n dm) ops).UnpinPageImpl p flag).1 = true ∧
    (((run (create n dm) ops).UnpinPageImpl p flag).2.pageAt f).pin_count =
      ((run (create n dm) ops).pageAt f).pin_count - 1 ∧
    (((run (create n dm) ops).UnpinPageImpl p flag).2.pageAt f).is_dirty =
      (((run (create n dm) ops).pageAt f).is_dirty || flag) ∧
    ((run (create n dm) ops).UnpinPageImpl p flag).2.replacer.LRU =
      (if ((run (create n dm) ops).pageAt f).pin_count - 1 = 0 then
        (run (create n dm) ops).replacer.LRU ++ [f]
      else (run (create n dm) ops).replacer.LRU) ∧
    ((run (create n dm) ops).UnpinPageImpl p flag).2.replacer.number_pages =
      (run (create n dm) ops).replacer.number_pages ∧
    ((run (create n dm) ops).UnpinPageImpl p flag).2.page_table =
      (run (create n dm) ops).page_table ∧
    ((run (create n dm) ops).UnpinPageImpl p flag).2.free_list =
      (run (create n dm) ops).free_list ∧
    ((run (create n dm) ops).UnpinPageImpl p flag).2.disk_manager =
      (run (create n dm) ops).disk_manager ∧
    ((run (create n dm) ops).UnpinPageImpl p flag).2.pool_size =
      (run (create n dm) ops).pool_size ∧
    (((run (create n dm) ops).UnpinPageImpl p flag).2.pageAt f).data =
      ((run (create n dm) ops).pageAt f).data ∧
    (((run (create n dm) ops).UnpinPageImpl p flag).2.pageAt f).page_id =
      ((run (create n dm) ops).pageAt f).page_id ∧
    (∀ g, g ≠ f → ((run (create n dm) ops).UnpinPageImpl p flag).2.pageAt g =
      (run (create n dm) ops).pageAt g) ∧
    (flag = true → ∀ flag2,
      ((((run (create n dm) ops).UnpinPageImpl p flag).2.UnpinPageImpl p flag2).2.pageAt
        f).is_dirty = true) := by
  have h := WF_reachable n dm ops
  generalize run (create n dm) ops = s at h hp hc
  obtain ⟨hf, hid, hfree⟩ := h.pt p f hp
  have hlen : f < s.pages.length := h.pages_len.symm ▸ hf
  have hnot : f ∉ s.replacer.LRU := by
    intro hm
    have := (h.lru f hm).2.1
    omega
  have e := UnpinPageImpl_ok s p flag f hp hlen hc
  have hwf1 := WF_unpin n s p flag h
  generalize hs1 : s.UnpinPageImpl p flag = r at e hwf1
  obtain ⟨b, s1⟩ := r
  simp only [Prod.mk.injEq] at e
  obtain ⟨hb, hs⟩ := e
  have hpages : s1.pages = s.pages.set f
      { s.pageAt f with
        pin_count := (s.pageAt f).pin_count - 1
        is_dirty := (s.pageAt f).is_dirty || flag } := by rw [hs]
  have hself := pageAt_of_pages_self s s1 f _ hpages hlen
  have hpt1 : s1.page_table = s.page_table := by rw [hs]
  refine ⟨hb, by rw [hself], by rw [hself], ?_, ?_, hpt1, by rw [hs], by rw [hs],
    by rw [hs], by rw [hself], by rw [hself],
    fun g hg => pageAt_of_pages_ne s s1 f g _ hpages hg, ?_⟩
  · show s1.replacer.LRU = _
    rw [hs]
    show (if (s.pageAt f).pin_count - 1 = 0 then s.replacer.Unpin f else s.replacer).LRU = _
    split
    · exact Unpin_append n s f h hf hnot
    · rfl
  · show s1.replacer.number_pages = _
    rw [hs]
    show (if (s.pageAt f).pin_count - 1 = 0 then s.replacer.Unpin f
      else s.replacer).number_pages = _
    split
    · exact Unpin_number_pages _ _
    · rfl
  · intro hflag flag2
    have hd1 : (s1.pageAt f).is_dirty = true := by
      rw [hself]
      show ((s.pageAt f).is_dirty || flag) = true
      rw [hflag, Bool.or_true]
    show ((s1.UnpinPageImpl p flag2).2.pageAt f).is_dirty = true
    have hlen1 : f < s1.pages.length := by rw [hpages, List.length_set]; exact hlen
    by_cases hc1 : (s1.pageAt f).pin_count ≤ 0
    · simp only [UnpinPageImpl, hpt1, hp, hc1, if_true]
      exact hd1
    · rw [UnpinPageImpl_ok s1 p flag2 f (hpt1 ▸ hp) hlen1 (not_le.mp hc1),
        pageAt_of_pages_self s1 _ f _ rfl hlen1]
      show ((s1.pageAt f).is_dirty || flag2) = true
      rw [hd1, Bool.true_or]

/-- C7 (witness): page 1 fetched once in a pool of one frame, then unpinned dirty. -/
theorem unpin_sticky_dirty_witness :
    ((run (create 1 blankDisk) [Op.fetch 1]).UnpinPageImpl 1 true).2.replacer.LRU =
      (if ((run (create 1 blankDisk) [Op.fetch 1]).pageAt 0).pin_count - 1 = 0 then
        (run (create 1 blankDisk) [Op.fetch 1]).replacer.LRU ++ [0]
      else (run (create 1 blankDisk) [Op.fetch 1]).replacer.LRU) :=
  (unpin_sticky_dirty 1 blankDisk [Op.fetch 1] 1 0 true (by decide) (by decide)).2.2.2.1

end bustub

/-! ## C8: failure results -/

namespace bustub
open BufferPoolManager

theorem unpin_false_iff (n : Nat) (s : BufferPoolManager) (p : page_id_t) (flag : Bool)
    (h : WF n s) :
    (s.UnpinPageImpl p flag).1 = false ↔
      (ptFind s.page_table p = none ∨
        ∃ f, ptFind s.page_table p = some f ∧ (s.pageAt f).pin_count = 0) := by
  cases hp : ptFind s.page_table p with
  | none => simp [UnpinPageImpl, hp]
  | some f =>
    have hlen : f < s.pages.length := h.pages_len.symm ▸ (h.pt p f hp).1
    have hnn := h.pin_nonneg f
    by_cases hc : (s.pageAt f).pin_count ≤ 0
    · have h0 : (s.pageAt f).pin_count = 0 := by omega
      simp [UnpinPageImpl, hp, hc, h0]
    · rw [UnpinPageImpl_ok s p flag f hp hlen (not_le.mp hc)]
      have h0 : ¬ (s.pageAt f).pin_count = 0 := by omega
      simp [h0]

theorem unpin_false_state (s : BufferPoolManager) (p : page_id_t) (flag : Bool)
    (hr : (s.UnpinPageImpl p flag).1 = false) : (s.UnpinPageImpl p flag).2 = s := by
  cases hp : ptFind s.page_table p with
  | none => simp only [UnpinPageImpl, hp]
  | some f =>
    by_cases hc : (s.pageAt f).pin_count ≤ 0
    · simp only [UnpinPageImpl, hp, hc, if_true]
    · simp [UnpinPageImpl, hp, hc] at hr

theorem flush_false_iff (s : BufferPoolManager) (p : page_id_t) :
    (s.FlushPageImpl p).1 = false ↔ ptFind s.page_table p = none := by
  cases hp : ptFind s.page_table p with
  | none => simp [FlushPageImpl, hp]
  | some f => simp [FlushPageImpl, hp]

theorem flush_false_state (s : BufferPoolManager) (p : page_id_t)
    (hr : (s.FlushPageImpl p).1 = false) : (s.FlushPageImpl p).2 = s := by
  have hp := (flush_false_iff s p).mp hr
  simp only [FlushPageImpl, hp]

theorem delete_false_iff (s : BufferPoolManager) (p : page_id_t) :
    (s.DeletePageImpl p).1 = false ↔
      ∃ f, ptFind s.page_table p = some f ∧ 0 < (s.pageAt f).pin_count := by
  cases hp : ptFind s.page_table p with
  | none => simp [DeletePageImpl, hp]
  | some f =>
    by_cases hc : (s.pageAt f).pin_count > 0
    · simp [DeletePageImpl, hp, hc]
    · rw [DeletePageImpl_ok s p f hp hc]
      simpa using hc

theorem delete_false_state (s : BufferPoolManager) (p : page_id_t)
    (hr : (s.DeletePageImpl p).1 = false) : (s.DeletePageImpl p).2 = s := by
  obtain ⟨f, hp, hc⟩ := (delete_false_iff s p).mp hr
  have hc2 : (s.pageAt f).pin_count > 0 := hc
  simp only [DeletePageImpl, hp, hc2, if_true]

theorem delete_absent (s : BufferPoolManager) (p : page_id_t)
    (hp : ptFind s.page_table p = none) : s.DeletePageImpl p = (true, s) := by
  simp only [DeletePageImpl, hp]

/-- C8: failure results of unpin, flush and delete.  In every state reachable from
a new pool: unpin(p, flag) returns false iff p is not in the page table or p's
pin_count is zero; flush(p) returns false iff p is not in the page table;
delete(p) returns false iff p is in the page table with pin_count > 0, and
returns true when p is absent.  In each of these cases (every false result, and
delete of an absent page) the whole pool state, disk included, is unchanged. -/
theorem failure_results (n : Nat) (dm : DiskManager) (ops : List Op) (p : page_id_t) :
    (∀ flag, ((run (create n dm) ops).UnpinPageImpl p flag).1 = false ↔
      (ptFind (run (create n dm) ops).page_table p = none ∨
        ∃ f, ptFind (run (create n dm) ops).page_table p = some f ∧
          ((run (create n dm) ops).pageAt f).pin_count = 0)) ∧
    (((run (create n dm) ops).FlushPageImpl p).1 = false ↔
      ptFind (run (create n dm) ops).page_table p = none) ∧
    (((run (create n dm) ops).DeletePageImpl p).1 = false ↔
      ∃ f, ptFind (run (create n dm) ops).page_table p = some f ∧
        0 < ((run (create n dm) ops).pageAt f).pin_count) ∧
    (ptFind (run (create n dm) ops).page_table p = none →
      (run (create n dm) ops).DeletePageImpl p = (true, run (create n dm) ops)) ∧
    (∀ flag, ((run (create n dm) ops).UnpinPageImpl p flag).1 = false →
      ((run (create n dm) ops).UnpinPageImpl p flag).2 = run (create n dm) ops) ∧
    (((run (create n dm) ops).FlushPageImpl p).1 = false →
      ((run (create n dm) ops).FlushPageImpl p).2 = run (create n dm) ops) ∧
    (((run (create n dm) ops).DeletePageImpl p).1 = false →
      ((run (create n dm) ops).DeletePageImpl p).2 = run (create n dm) ops) :=
  ⟨fun flag => unpin_false_iff n _ p flag (WF_reachable n dm ops), flush_false_iff _ p,
    delete_false_iff _ p, delete_absent _ p, fun flag => unpin_false_state _ p flag,
    flush_false_state _ p, delete_false_state _ p⟩

/-- C8 (witness): page 1 is fetched and unpinned in a pool of one frame; a second
unpin returns false and changes nothing; page 2 is absent, so deleting it
returns true and changes nothing. -/
theorem failure_results_witness :
    ((run (create 1 blankDisk) [Op.fetch 1, Op.unpin 1 false]).UnpinPageImpl 1 true).2 =
        run (create 1 blankDisk) [Op.fetch 1, Op.unpin 1 false] ∧
      (run (create 1 blankDisk) [Op.fetch 1, Op.unpin 1 false]).DeletePageImpl 2 =
        (true, run (create 1 blankDisk) [Op.fetch 1, Op.unpin 1 false]) :=
  ⟨(failure_results 1 blankDisk [Op.fetch 1, Op.unpin 1 false] 1).2.2.2.2.1 true (by decide),
    (failure_results 1 blankDisk [Op.fetch 1, Op.unpin 1 false] 2).2.2.2.1 (by decide)⟩

/-! ## C9: flush and the pin count -/

/-- C9 (failing input): on a pool of one frame, after fetch(1) page 1 sits in
frame 0 with pin_count 1; flush(1) returns true and leaves the pin_count at 0
although no unpin happened.  The frame is not handed to the replacer, the
holder's unpin(1) is then refused, and delete(1) succeeds while the page is
still in use. -/
theorem flush_clears_pin_count :
    ptFind (run (create 1 blankDisk) [Op.fetch 1]).page_table 1 = some 0 ∧
    ((run (create 1 blankDisk) [Op.fetch 1]).pageAt 0).pin_count = 1 ∧
    ((run (create 1 blankDisk) [Op.fetch 1]).FlushPageImpl 1).1 = true ∧
    (((run (create 1 blankDisk) [Op.fetch 1]).FlushPageImpl 1).2.pageAt 0).pin_count = 0 ∧
    ((run (create 1 blankDisk) [Op.fetch 1]).FlushPageImpl 1).2.replacer.LRU = [] ∧
    (((run (create 1 blankDisk) [Op.fetch 1]).FlushPageImpl 1).2.UnpinPageImpl 1 false).1 = false ∧
    (((run (create 1 blankDisk) [Op.fetch 1]).FlushPageImpl 1).2.DeletePageImpl 1).1 = true := by
  decide

theorem flush_effect (n : Nat) (s : BufferPoolManager) (p : page_id_t) (f : frame_id_t)
    (h : WF n s) (hp : ptFind s.page_table p = some f) :
    (s.FlushPageImpl p).1 = true ∧
      (s.FlushPageImpl p).2.disk_manager.store p = (s.pageAt f).data ∧
      ((s.FlushPageImpl p).2.pageAt f).is_dirty = false ∧
      ((s.FlushPageImpl p).2.pageAt f).pin_count = 0 ∧
      (s.FlushPageImpl p).2.replacer = s.replacer ∧
      (s.FlushPageImpl p).2.page_table = s.page_table ∧
      (s.FlushPageImpl p).2.free_list = s.free_list ∧
      (∀ g, g ≠ f → (s.FlushPageImpl p).2.pageAt g = s.pageAt g) := by
  have hlen : f < s.pages.length := h.pages_len.symm ▸ (h.pt p f hp).1
  rw [FlushPageImpl_hit s p f hp hlen]
  refine ⟨rfl, ?_, ?_, ?_, rfl, rfl, rfl, fun g hg => pageAt_of_pages_ne s _ f g _ rfl hg⟩
  · simp [DiskManager.WritePage]
  · rw [pageAt_of_pages_self s _ f _ rfl hlen]
  · rw [pageAt_of_pages_self s _ f _ rfl hlen]

/-! ## C10: successful delete -/

/-- C10: successful delete.  In every state reachable from a new pool, for a page
`p` cached in frame `f` with pin_count = 0, delete(p) returns true; afterwards
`p` is not in the page table, `f` is in the free list exactly once (appended at
the back) and not in the replacer's eligible list, the frame is reset (page id
INVALID, pin_count 0, dirty false, bytes zero), and if the frame was dirty the
disk contents under `p` equal the bytes the frame held before the call. -/
theorem delete_success (n : Nat) (dm : DiskManager) (ops : List Op) (p : page_id_t)
    (f : frame_id_t) (hp : ptFind (run (create n dm) ops).page_table p = some f)
    (hc : ((run (create n dm) ops).pageAt f).pin_count = 0) :
    ((run (create n dm) ops).DeletePageImpl p).1 = true ∧
    ptFind ((run (create n dm) ops).DeletePageImpl p).2.page_table p = none ∧
    ((run (create n dm) ops).DeletePageImpl p).2.free_list =
      (run (create n dm) ops).free_list ++ [f] ∧
    ((run (create n dm) ops).DeletePageImpl p).2.free_list.count f = 1 ∧
    f ∉ ((run (create n dm) ops).DeletePageImpl p).2.replacer.LRU ∧
    ((run (create n dm) ops).DeletePageImpl p).2.pageAt f =
      { data := zeroData, page_id := INVALID_PAGE_ID, pin_count := 0, is_dirty := false } ∧
    (((run (create n dm) ops).pageAt f).is_dirty = true →
      ((run (create n dm) ops).DeletePageImpl p).2.disk_manager.store p =
        ((run (create n dm) ops).pageAt f).data) := by
  have h := WF_reachable n dm ops
  generalize run (create n dm) ops = s at h hp hc
  obtain ⟨hf, hid, hfree⟩ := h.pt p f hp
  have hlen : f < s.pages.length := h.pages_len.symm ▸ hf
  have hc2 : ¬ (s.pageAt f).pin_count > 0 := by omega
  rw [DeletePageImpl_ok s p f hp hc2]
  refine ⟨rfl, ?_, rfl, ?_, ?_, ?_, ?_⟩
  · show ptFind (ptErase s.page_table (s.pageAt f).page_id) p = none
    rw [ptFind_erase, hid]
    simp
  · show (s.free_list ++ [f]).count f = 1
    rw [List.count_append, List.count_eq_zero_of_not_mem hfree]
    simp
  · intro hm
    exact ((mem_Pin _ _ _).mp hm).2 rfl
  · rw [pageAt_of_pages_self s _ f _ rfl hlen]
    rfl
  · intro hd
    simp [hd, DiskManager.WritePage, hid]

/-- C10 (witness): page 1 fetched, unpinned dirty and deleted in a pool of one frame. -/
theorem delete_success_witness :
    ((run (create 1 blankDisk) [Op.fetch 1, Op.unpin 1 true]).DeletePageImpl 1).2.free_list =
      (run (create 1 blankDisk) [Op.fetch 1, Op.unpin 1 true]).free_list ++ [0] :=
  (delete_success 1 blankDisk [Op.fetch 1, Op.unpin 1 true] 1 0 (by decide)
    (by decide)).2.2.1

end bustub

/-! ## C11, C12: what delete and flush leave undone -/

namespace bustub
open BufferPoolManager

theorem delete_keeps_deallocated (s : BufferPoolManager) (p : page_id_t) :
    (s.DeletePageImpl p).2.disk_manager.deallocated = s.disk_manager.deallocated := by
  cases hp : ptFind s.page_table p with
  | none => simp only [DeletePageImpl, hp]
  | some f =>
    by_cases hc : (s.pageAt f).pin_count > 0
    · simp only [DeletePageImpl, hp, hc, if_true]
    · rw [DeletePageImpl_ok s p f hp hc]
      show (if (s.pageAt f).is_dirty = true then
        s.disk_manager.WritePage (s.pageAt f).page_id (s.pageAt f).data
        else s.disk_manager).deallocated = _
      split <;> rfl

/-- C11 (failing input): on a pool of one frame, page 1 is fetched and unpinned,
so it is cached in frame 0 with pin_count 0; delete(1) returns true and frees the
frame, but the log of ids given back to the block-I/O layer is still empty:
`deallocate_page(1)` was not invoked. -/
theorem delete_skips_deallocate :
    ptFind (run (create 1 blankDisk) [Op.fetch 1, Op.unpin 1 false]).page_table 1 = some 0 ∧
    ((run (create 1 blankDisk) [Op.fetch 1, Op.unpin 1 false]).pageAt 0).pin_count = 0 ∧
    ((run (create 1 blankDisk) [Op.fetch 1, Op.unpin 1 false]).DeletePageImpl 1).1 = true ∧
    ((run (create 1 blankDisk) [Op.fetch 1, Op.unpin 1 false]).DeletePageImpl 1).2.free_list
      = [0] ∧
    ((run (create 1 blankDisk)
      [Op.fetch 1, Op.unpin 1 false]).DeletePageImpl 1).2.disk_manager.deallocated = [] := by
  decide

/-- C12 (failing input): on a pool of one frame, after fetch(1) and flush(1) page 1
is in the page table (frame 0) with pin_count 0 while frame 0 is not in the
replacer's eligible list: the page is neither pinned nor evictable, and a fetch
of another page finds no frame. -/
theorem flushed_page_neither_pinned_nor_evictable :
    ptFind (run (create 1 blankDisk) [Op.fetch 1, Op.flush 1]).page_table 1 = some 0 ∧
    ((run (create 1 blankDisk) [Op.fetch 1, Op.flush 1]).pageAt 0).pin_count = 0 ∧
    0 ∉ (run (create 1 blankDisk) [Op.fetch 1, Op.flush 1]).replacer.LRU ∧
    ((run (create 1 blankDisk) [Op.fetch 1, Op.flush 1]).FetchPageImpl 2).1 = none := by
  decide

end bustub

/-! ## C13: FIFO order of the replacer -/

namespace bustub

theorem oldest_of_sorted (l : List (frame_id_t × Nat))
    (h : l.Pairwise (fun a b => b.2 < a.2)) : FifoSpec.oldest l = l.getLast? := by
  induction l with
  | nil => rfl
  | cons e rest ih =>
    obtain ⟨h1, h2⟩ := List.pairwise_cons.mp h
    rw [FifoSpec.oldest, ih h2]
    cases rest with
    | nil => rfl
    | cons e2 rest2 =>
      have hl : (e2 :: rest2).getLast? = some ((e2 :: rest2).getLast (by simp)) :=
        List.getLast?_eq_getLast _ _
      rw [hl, List.getLast?_cons_cons, hl]
      have hlt := h1 _ (List.getLast_mem (l := e2 :: rest2) (by simp))
      have : ¬ e.2 < ((e2 :: rest2).getLast (by simp)).2 := by omega
      simp only [this, if_false]

theorem frames_filter (l : List (frame_id_t × Nat)) (f : frame_id_t) :
    (l.filter (fun x => decide (x.1 ≠ f))).reverse.map Prod.fst =
      (l.reverse.map Prod.fst).filter (fun g => decide (g ≠ f)) := by
  rw [List.filter_map, List.filter_reverse]
  rfl

theorem FifoSim_create (n : Nat) : FifoSim 0 (LRUReplacer.create n) (FifoSpec.create n) where
  cap := rfl
  frames := rfl
  sorted := List.Pairwise.nil
  past := by intro e he; simp [FifoSpec.create] at he
  nodup := List.nodup_nil

theorem FifoSim_later (now : Nat) (r : LRUReplacer) (s : FifoSpec) (h : FifoSim now r s) :
    FifoSim (now + 1) r s :=
  ⟨h.cap, h.frames, h.sorted, fun e he => Nat.lt_succ_of_lt (h.past e he), h.nodup⟩

theorem FifoSim_pin (now : Nat) (r : LRUReplacer) (s : FifoSpec) (f : frame_id_t)
    (h : FifoSim now r s) : FifoSim now (r.Pin f) (s.pin f) where
  cap := (Pin_number_pages r f).trans h.cap
  frames := by
    rw [Pin_LRU]
    show (s.admitted.filter _).reverse.map Prod.fst = _
    rw [frames_filter, h.frames]
  sorted := List.Pairwise.filter _ h.sorted
  past := fun e he => h.past e (List.mem_of_mem_filter he)
  nodup := Pin_nodup r f h.nodup

theorem FifoSim_length (now : Nat) (r : LRUReplacer) (s : FifoSpec) (h : FifoSim now r s) :
    r.LRU.length = s.admitted.length := by
  rw [← h.frames, List.length_map, List.length_reverse]

theorem FifoSim_mem (now : Nat) (r : LRUReplacer) (s : FifoSpec) (h : FifoSim now r s)
    (f : frame_id_t) : f ∈ r.LRU ↔ f ∈ s.admitted.map Prod.fst := by
  rw [← h.frames, List.map_reverse, List.mem_reverse]

theorem FifoSim_unpin (now : Nat) (r : LRUReplacer) (s : FifoSpec) (f : frame_id_t)
    (h : FifoSim now r s) : FifoSim (now + 1) (r.Unpin f) (s.unpin now f) := by
  by_cases hm : f ∈ r.LRU
  · have hm2 := (FifoSim_mem now r s h f).mp hm
    have e1 : r.Unpin f = r := by
      unfold LRUReplacer.Unpin
      split
      · simp only [hm, if_true]
      · rfl
    have e2 : s.unpin now f = s := by simp only [FifoSpec.unpin, hm2, if_true]
    rw [e1, e2]
    exact FifoSim_later now r s h
  · have hm2 : f ∉ s.admitted.map Prod.fst := fun e => hm ((FifoSim_mem now r s h f).mpr e)
    by_cases hroom : r.LRU.length < r.number_pages
    · have hroom2 : s.admitted.length < s.capacity := by
        rw [← FifoSim_length now r s h, ← h.cap]; exact hroom
      have e1 : r.Unpin f = { r with LRU := r.LRU ++ [f] } := by
        simp only [LRUReplacer.Unpin, hroom, hm, if_true, if_false]
      have e2 : s.unpin now f = { s with admitted := (f, now) :: s.admitted } := by
        simp only [FifoSpec.unpin, hm2, hroom2, if_true, if_false]
      rw [e1, e2]
      refine ⟨h.cap, ?_, ?_, ?_, ?_⟩
      · show ((f, now) :: s.admitted).reverse.map Prod.fst = r.LRU ++ [f]
        rw [List.reverse_cons, List.map_append, h.frames]
        rfl
      · show ((f, now) :: s.admitted).Pairwise _
        exact List.pairwise_cons.mpr ⟨fun e he => h.past e he, h.sorted⟩
      · intro e he
        change e ∈ (f, now) :: s.admitted at he
        rcases List.mem_cons.mp he with e1 | e1
        · rw [e1]; exact Nat.lt_succ_self now
        · exact Nat.lt_succ_of_lt (h.past e e1)
      · show (r.LRU ++ [f]).Nodup
        rw [List.nodup_append]
        refine ⟨h.nodup, List.nodup_singleton f, ?_⟩
        intro a ha hb
        exact hm (List.mem_singleton.mp hb ▸ ha)
    · have hroom2 : ¬ s.admitted.length < s.capacity := by
        rw [← FifoSim_length now r s h, ← h.cap]; exact hroom
      have e1 : r.Unpin f = r := by simp only [LRUReplacer.Unpin, hroom, if_false]
      have e2 : s.unpin now f = s := by
        simp only [FifoSpec.unpin, hm2, hroom2, if_false]
      rw [e1, e2]
      exact FifoSim_later now r s h

theorem FifoSim_victim (now : Nat) (r : LRUReplacer) (s : FifoSpec) (h : FifoSim now r s) :
    r.Victim.1 = s.victim.1 ∧ FifoSim now r.Victim.2 s.victim.2 := by
  have hold := oldest_of_sorted s.admitted h.sorted
  cases hl : r.LRU with
  | nil =>
    have hadm : s.admitted = [] := by
      have := FifoSim_length now r s h
      rw [hl] at this
      exact List.length_eq_zero.mp this.symm
    have e1 : r.Victim = (none, r) := by simp only [LRUReplacer.Victim, hl]
    have e2 : s.victim = (none, s) := by simp only [FifoSpec.victim, hadm, FifoSpec.oldest]
    rw [e1, e2]
    exact ⟨rfl, h⟩
  | cons f rest =>
    have e1 : r.Victim = (some f, { r with LRU := rest }) := by
      simp only [LRUReplacer.Victim, hl]
    have hhead : (s.admitted.reverse.map Prod.fst).head? = some f := by
      rw [h.frames, hl]; rfl
    rw [List.head?_map, List.head?_reverse] at hhead
    cases hlast : s.admitted.getLast? with
    | none => rw [hlast] at hhead; simp at hhead
    | some e =>
      rw [hlast] at hhead hold
      have hef : e.1 = f := by simpa using hhead
      have e2 : s.victim = (some e.1,
          { s with admitted := s.admitted.filter (fun x => decide (x.1 ≠ e.1)) }) := by
        simp only [FifoSpec.victim, hold]
      rw [e1, e2]
      have hnd : (f :: rest).Nodup := hl ▸ h.nodup
      refine ⟨by rw [hef], h.cap, ?_, List.Pairwise.filter _ h.sorted,
        fun x hx => h.past x (List.mem_of_mem_filter hx), (List.nodup_cons.mp hnd).2⟩
      show (s.admitted.filter _).reverse.map Prod.fst = rest
      rw [frames_filter, h.frames, hl, hef]
      have hf : f ∉ rest := (List.nodup_cons.mp hnd).1
      rw [List.filter_cons_of_neg (by simp), List.filter_eq_self]
      intro a ha
      simp only [ne_eq, decide_eq_true_eq]
      exact fun e => hf (e ▸ ha)

theorem exec_refines (ops : List ReplacerOp) :
    ∀ (now : Nat) (r : LRUReplacer) (s : FifoSpec), FifoSim now r s →
      (r.exec ops).1 = (s.exec now ops).1 ∧
        ∃ later, FifoSim later (r.exec ops).2 (s.exec now ops).2 := by
  induction ops with
  | nil => intro now r s h; exact ⟨rfl, now, h⟩
  | cons op rest ih =>
    intro now r s h
    cases op with
    | victim =>
      obtain ⟨hv, hs⟩ := FifoSim_victim now r s h
      obtain ⟨h1, h2⟩ := ih (now + 1) _ _ (FifoSim_later _ _ _ hs)
      refine ⟨?_, h2⟩
      show r.Victim.1 :: _ = s.victim.1 :: _
      rw [hv, h1]
    | pin f => exact ih (now + 1) _ _ (FifoSim_later _ _ _ (FifoSim_pin now r s f h))
    | unpin f => exact ih (now + 1) _ _ (FifoSim_unpin now r s f h)

end bustub

namespace bustub

theorem exec_unpins (fs : List frame_id_t) :
    ∀ r : LRUReplacer, (r.LRU ++ fs).Nodup → (r.LRU ++ fs).length ≤ r.number_pages →
      r.exec (fs.map ReplacerOp.unpin) = ([], { r with LRU := r.LRU ++ fs }) := by
  induction fs with
  | nil => intro r _ _; simp [LRUReplacer.exec]
  | cons f rest ih =>
    intro r hnd hlen
    have hf : f ∉ r.LRU := by
      intro hm
      have := (List.nodup_append.mp hnd).2.2 hm (List.mem_cons_self _ _)
      exact this
    have hroom : r.LRU.length < r.number_pages := by
      simp only [List.length_append, List.length_cons] at hlen
      omega
    have e1 : r.Unpin f = { r with LRU := r.LRU ++ [f] } := by
      simp only [LRUReplacer.Unpin, hroom, hf, if_true, if_false]
    show (r.Unpin f).exec (rest.map ReplacerOp.unpin) = _
    rw [e1, ih]
    · simp
    · simpa using hnd
    · simpa using hlen

theorem drain_all (l : List frame_id_t) :
    ∀ r : LRUReplacer, r.LRU = l → r.drain (l.length + 1) = l.map some ++ [none] := by
  induction l with
  | nil =>
    intro r h
    simp [LRUReplacer.drain, LRUReplacer.Victim, h]
  | cons f rest ih =>
    intro r h
    have e1 : r.Victim = (some f, { r with LRU := rest }) := by
      simp only [LRUReplacer.Victim, h]
    show r.Victim.1 :: r.Victim.2.drain (rest.length + 1) = _
    rw [e1, ih _ rfl]
    rfl

/-- C13: the LRU replacer's victim order is strict FIFO on unpin.  (1) For every
sequence of pin, unpin and victim calls on a new replacer, the victim calls of
the code return exactly what the spec's replacer returns, whose victim removes
the eligible frame with the earliest admitting unpin (`FifoSpec.oldest`) and
reports empty when no frame is eligible; and afterwards the same frames are
eligible in both.  (2) In every replacer state, victim reports empty iff the list
is empty, then leaving the state unchanged, and otherwise removes and returns the
front of the list.  (3) An unpin of a frame that is already eligible changes
nothing.  (4) pin(f) deletes `f` from the list and keeps the others in their
order.  (5) After unpin of distinct frames f1..fk, k <= num_pages, on a new
replacer, k victim calls return f1..fk in that order and the next reports
empty. -/
theorem lru_victim_fifo :
    (∀ (n : Nat) (ops : List ReplacerOp),
      ((LRUReplacer.create n).exec ops).1 = ((FifoSpec.create n).exec 0 ops).1 ∧
      ∀ f, f ∈ ((LRUReplacer.create n).exec ops).2.LRU ↔
        f ∈ (((FifoSpec.create n).exec 0 ops).2.admitted.map Prod.fst)) ∧
    (∀ r : LRUReplacer, (r.Victim.1 = none ↔ r.LRU = []) ∧
      (r.Victim.1 = none → r.Victim.2 = r) ∧
      (∀ f rest, r.LRU = f :: rest → r.Victim = (some f, { r with LRU := rest }))) ∧
    (∀ (r : LRUReplacer) (f : frame_id_t), f ∈ r.LRU → r.Unpin f = r) ∧
    (∀ (r : LRUReplacer) (f : frame_id_t),
      (r.Pin f).LRU = r.LRU.filter (fun g => decide (g ≠ f))) ∧
    (∀ (n : Nat) (fs : List frame_id_t), fs.Nodup → fs.length ≤ n →
      ((LRUReplacer.create n).exec (fs.map ReplacerOp.unpin)).2.LRU = fs ∧
      ((LRUReplacer.create n).exec (fs.map ReplacerOp.unpin)).2.drain (fs.length + 1) =
        fs.map some ++ [none]) := by
  refine ⟨?_, ?_, ?_, Pin_LRU, ?_⟩
  · intro n ops
    obtain ⟨h1, later, h2⟩ := exec_refines ops 0 _ _ (FifoSim_create n)
    exact ⟨h1, fun f => FifoSim_mem later _ _ h2 f⟩
  · intro r
    cases hl : r.LRU with
    | nil => simp [LRUReplacer.Victim, hl]
    | cons f rest => simp [LRUReplacer.Victim, hl]
  · intro r f hm
    unfold LRUReplacer.Unpin
    split
    · simp only [hm, if_true]
    · rfl
  · intro n fs hnd hlen
    have e := exec_unpins fs (LRUReplacer.create n) (by simpa [LRUReplacer.create] using hnd)
      (by simpa [LRUReplacer.create] using hlen)
    rw [e]
    have hl : ({ LRUReplacer.create n with LRU := (LRUReplacer.create n).LRU ++ fs } :
        LRUReplacer).LRU = fs := by simp [LRUReplacer.create]
    exact ⟨hl, drain_all fs _ hl⟩

/-- C13 (witness): frames 4, 1, 3 unpinned on a new replacer of capacity 7 come
back from four victim calls as 4, 1, 3 and then empty. -/
theorem lru_victim_fifo_witness :
    ((LRUReplacer.create 7).exec ([4, 1, 3].map ReplacerOp.unpin)).2.drain 4 =
      [some 4, some 1, some 3, none] :=
  (lru_victim_fifo.2.2.2.2 7 [4, 1, 3] (by decide) (by decide)).2

end bustub

/-! ## C14, C15, C19: Lookup, InsertNodeAfter and Remove of the internal page -/

namespace bustub
open BPlusTreeInternalPage

theorem shiftLeft_spec {K : Type} (k : Nat) :
    ∀ (a : Int → K × page_id_t) (cur j : Int),
      shiftLeft a k cur j = if cur ≤ j ∧ j < cur + k then a (j + 1) else a j := by
  induction k with
  | zero =>
    intro a cur j
    have : ¬ (cur ≤ j ∧ j < cur + ((0 : Nat) : Int)) := by omega
    simp only [shiftLeft, this, if_false]
  | succ k ih =>
    intro a cur j
    rw [shiftLeft, ih]
    by_cases h1 : cur + 1 ≤ j ∧ j < cur + 1 + (k : Int)
    · have h2 : cur ≤ j ∧ j < cur + ((k + 1 : Nat) : Int) := by omega
      have h3 : j + 1 ≠ cur := by omega
      simp only [h1, h2, and_self, if_true, Function.update_noteq h3]
    · by_cases h4 : j = cur
      · have h2 : cur ≤ j ∧ j < cur + ((k + 1 : Nat) : Int) := by omega
        simp only [h1, if_false, h2, and_self, if_true]
        rw [h4, Function.update_same]
      · have h2 : ¬ (cur ≤ j ∧ j < cur + ((k + 1 : Nat) : Int)) := by omega
        simp only [h1, h2, if_false, Function.update_noteq h4]

theorem shiftRight_spec {K : Type} (k : Nat) :
    ∀ (a : Int → K × page_id_t) (cur j : Int),
      shiftRight a k cur j = if cur - k < j ∧ j ≤ cur then a (j - 1) else a j := by
  induction k with
  | zero =>
    intro a cur j
    have : ¬ (cur - ((0 : Nat) : Int) < j ∧ j ≤ cur) := by omega
    simp only [shiftRight, this, if_false]
  | succ k ih =>
    intro a cur j
    rw [shiftRight, ih]
    by_cases h1 : cur - 1 - (k : Int) < j ∧ j ≤ cur - 1
    · have h2 : cur - ((k + 1 : Nat) : Int) < j ∧ j ≤ cur := by omega
      have h3 : j - 1 ≠ cur := by omega
      simp only [h1, h2, and_self, if_true, Function.update_noteq h3]
    · by_cases h4 : j = cur
      · have h2 : cur - ((k + 1 : Nat) : Int) < j ∧ j ≤ cur := by omega
        simp only [h1, if_false, h2, and_self, if_true]
        rw [h4, Function.update_same]
      · have h2 : ¬ (cur - ((k + 1 : Nat) : Int) < j ∧ j ≤ cur) := by omega
        simp only [h1, h2, if_false, Function.update_noteq h4]

theorem ValueIndexLoop_first {K : Type} (node : BPlusTreeInternalPage K) (value : page_id_t)
    (k : Nat) :
    ∀ (cur i : Int), cur ≤ i → i < cur + k → (node.array i).2 = value →
      (∀ j, cur ≤ j → j < i → (node.array j).2 ≠ value) →
      node.ValueIndexLoop value k cur = i := by
  induction k with
  | zero => intro cur i h1 h2; omega
  | succ k ih =>
    intro cur i h1 h2 hv hfirst
    rw [ValueIndexLoop]
    by_cases hc : cur = i
    · subst hc
      simp only [hv, if_true]
    · have hne : ¬ value = (node.array cur).2 :=
        fun e => hfirst cur (le_refl _) (by omega) e.symm
      simp only [hne, if_false]
      exact ih (cur + 1) i (by omega) (by omega) hv (fun j hj1 hj2 => hfirst j (by omega) hj2)

theorem LookupLoop_spec {K : Type} (node : BPlusTreeInternalPage K) (key : K)
    (comparator : K → K → Int) (hc : ComparatorLaws comparator)
    (hs : ∀ i j : Int, 1 ≤ i → i < j → j < node.size →
      comparator (node.array i).1 (node.array j).1 < 0) (k : Nat) :
    ∀ cur : Int, 1 ≤ cur → cur + k = node.size →
      (∀ j, 1 ≤ j → j < cur → ¬ comparator key (node.array j).1 < 0) →
      ∃ i, 0 ≤ i ∧ i < node.size ∧ node.LookupLoop key comparator k cur = (node.array i).2 ∧
        (∀ j, 1 ≤ j → j ≤ i → ¬ comparator key (node.array j).1 < 0) ∧
        (∀ j, i < j → j < node.size → comparator key (node.array j).1 < 0) := by
  induction k with
  | zero =>
    intro cur h1 h2 hinv
    refine ⟨cur - 1, by omega, by omega, rfl, fun j hj1 hj2 => hinv j hj1 (by omega), ?_⟩
    intro j hj1 hj2
    omega
  | succ k ih =>
    intro cur h1 h2 hinv
    rw [LookupLoop]
    by_cases hlt : comparator key (node.array cur).1 < 0
    · simp only [hlt, if_true]
      refine ⟨cur - 1, by omega, by omega, rfl, fun j hj1 hj2 => hinv j hj1 (by omega), ?_⟩
      intro j hj1 hj2
      by_cases hj : j = cur
      · rw [hj]; exact hlt
      · exact hc.lt_trans _ _ _ hlt (hs cur j h1 (by omega) hj2)
    · simp only [hlt, if_false]
      refine ih (cur + 1) (by omega) (by omega) ?_
      intro j hj1 hj2
      by_cases hj : j = cur
      · rw [hj]; exact hlt
      · exact hinv j hj1 (by omega)

theorem LookupLoop_congr {K : Type} (node node2 : BPlusTreeInternalPage K) (key : K)
    (comparator : K → K → Int) (k : Nat) :
    ∀ cur : Int, 1 ≤ cur →
      (∀ j, 1 ≤ j → node2.array j = node.array j) →
      (node2.array 0).2 = (node.array 0).2 →
      node2.LookupLoop key comparator k cur = node.LookupLoop key comparator k cur := by
  induction k with
  | zero =>
    intro cur h1 h h0
    simp only [LookupLoop]
    by_cases hc : cur = 1
    · rw [hc]; exact h0
    · rw [h (cur - 1) (by omega)]
  | succ k ih =>
    intro cur h1 h h0
    simp only [LookupLoop]
    rw [h cur h1, ih (cur + 1) (by omega) h h0]
    by_cases hc : cur = 1
    · rw [hc]
      simp only [sub_self, h0]
    · rw [h (cur - 1) (by omega)]

end bustub
namespace bustub
open BPlusTreeInternalPage

theorem entries_length {K : Type} (node : BPlusTreeInternalPage K) :
    node.entries.length = node.size.toNat := by
  unfold entries
  rw [List.length_map, List.length_range]

theorem entries_getElem {K : Type} (node : BPlusTreeInternalPage K) (m : Nat)
    (h : m < node.entries.length) : node.entries[m] = node.array (m : Int) := by
  unfold entries
  rw [List.getElem_map, List.getElem_range]
  rfl

/-- C14: internal-node Lookup.  For an internal node of size n >= 1 whose keys at
positions 1..n-1 are strictly increasing under the comparator, and every key k,
Lookup(k) returns the child pointer at a position i below n such that every key
at positions 1..i is <= k (the comparator does not put k before it) and every
key at positions i+1..n-1 is > k: i is the largest position in 1..n-1 with
keys[i] <= k, or 0 if there is none.  So keys[i] <= k < keys[i+1]; the last child
is returned when k >= keys[n-1]; child 0 is returned when n = 1; and the result
does not depend on the sentinel key at position 0. -/
theorem internal_lookup {K : Type} (comparator : K → K → Int) (hc : ComparatorLaws comparator)
    (node : BPlusTreeInternalPage K) (key : K) (hn : 1 ≤ node.size)
    (hs : ∀ i j : Int, 1 ≤ i → i < j → j < node.size →
      comparator (node.array i).1 (node.array j).1 < 0) :
    (∃ i, 0 ≤ i ∧ i < node.size ∧ node.Lookup key comparator = (node.array i).2 ∧
      (∀ j, 1 ≤ j → j ≤ i → ¬ comparator key (node.array j).1 < 0) ∧
      (∀ j, i < j → j < node.size → comparator key (node.array j).1 < 0)) ∧
    (¬ comparator key (node.array (node.size - 1)).1 < 0 →
      node.Lookup key comparator = (node.array (node.size - 1)).2) ∧
    (node.size = 1 → node.Lookup key comparator = (node.array 0).2) ∧
    (∀ sentinel : K,
      (node.SetKeyAt 0 sentinel).Lookup key comparator = node.Lookup key comparator) := by
  have hspec : ∃ i, 0 ≤ i ∧ i < node.size ∧ node.Lookup key comparator = (node.array i).2 ∧
      (∀ j, 1 ≤ j → j ≤ i → ¬ comparator key (node.array j).1 < 0) ∧
      (∀ j, i < j → j < node.size → comparator key (node.array j).1 < 0) :=
    LookupLoop_spec node key comparator hc hs (node.size - 1).toNat 1 (le_refl 1)
      (by omega) (fun j h1 h2 => by omega)
  refine ⟨hspec, ?_, ?_, ?_⟩
  · intro hlast
    obtain ⟨i, hi0, hin, hres, _, hgt⟩ := hspec
    by_cases hi : i = node.size - 1
    · rw [hres, hi]
    · exact absurd (hgt (node.size - 1) (by omega) (by omega)) hlast
  · intro h1
    obtain ⟨i, hi0, hin, hres, _, _⟩ := hspec
    have : i = 0 := by omega
    rw [hres, this]
  · intro sentinel
    show (node.SetKeyAt 0 sentinel).LookupLoop key comparator
      ((node.SetKeyAt 0 sentinel).size - 1).toNat 1 = _
    have h1 : ∀ j : Int, 1 ≤ j → (node.SetKeyAt 0 sentinel).array j = node.array j := by
      intro j hj
      show Function.update node.array 0 _ j = node.array j
      rw [Function.update_noteq (by omega)]
    have h0 : ((node.SetKeyAt 0 sentinel).array 0).2 = (node.array 0).2 := by
      show (Function.update node.array 0 (sentinel, (node.array 0).2) 0).2 = _
      rw [Function.update_same]
    exact LookupLoop_congr node (node.SetKeyAt 0 sentinel) key comparator _ 1 (le_refl 1) h1 h0

/-- C15: InsertNodeAfter.  For an internal node of size n with 0 <= n below the
capacity and an old_value whose first position among the pointers is i < n,
InsertNodeAfter(old_value, new_key, new_value) returns n + 1, sets the size to
n + 1, leaves entries 0..i unchanged, stores (new_key, new_value) at position
i + 1, and places the old entries i+1..n-1 at positions i+2..n in order. -/
theorem insert_node_after {K : Type} (node : BPlusTreeInternalPage K) (capacity : Int)
    (old_value : page_id_t) (new_key : K) (new_value : page_id_t) (i : Int)
    (hcap : node.size < capacity) (hi0 : 0 ≤ i) (hin : i < node.size)
    (hv : (node.array i).2 = old_value)
    (hfirst : ∀ j, 0 ≤ j → j < i → (node.array j).2 ≠ old_value) :
    ∃ node2, node.InsertNodeAfter capacity old_value new_key new_value =
        some (node.size + 1, node2) ∧
      node2.size = node.size + 1 ∧
      (∀ j, 0 ≤ j → j ≤ i → node2.array j = node.array j) ∧
      node2.array (i + 1) = (new_key, new_value) ∧
      (∀ j, i + 1 ≤ j → j ≤ node.size - 1 → node2.array (j + 1) = node.array j) := by
  have hidx : node.ValueIndex old_value = i :=
    ValueIndexLoop_first node old_value _ 0 i hi0 (by omega) hv hfirst
  have hguard : 0 ≤ node.size ∧ node.size < capacity := ⟨by omega, hcap⟩
  have hk : ((node.size - i).toNat : Int) = node.size - i := Int.toNat_of_nonneg (by omega)
  refine ⟨{ node with
      array := Function.update (shiftRight node.array (node.size - i).toNat node.size)
        (node.size - ((node.size - i).toNat : Int) + 1) (new_key, new_value)
      size := node.size + 1 }, ?_, rfl, ?_, ?_, ?_⟩
  · simp only [InsertNodeAfter, hguard, and_self, if_true, hidx]
  · intro j hj0 hji
    show Function.update (shiftRight node.array _ node.size) _ _ j = _
    rw [Function.update_noteq (by omega), shiftRight_spec]
    have : ¬ (node.size - ((node.size - i).toNat : Int) < j ∧ j ≤ node.size) := by omega
    simp only [this, if_false]
  · show Function.update (shiftRight node.array _ node.size) _ _ (i + 1) = _
    have : node.size - ((node.size - i).toNat : Int) + 1 = i + 1 := by omega
    rw [this, Function.update_same]
  · intro j hj1 hj2
    show Function.update (shiftRight node.array _ node.size) _ _ (j + 1) = _
    rw [Function.update_noteq (by omega), shiftRight_spec]
    have : node.size - ((node.size - i).toNat : Int) < j + 1 ∧ j + 1 ≤ node.size := by omega
    simp only [this, and_self, if_true, add_sub_cancel_right]

/-- C19: internal-node Remove.  For an internal node of size n and an index with
0 <= index < n, Remove(index) returns n - 1, sets the size to n - 1, leaves
entries 0..index-1 unchanged and makes entry j equal to the old entry j + 1 for
every index <= j < n - 1, so the entries afterwards are the old ones with
position index deleted. -/
theorem internal_remove {K : Type} (node : BPlusTreeInternalPage K) (index : Int)
    (h0 : 0 ≤ index) (hn : index < node.size) :
    (node.Remove index).1 = node.size - 1 ∧
    (node.Remove index).2.size = node.size - 1 ∧
    (∀ j, 0 ≤ j → j < index → (node.Remove index).2.array j = node.array j) ∧
    (∀ j, index ≤ j → j < node.size - 1 →
      (node.Remove index).2.array j = node.array (j + 1)) ∧
    (node.Remove index).2.entries =
      (node.entries.take index.toNat) ++ (node.entries.drop (index.toNat + 1)) := by
  have hk : ((node.size + 1 - index).toNat : Int) = node.size + 1 - index :=
    Int.toNat_of_nonneg (by omega)
  have hlow : ∀ j, 0 ≤ j → j < index → (node.Remove index).2.array j = node.array j := by
    intro j hj0 hj1
    show shiftLeft node.array _ index j = _
    rw [shiftLeft_spec]
    have : ¬ (index ≤ j ∧ j < index + ((node.size + 1 - index).toNat : Int)) := by omega
    simp only [this, if_false]
  have hhigh : ∀ j, index ≤ j → j < node.size - 1 →
      (node.Remove index).2.array j = node.array (j + 1) := by
    intro j hj0 hj1
    show shiftLeft node.array _ index j = _
    rw [shiftLeft_spec]
    have : index ≤ j ∧ j < index + ((node.size + 1 - index).toNat : Int) := by omega
    simp only [this, and_self, if_true]
  refine ⟨rfl, rfl, hlow, hhigh, ?_⟩
  apply List.ext_getElem
  · rw [entries_length, List.length_append, List.length_take, List.length_drop, entries_length]
    show (node.size - 1).toNat = _
    omega
  · intro m h1 h2
    rw [entries_length] at h1
    change m < (node.size - 1).toNat at h1
    rw [entries_getElem]
    by_cases hm : m < index.toNat
    · rw [List.getElem_append_left (by rw [List.length_take, entries_length]; omega),
        List.getElem_take, entries_getElem]
      exact hlow m (by omega) (by omega)
    · rw [List.getElem_append_right (by rw [List.length_take, entries_length]; omega),
        List.getElem_drop, entries_getElem, hhigh m (by omega) (by omega)]
      congr 1
      rw [List.length_take, entries_length]
      omega

end bustub
namespace bustub
open BPlusTreeInternalPage

theorem intComparator_laws : ComparatorLaws intComparator where
  refl := fun a => sub_self a
  flip := fun a b => by unfold intComparator; omega
  lt_trans := fun a b c => by unfold intComparator; omega

theorem wordHeader_laws : HeaderLaws wordHeader where
  parent_set := by
    intro d p
    by_cases hp : p < 0
    · simp [wordHeader, hp]
      rw [abs_of_neg hp, neg_neg]
    · simp [wordHeader, hp]
      exact not_lt.mp hp
  id_set := by
    intro d p
    simp [wordHeader]

/-- C14 (witness): in the sample node with keys 20, 30 the key 35 is not below
the last key, so Lookup returns the last child. -/
theorem internal_lookup_witness :
    sampleNode.Lookup 35 intComparator = (sampleNode.array (sampleNode.size - 1)).2 :=
  (internal_lookup intComparator intComparator_laws sampleNode 35 (by decide)
    (by
      intro i j h1 h2 h3
      have hi : i = 1 := by simp only [sampleNode] at h3; omega
      have hj : j = 2 := by simp only [sampleNode] at h3; omega
      subst hi hj
      decide)).2.1 (by decide)

/-- C15 (witness): inserting (25, 14) after child 11 of the sample node, capacity 8. -/
theorem insert_node_after_witness :
    ∃ node2, sampleNode.InsertNodeAfter 8 11 25 14 = some (sampleNode.size + 1, node2) ∧
      node2.size = sampleNode.size + 1 ∧
      (∀ j, 0 ≤ j → j ≤ 1 → node2.array j = sampleNode.array j) ∧
      node2.array (1 + 1) = (25, 14) ∧
      (∀ j, 1 + 1 ≤ j → j ≤ sampleNode.size - 1 → node2.array (j + 1) = sampleNode.array j) :=
  insert_node_after sampleNode 8 11 25 14 1 (by decide) (by decide) (by decide) (by decide)
    (by
      intro j h0 h1
      have hj : j = 0 := by omega
      subst hj
      decide)

/-- C19 (witness): removing entry 1 of the sample node. -/
theorem internal_remove_witness :
    (sampleNode.Remove 1).1 = sampleNode.size - 1 ∧
    (sampleNode.Remove 1).2.size = sampleNode.size - 1 ∧
    (∀ j, 0 ≤ j → j < 1 → (sampleNode.Remove 1).2.array j = sampleNode.array j) ∧
    (∀ j, 1 ≤ j → j < sampleNode.size - 1 →
      (sampleNode.Remove 1).2.array j = sampleNode.array (j + 1)) ∧
    (sampleNode.Remove 1).2.entries =
      (sampleNode.entries.take (1 : Int).toNat) ++ (sampleNode.entries.drop ((1 : Int).toNat + 1)) :=
  internal_remove sampleNode 1 (by decide) (by decide)

end bustub

/-! ## Child pointers and the copy loops of the internal page -/

namespace bustub
open BPlusTreeInternalPage BufferPoolManager

theorem childrenFrom_mem {K : Type} (a : Int → K × page_id_t) (c : page_id_t) (k : Nat) :
    ∀ cur : Int, c ∈ childrenFrom a k cur ↔ ∃ j, cur ≤ j ∧ j < cur + k ∧ (a j).2 = c := by
  induction k with
  | zero =>
    intro cur
    simp only [childrenFrom, List.not_mem_nil, false_iff]
    rintro ⟨j, h1, h2, _⟩
    omega
  | succ k ih =>
    intro cur
    rw [childrenFrom, List.mem_cons, ih]
    constructor
    · rintro (h | ⟨j, h1, h2, h3⟩)
      · exact ⟨cur, le_refl _, by omega, h.symm⟩
      · exact ⟨j, by omega, by omega, h3⟩
    · rintro ⟨j, h1, h2, h3⟩
      by_cases hj : j = cur
      · exact Or.inl (by rw [← h3, hj])
      · exact Or.inr ⟨j, by omega, by omega, h3⟩

theorem childrenFrom_shift {K : Type} (a : Int → K × page_id_t) (base : Int) (k : Nat) :
    ∀ cur : Int, childrenFrom (fun i => a (base + i)) k cur = childrenFrom a k (base + cur) := by
  induction k with
  | zero => intro cur; rfl
  | succ k ih =>
    intro cur
    rw [childrenFrom, childrenFrom, ih, add_assoc]

theorem CopyNFromLoop_eq {K : Type} (H : HeaderAccess) (items : Int → K × page_id_t)
    (k : Nat) :
    ∀ (cur : Int) (node : BPlusTreeInternalPage K) (bpm : BufferPoolManager),
      CopyNFromLoop H items k cur node bpm =
        (adoptAll H node.page_id bpm (childrenFrom items k cur)).map
          (fun b => ({ node with
            array := fun j => if cur ≤ j ∧ j < cur + k then items j else node.array j }, b)) := by
  induction k with
  | zero =>
    intro cur node bpm
    have : (fun j : Int => if cur ≤ j ∧ j < cur + ((0 : Nat) : Int) then items j
        else node.array j) = node.array := by
      funext j
      have h : ¬ (cur ≤ j ∧ j < cur + ((0 : Nat) : Int)) := by omega
      simp only [h, if_false]
    simp only [CopyNFromLoop, childrenFrom, adoptAll, Option.map_some', this]
  | succ k ih =>
    intro cur node bpm
    simp only [CopyNFromLoop, childrenFrom, adoptAll, Function.update_same]
    cases adoptChild H bpm (items cur).2 node.page_id with
    | none => rfl
    | some b1 =>
      simp only [ih]
      congr 1
      funext b
      congr 2
      funext j
      by_cases hj : j = cur
      · subst hj
        have h1 : ¬ (j + 1 ≤ j ∧ j < j + 1 + (k : Int)) := by omega
        have h2 : j ≤ j ∧ j < j + ((k + 1 : Nat) : Int) := by omega
        simp only [h1, h2, and_self, if_true, if_false, Function.update_same]
      · by_cases h1 : cur + 1 ≤ j ∧ j < cur + 1 + (k : Int)
        · have h2 : cur ≤ j ∧ j < cur + ((k + 1 : Nat) : Int) := by omega
          simp only [h1, h2, and_self, if_true]
        · have h2 : ¬ (cur ≤ j ∧ j < cur + ((k + 1 : Nat) : Int)) := by omega
          simp only [h1, h2, if_false, Function.update_noteq hj]

theorem MoveAllToLoop_eq {K : Type} (H : HeaderAccess) (node : BPlusTreeInternalPage K)
    (k : Nat) :
    ∀ (i cur : Int) (recipient : BPlusTreeInternalPage K) (bpm : BufferPoolManager),
      MoveAllToLoop H node k i cur recipient bpm =
        (adoptAll H recipient.page_id bpm (childrenFrom node.array k i)).map
          (fun b => ({ recipient with
            array := fun j => if cur ≤ j ∧ j < cur + k then node.array (i + (j - cur))
              else recipient.array j }, b)) := by
  induction k with
  | zero =>
    intro i cur recipient bpm
    have : (fun j : Int => if cur ≤ j ∧ j < cur + ((0 : Nat) : Int) then
        node.array (i + (j - cur)) else recipient.array j) = recipient.array := by
      funext j
      have h : ¬ (cur ≤ j ∧ j < cur + ((0 : Nat) : Int)) := by omega
      simp only [h, if_false]
    simp only [MoveAllToLoop, childrenFrom, adoptAll, Option.map_some', this]
  | succ k ih =>
    intro i cur recipient bpm
    simp only [MoveAllToLoop, childrenFrom, adoptAll]
    cases adoptChild H bpm (node.array i).2 recipient.page_id with
    | none => rfl
    | some b1 =>
      simp only [ih]
      congr 1
      funext b
      congr 2
      funext j
      by_cases hj : j = cur
      · subst hj
        have h1 : ¬ (j + 1 ≤ j ∧ j < j + 1 + (k : Int)) := by omega
        have h2 : j ≤ j ∧ j < j + ((k + 1 : Nat) : Int) := by omega
        simp only [h1, h2, and_self, if_true, if_false, Function.update_same, sub_self,
          add_zero]
      · by_cases h1 : cur + 1 ≤ j ∧ j < cur + 1 + (k : Int)
        · have h2 : cur ≤ j ∧ j < cur + ((k + 1 : Nat) : Int) := by omega
          simp only [h1, h2, and_self, if_true]
          congr 1
          omega
        · have h2 : ¬ (cur ≤ j ∧ j < cur + ((k + 1 : Nat) : Int)) := by omega
          simp only [h1, h2, if_false, Function.update_noteq hj]


theorem childrenFrom_length {K : Type} (a : Int → K × page_id_t) (k : Nat) :
    ∀ cur : Int, (childrenFrom a k cur).length = k := by
  induction k with
  | zero => intro cur; rfl
  | succ k ih => intro cur; rw [childrenFrom, List.length_cons, ih]

theorem childrenFrom_append {K : Type} (a : Int → K × page_id_t) (k1 k2 : Nat) :
    ∀ cur : Int, childrenFrom a (k1 + k2) cur =
      childrenFrom a k1 cur ++ childrenFrom a k2 (cur + k1) := by
  induction k1 with
  | zero => intro cur; simp [childrenFrom]
  | succ k1 ih =>
    intro cur
    have e : k1 + 1 + k2 = (k1 + k2) + 1 := by omega
    rw [e, childrenFrom, childrenFrom, ih, List.cons_append]
    congr 3
    push_cast
    omega

theorem childrenFrom_congr {K : Type} (a b : Int → K × page_id_t) (d : Int) (k : Nat) :
    ∀ cur : Int, (∀ j, cur ≤ j → j < cur + k → (a j).2 = (b (j + d)).2) →
      childrenFrom a k cur = childrenFrom b k (cur + d) := by
  induction k with
  | zero => intro cur _; rfl
  | succ k ih =>
    intro cur h
    rw [childrenFrom, childrenFrom, h cur (le_refl _) (by omega),
      ih (cur + 1) (fun j h1 h2 => h j (by omega) (by omega))]
    congr 2
    omega

theorem childrenFrom_getElem {K : Type} (a : Int → K × page_id_t) (k : Nat) :
    ∀ (cur : Int) (m : Nat) (h : m < (childrenFrom a k cur).length),
      (childrenFrom a k cur)[m] = (a (cur + m)).2 := by
  induction k with
  | zero => intro cur m h; simp [childrenFrom] at h
  | succ k ih =>
    intro cur m h
    cases m with
    | zero => simp [childrenFrom]
    | succ m =>
      simp only [childrenFrom, List.getElem_cons_succ]
      rw [ih]
      congr 2
      push_cast
      omega

theorem children_eq {K : Type} (node : BPlusTreeInternalPage K) :
    node.children = childrenFrom node.array node.size.toNat 0 := by
  apply List.ext_getElem
  · rw [childrenFrom_length]
    unfold children
    rw [List.length_map, entries_length]
  · intro m h1 h2
    rw [childrenFrom_getElem]
    unfold children
    rw [List.getElem_map, entries_getElem, zero_add]


theorem move_half_nodes {K : Type} (H : HeaderAccess)
    (node recipient : BPlusTreeInternalPage K) (bpm : BufferPoolManager)
    (hn : 0 ≤ node.size) (hr : recipient.size = 0) :
    ∃ t r, MoveHalfTo H node recipient bpm =
        (adoptAll H recipient.page_id bpm
          (childrenFrom node.array (node.size / 2).toNat ((node.size + 1) / 2))).map
          (fun b => (t, r, b)) ∧
      t.size = (node.size + 1) / 2 ∧
      (∀ j, t.array j = node.array j) ∧
      r.size = node.size / 2 ∧
      (∀ j, 0 ≤ j → j < node.size / 2 → r.array j = node.array ((node.size + 1) / 2 + j)) ∧
      t.entries ++ r.entries = node.entries ∧
      (1 ≤ node.size / 2 → (r.array 0).1 = (node.array ((node.size + 1) / 2)).1) := by
  have e1 : (node.size + 1).tdiv 2 = (node.size + 1) / 2 :=
    Int.tdiv_eq_ediv (by omega) (by omega)
  have e2 : node.size.tdiv 2 = node.size / 2 := Int.tdiv_eq_ediv hn (by omega)
  have hk : ((node.size / 2).toNat : Int) = node.size / 2 := Int.toNat_of_nonneg (by omega)
  have hslots : ∀ j, 0 ≤ j → j < node.size / 2 →
      (if 0 ≤ j ∧ j < 0 + ((node.size / 2).toNat : Int) then node.array ((node.size + 1) / 2 + j)
        else recipient.array j) = node.array ((node.size + 1) / 2 + j) := by
    intro j h0 h1
    have : 0 ≤ j ∧ j < 0 + ((node.size / 2).toNat : Int) := by omega
    simp only [this, and_self, if_true]
  refine ⟨{ node with size := (node.size + 1) / 2 },
    { recipient with
      array := fun j => if 0 ≤ j ∧ j < 0 + ((node.size / 2).toNat : Int) then
        node.array ((node.size + 1) / 2 + j) else recipient.array j
      size := node.size / 2 }, ?_, rfl, fun _ => rfl, rfl, hslots, ?_, ?_⟩
  · simp only [MoveHalfTo, CopyNFrom, hr, if_true, e1, e2, CopyNFromLoop_eq, childrenFrom_shift,
      add_zero]
    cases adoptAll H recipient.page_id bpm
      (childrenFrom node.array (node.size / 2).toNat ((node.size + 1) / 2)) with
    | none => rfl
    | some b => rfl
  · apply List.ext_getElem
    · rw [List.length_append, entries_length, entries_length, entries_length]
      show ((node.size + 1) / 2).toNat + (node.size / 2).toNat = node.size.toNat
      omega
    · intro m h1 h2
      rw [entries_getElem]
      by_cases hm : m < ((node.size + 1) / 2).toNat
      · rw [List.getElem_append_left (by rw [entries_length]; exact hm), entries_getElem]
      · rw [entries_length] at h2
        rw [List.getElem_append_right (by rw [entries_length]; exact Nat.le_of_not_lt hm),
          entries_getElem, entries_length]
        show (if _ then _ else _) = _
        rw [hslots]
        · congr 1
          show (node.size + 1) / 2 + ((m - ((node.size + 1) / 2).toNat : Nat) : Int) = m
          omega
        · omega
        · show ((m - ((node.size + 1) / 2).toNat : Nat) : Int) < node.size / 2
          omega
  · intro h1
    show (if _ then _ else _ : K × page_id_t).1 = _
    rw [hslots 0 (le_refl 0) (by omega), add_zero]

theorem move_all_nodes {K : Type} (H : HeaderAccess)
    (node recipient : BPlusTreeInternalPage K) (middle_key : K) (bpm : BufferPoolManager)
    (hn : 1 ≤ node.size) (hroom : recipient.size + node.size ≤ recipient.max_size) :
    ∃ r, MoveAllTo H node recipient middle_key bpm =
        (adoptAll H recipient.page_id bpm (childrenFrom node.array node.size.toNat 0)).map
          (fun b => (r, b)) ∧
      r.size = recipient.size + node.size ∧
      (∀ j, j < recipient.size → r.array j = recipient.array j) ∧
      r.array recipient.size = (middle_key, (node.array 0).2) ∧
      (∀ j, 1 ≤ j → j < node.size → r.array (recipient.size + j) = node.array j) := by
  have hk : ((node.size - 1).toNat : Int) = node.size - 1 := Int.toNat_of_nonneg (by omega)
  have hsplit : node.size.toNat = (node.size - 1).toNat + 1 := by omega
  refine ⟨{ recipient with
      array := fun j =>
        if recipient.size + 1 ≤ j ∧ j < recipient.size + 1 + ((node.size - 1).toNat : Int) then
          node.array (1 + (j - (recipient.size + 1)))
        else Function.update recipient.array recipient.size (middle_key, (node.array 0).2) j
      size := recipient.size + node.size }, ?_, rfl, ?_, ?_, ?_⟩
  · rw [hsplit]
    simp only [MoveAllTo, hroom, if_true, childrenFrom, adoptAll, zero_add]
    cases adoptChild H bpm (node.array 0).2 recipient.page_id with
    | none => rfl
    | some b1 =>
      simp only [MoveAllToLoop_eq]
      cases adoptAll H recipient.page_id b1 (childrenFrom node.array (node.size - 1).toNat 1) with
      | none => rfl
      | some b2 => rfl
  · intro j hj
    have h1 : ¬ (recipient.size + 1 ≤ j ∧
        j < recipient.size + 1 + ((node.size - 1).toNat : Int)) := by omega
    show (if _ then _ else _) = _
    rw [if_neg h1, Function.update_noteq (by omega)]
  · have h1 : ¬ (recipient.size + 1 ≤ recipient.size ∧
        recipient.size < recipient.size + 1 + ((node.size - 1).toNat : Int)) := by omega
    show (if _ then _ else _) = _
    rw [if_neg h1, Function.update_same]
  · intro j hj1 hj2
    have h1 : recipient.size + 1 ≤ recipient.size + j ∧
        recipient.size + j < recipient.size + 1 + ((node.size - 1).toNat : Int) := by omega
    show (if _ then _ else _) = _
    rw [if_pos h1]
    congr 1
    omega


theorem children_split {K : Type} (node : BPlusTreeInternalPage K) (k1 k2 : Nat)
    (h : node.size.toNat = k1 + k2) :
    node.children = childrenFrom node.array k1 0 ++ childrenFrom node.array k2 k1 := by
  rw [children_eq, h, childrenFrom_append, zero_add]

theorem children_after_first {K : Type} (node recipient t r : BPlusTreeInternalPage K)
    (hn : 2 ≤ node.size) (hr : 0 ≤ recipient.size)
    (hrs : r.size = recipient.size + 1)
    (hlow : ∀ j, 0 ≤ j → j < recipient.size → r.array j = recipient.array j)
    (hnew : (r.array recipient.size).2 = (node.array 0).2)
    (hts : t.size = node.size - 1)
    (hshift : ∀ j, 0 ≤ j → j < node.size - 1 → t.array j = node.array (j + 1)) :
    r.children ++ t.children = recipient.children ++ node.children := by
  have hkr : ((recipient.size).toNat : Int) = recipient.size := Int.toNat_of_nonneg hr
  rw [children_split r recipient.size.toNat 1 (by rw [hrs]; omega), children_eq t,
    children_eq recipient, children_split node 1 (node.size - 1).toNat (by omega),
    List.append_assoc, hts]
  congr 1
  · have e := childrenFrom_congr r.array recipient.array 0 recipient.size.toNat 0
      (fun j h0 h1 => by rw [hlow j h0 (by omega), add_zero])
    rw [e, add_zero]
  · congr 1
    · simp only [childrenFrom]
      rw [hkr, hnew]
    · have e := childrenFrom_congr t.array node.array 1 (node.size - 1).toNat 0
        (fun j h0 h1 => by rw [hshift j h0 (by omega)])
      rw [e, zero_add]
      rfl

theorem children_after_last {K : Type} (node recipient t r : BPlusTreeInternalPage K)
    (hn : 2 ≤ node.size) (hr : 0 ≤ recipient.size)
    (hts : t.size = node.size - 1) (hta : ∀ j, t.array j = node.array j)
    (hrs : r.size = recipient.size + 1)
    (hzero : (r.array 0).2 = (node.array (node.size - 1)).2)
    (hup : ∀ j, 0 ≤ j → j < recipient.size → (r.array (j + 1)).2 = (recipient.array j).2) :
    t.children ++ r.children = node.children ++ recipient.children := by
  have hkn : ((node.size - 1).toNat : Int) = node.size - 1 := Int.toNat_of_nonneg (by omega)
  rw [children_eq t, children_split r 1 recipient.size.toNat (by rw [hrs]; omega),
    children_split node (node.size - 1).toNat 1 (by omega), children_eq recipient,
    List.append_assoc, hts]
  congr 1
  · have e := childrenFrom_congr t.array node.array 0 (node.size - 1).toNat 0
      (fun j h0 h1 => by rw [hta j, add_zero])
    rw [e, add_zero]
  · congr 1
    · simp only [childrenFrom]
      rw [hkn, hzero]
    · have e := childrenFrom_congr recipient.array r.array 1 recipient.size.toNat 0
        (fun j h0 h1 => by rw [hup j h0 (by omega)])
      rw [e, zero_add]
      rfl

theorem SetKeyAt_array {K : Type} (node : BPlusTreeInternalPage K) (i j : Int) (key : K) :
    (node.SetKeyAt i key).array j = if j = i then (key, (node.array i).2) else node.array j := by
  show Function.update node.array i _ j = _
  rw [Function.update_apply]

theorem first_to_end_nodes {K : Type} (H : HeaderAccess)
    (node recipient : BPlusTreeInternalPage K) (middle_key : K) (bpm : BufferPoolManager)
    (hn : 2 ≤ node.size) (hroom : recipient.size < recipient.max_size) :
    ∃ t r, MoveFirstToEndOf H node recipient middle_key bpm =
        (adoptAll H recipient.page_id bpm [(node.array 0).2]).map (fun b => (t, r, b)) ∧
      r.size = recipient.size + 1 ∧
      (∀ j, j ≠ recipient.size → r.array j = recipient.array j) ∧
      r.array recipient.size = (middle_key, (node.array 0).2) ∧
      t.size = node.size - 1 ∧
      (∀ j, 0 ≤ j → j < node.size - 1 → t.array j = node.array (j + 1)) := by
  have hkn : ((node.size).toNat : Int) = node.size := Int.toNat_of_nonneg (by omega)
  refine ⟨{ node with array := shiftLeft node.array node.size.toNat 0, size := node.size - 1 },
    ({ recipient with
        array := Function.update recipient.array recipient.size (node.array 0)
        size := recipient.size + 1 } : BPlusTreeInternalPage K).SetKeyAt
          (recipient.size + 1 - 1) middle_key, ?_, rfl, ?_, ?_, rfl, ?_⟩
  · simp only [MoveFirstToEndOf, hroom, if_true, CopyLastFrom, adoptAll]
    cases adoptChild H bpm (node.array 0).2 recipient.page_id with
    | none => rfl
    | some b1 => rfl
  · intro j hj
    rw [SetKeyAt_array, add_sub_cancel_right, if_neg hj]
    show Function.update recipient.array recipient.size _ j = _
    rw [Function.update_noteq hj]
  · rw [SetKeyAt_array, add_sub_cancel_right, if_pos rfl]
    show (middle_key, (Function.update recipient.array recipient.size _ recipient.size).2) = _
    rw [Function.update_same]
  · intro j h0 h1
    show shiftLeft node.array node.size.toNat 0 j = _
    rw [shiftLeft_spec]
    have : 0 ≤ j ∧ j < 0 + ((node.size).toNat : Int) := by omega
    simp only [this, and_self, if_true]

theorem last_to_front_nodes {K : Type} (H : HeaderAccess)
    (node recipient : BPlusTreeInternalPage K) (middle_key : K) (bpm : BufferPoolManager)
    (hr : 0 ≤ recipient.size) (hroom : recipient.size < recipient.max_size) :
    ∃ t r, MoveLastToFrontOf H node recipient middle_key bpm =
        (adoptAll H recipient.page_id bpm [(node.array (node.size - 1)).2]).map
          (fun b => (t, r, b)) ∧
      t.size = node.size - 1 ∧
      (∀ j, t.array j = node.array j) ∧
      r.size = recipient.size + 1 ∧
      (r.array 0).2 = (node.array (node.size - 1)).2 ∧
      r.array 1 = (middle_key,
        (if 1 ≤ recipient.size then recipient.array 0 else recipient.array 1).2) ∧
      (∀ j, 1 ≤ j → j < recipient.size → r.array (j + 1) = recipient.array j) := by
  have hkr : ((recipient.size).toNat : Int) = recipient.size := Int.toNat_of_nonneg hr
  have hsh : ∀ j, shiftRight recipient.array recipient.size.toNat recipient.size j =
      if 0 < j ∧ j ≤ recipient.size then recipient.array (j - 1) else recipient.array j := by
    intro j
    rw [shiftRight_spec, hkr, sub_self]
  generalize ha1 : shiftRight recipient.array recipient.size.toNat recipient.size = a1 at hsh
  refine ⟨{ node with size := node.size - 1 },
    ({ recipient with
        array := Function.update
          (Function.update a1 1 ((node.array (node.size - 1)).1, (a1 1).2)) 0
          ((Function.update a1 1 ((node.array (node.size - 1)).1, (a1 1).2) 0).1,
            (node.array (node.size - 1)).2)
        size := recipient.size + 1 } : BPlusTreeInternalPage K).SetKeyAt 1 middle_key,
    ?_, rfl, fun _ => rfl, rfl, ?_, ?_, ?_⟩
  · simp only [MoveLastToFrontOf, hroom, if_true, CopyFirstFrom, adoptAll, ha1]
    cases adoptChild H bpm (node.array (node.size - 1)).2 recipient.page_id with
    | none => rfl
    | some b1 => rfl
  · rw [SetKeyAt_array, if_neg (by omega)]
    simp only [Function.update_same]
  · rw [SetKeyAt_array, if_pos rfl]
    have h10 : (1 : Int) ≠ 0 := by omega
    simp only [Function.update_noteq h10, Function.update_same]
    rw [hsh]
    by_cases h1 : 1 ≤ recipient.size
    · have : (0 : Int) < 1 ∧ 1 ≤ recipient.size := ⟨by omega, h1⟩
      simp only [this, h1, and_self, if_true, sub_self]
    · have : ¬ ((0 : Int) < 1 ∧ 1 ≤ recipient.size) := fun h => h1 h.2
      rw [if_neg this, if_neg h1]
  · intro j h1 h2
    rw [SetKeyAt_array, if_neg (by omega)]
    have hj0 : j + 1 ≠ 0 := by omega
    have hj1 : j + 1 ≠ 1 := by omega
    simp only [Function.update_noteq hj0, Function.update_noteq hj1]
    rw [hsh]
    have : 0 < j + 1 ∧ j + 1 ≤ recipient.size := by omega
    simp only [this, and_self, if_true, add_sub_cancel_right]

end bustub

/-! ## Re-parenting a child through the pool -/

namespace bustub
open BPlusTreeInternalPage BufferPoolManager

theorem adopt_tail (H : HeaderAccess) (hH : HeaderLaws H) (n : Nat) (b1 : BufferPoolManager)
    (c R : page_id_t) (f : frame_id_t) (hw : WF n b1) (hc : ptFind b1.page_table c = some f)
    (hpin : 1 ≤ (b1.pageAt f).pin_count) (hlru : f ∉ b1.replacer.LRU)
    (hid : H.GetPageId (b1.pageAt f).data = c) :
    ∃ s2, ((b1.setPage f
          { b1.pageAt f with data := H.SetParentPageId (b1.pageAt f).data R }).UnpinPageImpl
        (H.GetPageId ((b1.setPage f
          { b1.pageAt f with data := H.SetParentPageId (b1.pageAt f).data R }).pageAt f).data)
        true).2 = s2 ∧
      s2.page_table = b1.page_table ∧ s2.disk_manager = b1.disk_manager ∧
      s2.pageAt f =
        { b1.pageAt f with
          data := H.SetParentPageId (b1.pageAt f).data R
          pin_count := (b1.pageAt f).pin_count - 1
          is_dirty := true } ∧
      (∀ g, g ≠ f → s2.pageAt g = b1.pageAt g) ∧ WF n s2 ∧ (Tight n b1 → Tight n s2) ∧
      s2.free_list = b1.free_list ∧
      s2.replacer =
        if (b1.pageAt f).pin_count - 1 = 0 then b1.replacer.Unpin f else b1.replacer := by
  obtain ⟨hf, hpid, hfree⟩ := hw.pt c f hc
  have hlen : f < b1.pages.length := hw.pages_len.symm ▸ hf
  generalize hpg : ({ b1.pageAt f with data := H.SetParentPageId (b1.pageAt f).data R } : Page)
    = pg
  have hpgd : pg.data = H.SetParentPageId (b1.pageAt f).data R := by rw [← hpg]
  have hpgp : pg.pin_count = (b1.pageAt f).pin_count := by rw [← hpg]
  have hpgi : pg.page_id = (b1.pageAt f).page_id := by rw [← hpg]
  have hpgy : pg.is_dirty = (b1.pageAt f).is_dirty := by rw [← hpg]
  generalize hb2 : b1.setPage f pg = b2
  have hpages2 : b2.pages = b1.pages.set f pg := by rw [← hb2]; rfl
  have hpt2 : b2.page_table = b1.page_table := by rw [← hb2]; rfl
  have hfl2 : b2.free_list = b1.free_list := by rw [← hb2]; rfl
  have hrp2 : b2.replacer = b1.replacer := by rw [← hb2]; rfl
  have hdm2 : b2.disk_manager = b1.disk_manager := by rw [← hb2]; rfl
  have hself2 : b2.pageAt f = pg := pageAt_of_pages_self b1 b2 f pg hpages2 hlen
  have hne2 : ∀ g, g ≠ f → b2.pageAt g = b1.pageAt g :=
    fun g hg => pageAt_of_pages_ne b1 b2 f g pg hpages2 hg
  have hlen2 : f < b2.pages.length := by rw [hpages2, List.length_set]; exact hlen
  have hw2 : WF n b2 :=
    WF_modify n b1 b2 f pg hw hf hpages2 hpt2 hfl2 (by rw [hrp2]) hpgi
      (by rw [hpgp]; omega) hfree (by rw [hrp2]; exact hw.lru_nodup)
      (fun g hg => Or.inl ⟨by rw [← hrp2]; exact hg, fun e => hlru (by rw [← hrp2, ← e]; exact hg)⟩)
  have ht2 : Tight n b1 → Tight n b2 :=
    fun t => Tight_modify n b1 b2 f pg t hpages2 hpt2 hfl2 hfree
  have hkey : H.GetPageId (b2.pageAt f).data = c := by
    rw [hself2, hpgd, hH.id_set, hid]
  rw [hkey]
  have hpin2 : 0 < (b2.pageAt f).pin_count := by rw [hself2, hpgp]; omega
  have e3 := UnpinPageImpl_ok b2 c true f (by rw [hpt2]; exact hc) hlen2 hpin2
  have hw3 := WF_unpin n b2 c true hw2
  have ht3 : Tight n b1 → Tight n (b2.UnpinPageImpl c true).2 :=
    fun t => Tight_unpin n b2 c true hw2 (ht2 t)
  rw [e3] at hw3 ht3
  rw [e3]
  refine ⟨_, rfl, hpt2, hdm2, ?_, ?_, hw3, ht3, hfl2, ?_⟩
  rotate_left 2
  · show (if (b2.pageAt f).pin_count - 1 = 0 then b2.replacer.Unpin f else b2.replacer) = _
    rw [hself2, hpgp, hrp2]
  · rw [pageAt_of_pages_self b2 _ f _ rfl hlen2, hself2]
    rw [← hpg]
    simp
  · intro g hg
    rw [pageAt_of_pages_ne b2 _ f g _ rfl hg]
    exact hne2 g hg


theorem pick_disk (s s1 : BufferPoolManager) (g : frame_id_t)
    (hq : s.pickFrame = (some g, s1)) :
    (g ∈ s.free_list ∧ s1.disk_manager = s.disk_manager) ∨
    (s.free_list = [] ∧ g ∈ s.replacer.LRU ∧
      s1.disk_manager =
        if (s.pageAt g).is_dirty then
          s.disk_manager.WritePage (s.pageAt g).page_id (s.pageAt g).data
        else s.disk_manager) := by
  rcases pickFrame_cases s with ⟨f, rest, hfl, e⟩ | ⟨_, _, e⟩ | ⟨f, rest, hfl, hl, e⟩
  · rw [e] at hq
    obtain ⟨h1, h2⟩ := Prod.mk.inj hq
    have h1 : f = g := Option.some.inj h1
    subst h1 h2
    left
    exact ⟨by rw [hfl]; exact List.mem_cons_self _ _, rfl⟩
  · rw [e] at hq
    exact absurd (congrArg Prod.fst hq) (by simp)
  · rw [e] at hq
    obtain ⟨h1, h2⟩ := Prod.mk.inj hq
    have h1 : f = g := Option.some.inj h1
    subst h1 h2
    right
    exact ⟨hfl, by rw [hl]; exact List.mem_cons_self _ _, rfl⟩

theorem contentOf_cached (s : BufferPoolManager) (q : page_id_t) (f : frame_id_t)
    (h : ptFind s.page_table q = some f) : contentOf s q = (s.pageAt f).data := by
  simp only [contentOf, h]

theorem contentOf_absent (s : BufferPoolManager) (q : page_id_t)
    (h : ptFind s.page_table q = none) : contentOf s q = s.disk_manager.ReadPage q := by
  simp only [contentOf, h]

theorem pinCountOf_cached (s : BufferPoolManager) (q : page_id_t) (f : frame_id_t)
    (h : ptFind s.page_table q = some f) : pinCountOf s q = (s.pageAt f).pin_count := by
  simp only [pinCountOf, h]

theorem pinCountOf_absent (s : BufferPoolManager) (q : page_id_t)
    (h : ptFind s.page_table q = none) : pinCountOf s q = 0 := by
  simp only [pinCountOf, h]

theorem adopt_frames (H : HeaderAccess) (hH : HeaderLaws H) (n : Nat)
    (s s2 : BufferPoolManager) (c R : page_id_t) (hw : WF n s) (ht : Tight n s)
    (hc0 : c ≠ INVALID_PAGE_ID) (hid : H.GetPageId (contentOf s c) = c)
    (he : adoptChild H s c R = some s2) :
    WF n s2 ∧ Tight n s2 ∧
    (s.free_list ≠ [] ∨ s.replacer.LRU ≠ [] → s2.free_list ≠ [] ∨ s2.replacer.LRU ≠ []) ∧ ∃ g,
      ptFind s2.page_table c = some g ∧
      (s2.pageAt g).data = H.SetParentPageId (contentOf s c) R ∧
      (s2.pageAt g).is_dirty = true ∧
      (s2.pageAt g).pin_count = pinCountOf s c ∧
      (∀ h, h ≠ g → s2.pageAt h = s.pageAt h) ∧
      (∀ q, q ≠ c → ptFind s2.page_table q =
        if ptFind s.page_table q = some g then none else ptFind s.page_table q) ∧
      (∀ q, ptFind s.page_table q ≠ some g →
        s2.disk_manager.ReadPage q = s.disk_manager.ReadPage q) ∧
      (∀ q, q ≠ c → ptFind s.page_table q = some g →
        (s.pageAt g).pin_count = 0 ∧
        ((s.pageAt g).is_dirty = true → s2.disk_manager.ReadPage q = (s.pageAt g).data) ∧
        ((s.pageAt g).is_dirty = false →
          s2.disk_manager.ReadPage q = s.disk_manager.ReadPage q)) ∧
      (ptFind s.page_table c ≠ none → s2.page_table = s.page_table) := by
  cases hc : ptFind s.page_table c with
  | some f =>
    obtain ⟨b1, s3, e, _, hpt1, hfl1, hdm1, hlru1, hself1, hne1, _⟩ :=
      fetch_unpin_roundtrip n s c f hw hc
    have hw1 : WF n b1 := by
      have := WF_fetch n s c hw
      rw [e] at this
      exact this
    have ht1 : Tight n b1 := by
      have := Tight_fetch_hit n s c f hw ht hc
      rw [e] at this
      exact this
    obtain ⟨hp1, hp2, hp3⟩ := fetch_post n s c f hw (by rw [e])
    rw [e] at hp1 hp2 hp3
    have hcont : contentOf s c = (s.pageAt f).data := contentOf_cached s c f hc
    have hd1 : (b1.pageAt f).data = (s.pageAt f).data := by rw [hself1]
    have hid1 : H.GetPageId (b1.pageAt f).data = c := by rw [hd1, ← hcont]; exact hid
    obtain ⟨t2, het, hpt2, hdm2, hself2, hne2, hw2, ht2, hfl2, hrp2⟩ :=
      adopt_tail H hH n b1 c R f hw1 hp1 hp2 hp3 hid1
    simp only [adoptChild, e] at he
    have hs2 : t2 = s2 := by
      rw [← het]
      exact Option.some.inj he
    subst hs2
    have hroom : s.free_list ≠ [] ∨ s.replacer.LRU ≠ [] →
        t2.free_list ≠ [] ∨ t2.replacer.LRU ≠ [] := by
      intro hr
      by_cases hp : (b1.pageAt f).pin_count - 1 = 0
      · right
        rw [hrp2, if_pos hp, Unpin_append n b1 f hw1 (hw.pt c f hc).1 hp3]
        simp
      · rcases hr with hr | hr
        · left
          rw [hfl2, hfl1]
          exact hr
        · right
          rw [hrp2, if_neg hp, hlru1]
          have hnot : f ∉ s.replacer.LRU := by
            intro hm
            apply hp
            rw [hself1]
            show (s.pageAt f).pin_count + 1 - 1 = 0
            rw [(hw.lru f hm).2.1]
            rfl
          have : s.replacer.LRU.filter (fun g => decide (g ≠ f)) = s.replacer.LRU := by
            rw [List.filter_eq_self]
            intro g hg
            exact decide_eq_true (fun e => hnot (e ▸ hg))
          rw [this]
          exact hr
    refine ⟨hw2, ht2 ht1, hroom, f, by rw [hpt2]; exact hp1, ?_, ?_, ?_, ?_, ?_, ?_, ?_, ?_⟩
    · rw [hself2, hcont, hd1]
    · rw [hself2]
    · rw [hself2, pinCountOf_cached s c f hc]
      show (b1.pageAt f).pin_count - 1 = _
      rw [hself1]
      show (s.pageAt f).pin_count + 1 - 1 = _
      omega
    · intro h hh
      rw [hne2 h hh, hne1 h hh]
    · intro q hq
      have hqf : ptFind s.page_table q ≠ some f := by
        intro hqf
        exact hq ((hw.pt q f hqf).2.1.symm.trans (hw.pt c f hc).2.1)
      rw [hpt2, hpt1, if_neg hqf]
    · intro q _
      rw [hdm2, hdm1]
    · intro q hq hqf
      exact absurd ((hw.pt q f hqf).2.1.symm.trans (hw.pt c f hc).2.1) hq
    · intro _
      rw [hpt2, hpt1]
  | none =>
    cases hfe : s.FetchPageImpl c with
    | mk r b1 =>
      cases r with
      | none =>
        simp only [adoptChild, hfe] at he
        exact absurd he (by simp)
      | some g =>
        obtain ⟨s1, hq, e⟩ := fetch_miss_inv s c g hc (by rw [hfe])
        obtain ⟨hw1p, hg, hgfree, hglru, hpages1, hpt1, hpin0⟩ := WF_pick n s s1 g hw hq
        have hb1 : b1 = s1.install g c (s1.disk_manager.ReadPage c) s1.disk_manager := by
          have := congrArg Prod.snd (hfe.symm.trans e)
          exact this
        have hw1 : WF n b1 := by
          have := WF_fetch n s c hw
          rw [hfe] at this
          exact this
        have ht1 : Tight n b1 := by
          have := Tight_fetch n s c hw ht hc0
          rw [hfe] at this
          exact this
        have hlen1 : g < s1.pages.length := hw1p.pages_len.symm ▸ hg
        obtain ⟨ip1, ip2, ip3⟩ :=
          install_post s1 g c (s1.disk_manager.ReadPage c) s1.disk_manager hlen1
        rw [← hb1] at ip1 ip2 ip3
        have hat1 : ∀ h, s1.pageAt h = s.pageAt h := by
          intro h
          simp only [pageAt, hpages1]
        have hne1 : ∀ h, h ≠ g → b1.pageAt h = s.pageAt h := by
          intro h hh
          rw [← hat1 h]
          exact pageAt_of_pages_ne s1 b1 g h _ (by rw [hb1]; rfl) hh
        have hptb : b1.page_table =
            ptAssign (ptErase s.page_table (s.pageAt g).page_id) c g := by
          rw [hb1, ← hat1 g, ← hpt1]
          rfl
        have hdmb : b1.disk_manager = s1.disk_manager := by rw [hb1]; rfl
        have hK1 : ptFind s.page_table (s.pageAt g).page_id = none ∨
            ptFind s.page_table (s.pageAt g).page_id = some g := by
          rcases pick_disk s s1 g hq with ⟨hfr, _⟩ | ⟨hfl, _, _⟩
          · left
            rw [ht.free_invalid g hfr]
            exact ht.no_invalid
          · right
            rcases ht.cover g hg with hfr | ⟨k, hk⟩
            · rw [hfl] at hfr
              exact absurd hfr (List.not_mem_nil _)
            · rw [(hw.pt k g hk).2.1]
              exact hk
        have hE1 : ∀ q, ptFind s.page_table q ≠ some g →
            s1.disk_manager.ReadPage q = s.disk_manager.ReadPage q := by
          intro q hqg
          rcases pick_disk s s1 g hq with ⟨_, hd⟩ | ⟨hfl, _, hd⟩
          · rw [hd]
          · rw [hd]
            by_cases hdy : (s.pageAt g).is_dirty = true
            · rw [if_pos hdy]
              have hne : q ≠ (s.pageAt g).page_id := by
                intro hqe
                rcases hK1 with hk | hk
                · rcases ht.cover g hg with hfr | ⟨k, hk2⟩
                  · rw [hfl] at hfr
                    exact absurd hfr (List.not_mem_nil _)
                  · rw [(hw.pt k g hk2).2.1, hk2] at hk
                    exact absurd hk (by simp)
                · rw [← hqe] at hk
                  exact hqg hk
              simp only [DiskManager.ReadPage, DiskManager.WritePage, hne, if_false]
            · rw [if_neg hdy]
        have hE2 : ∀ q, ptFind s.page_table q = some g →
            ((s.pageAt g).is_dirty = true → s1.disk_manager.ReadPage q = (s.pageAt g).data) ∧
            ((s.pageAt g).is_dirty = false →
              s1.disk_manager.ReadPage q = s.disk_manager.ReadPage q) := by
          intro q hqg
          refine ⟨fun hdy => pick_cached_disk n s s1 g q hw hq hqg hdy, fun hdn => ?_⟩
          rcases pick_disk s s1 g hq with ⟨_, hd⟩ | ⟨_, _, hd⟩
          · rw [hd]
          · rw [hd, hdn]
            rfl
        have hcd : s1.disk_manager.ReadPage c = s.disk_manager.ReadPage c :=
          hE1 c (by rw [hc]; simp)
        have hid1 : H.GetPageId (b1.pageAt g).data = c := by
          rw [ip2]
          show H.GetPageId (s1.disk_manager.ReadPage c) = c
          rw [hcd, ← contentOf_absent s c hc]
          exact hid
        obtain ⟨t2, het, hpt2, hdm2, hself2, hne2, hw2, ht2, hfl2, hrp2⟩ :=
          adopt_tail H hH n b1 c R g hw1 ip1 (by rw [ip2]) ip3 hid1
        simp only [adoptChild, hfe] at he
        have hs2 : t2 = s2 := by
          rw [← het]
          exact Option.some.inj he
        subst hs2
        have hroom : s.free_list ≠ [] ∨ s.replacer.LRU ≠ [] →
            t2.free_list ≠ [] ∨ t2.replacer.LRU ≠ [] := by
          intro _
          right
          have hp : (b1.pageAt g).pin_count - 1 = 0 := by rw [ip2]; rfl
          rw [hrp2, if_pos hp, Unpin_append n b1 g hw1 hg ip3]
          simp
        refine ⟨hw2, ht2 ht1, hroom, g, by rw [hpt2]; exact ip1, ?_, ?_, ?_, ?_, ?_, ?_, ?_, ?_⟩
        · rw [hself2, ip2]
          show H.SetParentPageId (s1.disk_manager.ReadPage c) R = _
          rw [hcd, contentOf_absent s c hc]
        · rw [hself2]
        · rw [hself2, ip2, pinCountOf_absent s c hc]
          rfl
        · intro h hh
          rw [hne2 h hh, hne1 h hh]
        · intro q hqc
          rw [hpt2, hptb, ptFind_assign, if_neg (fun e => hqc e.symm), ptFind_erase]
          by_cases hqg : ptFind s.page_table q = some g
          · rw [if_pos hqg, if_pos (hw.pt q g hqg).2.1.symm]
          · rw [if_neg hqg]
            by_cases hqo : q = (s.pageAt g).page_id
            · rw [if_pos hqo]
              rcases hK1 with hk | hk
              · rw [hqo, hk]
              · rw [← hqo] at hk
                exact absurd hk hqg
            · rw [if_neg hqo]
        · intro q hqg
          rw [hdm2, hdmb]
          exact hE1 q hqg
        · intro q _ hqg
          rw [hdm2, hdmb]
          exact ⟨hpin0, hE2 q hqg⟩
        · intro hcc
          exact absurd rfl hcc


theorem adopt_effect (H : HeaderAccess) (hH : HeaderLaws H) (n : Nat)
    (s s2 : BufferPoolManager) (c R : page_id_t) (hw : WF n s) (ht : Tight n s)
    (hcs : CleanSynced s) (hc0 : c ≠ INVALID_PAGE_ID)
    (hid : H.GetPageId (contentOf s c) = c) (he : adoptChild H s c R = some s2) :
    WF n s2 ∧ Tight n s2 ∧ CleanSynced s2 ∧
    contentOf s2 c = H.SetParentPageId (contentOf s c) R ∧
    (∀ q, q ≠ c → contentOf s2 q = contentOf s q) ∧
    (∀ q, pinCountOf s2 q = pinCountOf s q) ∧
    dirtyInPool s2 c ∧
    (∀ q f, q ≠ c → ptFind s2.page_table q = some f →
      ptFind s.page_table q = some f ∧ s2.pageAt f = s.pageAt f) ∧
    (ptFind s.page_table c ≠ none → s2.page_table = s.page_table) := by
  obtain ⟨hw2, ht2, _, g, hcg, hdata, hdirty, hpin, hne, hpt, hE1, hE2, hhit⟩ :=
    adopt_frames H hH n s s2 c R hw ht hc0 hid he
  have hkept : ∀ q f, q ≠ c → ptFind s2.page_table q = some f →
      ptFind s.page_table q = some f ∧ f ≠ g ∧ s2.pageAt f = s.pageAt f := by
    intro q f hq hf
    rw [hpt q hq] at hf
    by_cases hqg : ptFind s.page_table q = some g
    · rw [if_pos hqg] at hf
      exact absurd hf (by simp)
    · rw [if_neg hqg] at hf
      have hfg : f ≠ g := fun e => hqg (e ▸ hf)
      exact ⟨hf, hfg, hne f hfg⟩
  have hgone : ∀ q, q ≠ c → ptFind s.page_table q = some g →
      ptFind s2.page_table q = none := by
    intro q hq hqg
    rw [hpt q hq, if_pos hqg]
  have hsame : ∀ q, q ≠ c → ptFind s.page_table q ≠ some g →
      ptFind s2.page_table q = ptFind s.page_table q := by
    intro q hq hqg
    rw [hpt q hq, if_neg hqg]
  refine ⟨hw2, ht2, ?_, ?_, ?_, ?_, ⟨g, hcg, hdirty⟩, ?_, hhit⟩
  · intro q f hq hclean hp0
    by_cases hqc : q = c
    · subst hqc
      rw [hcg] at hq
      have hfg : g = f := Option.some.inj hq
      subst hfg
      rw [hdirty] at hclean
      exact absurd hclean (by simp)
    · obtain ⟨hsq, hfg, hpg⟩ := hkept q f hqc hq
      rw [hpg] at hclean hp0 ⊢
      rw [hcs q f hsq hclean hp0]
      exact (hE1 q (by rw [hsq]; exact fun e => hfg (Option.some.inj e))).symm
  · rw [contentOf_cached s2 c g hcg, hdata]
  · intro q hq
    cases hsq : ptFind s.page_table q with
    | none =>
      have h2 : ptFind s2.page_table q = none := by
        rw [hsame q hq (by rw [hsq]; simp), hsq]
      rw [contentOf_absent s2 q h2, contentOf_absent s q hsq]
      exact hE1 q (by rw [hsq]; simp)
    | some h =>
      by_cases hhg : h = g
      · subst hhg
        rw [contentOf_absent s2 q (hgone q hq hsq), contentOf_cached s q h hsq]
        obtain ⟨hp0, hd1, hd2⟩ := hE2 q hq hsq
        cases hdy : (s.pageAt h).is_dirty with
        | true => exact hd1 hdy
        | false =>
          rw [hd2 hdy]
          exact (hcs q h hsq hdy hp0).symm
      · have hqg : ptFind s.page_table q ≠ some g := by
          rw [hsq]
          exact fun e => hhg (Option.some.inj e)
        have h2 : ptFind s2.page_table q = some h := by rw [hsame q hq hqg, hsq]
        rw [contentOf_cached s2 q h h2, contentOf_cached s q h hsq, hne h hhg]
  · intro q
    by_cases hq : q = c
    · subst hq
      rw [pinCountOf_cached s2 q g hcg, hpin]
    · cases hsq : ptFind s.page_table q with
      | none =>
        have h2 : ptFind s2.page_table q = none := by
          rw [hsame q hq (by rw [hsq]; simp), hsq]
        rw [pinCountOf_absent s2 q h2, pinCountOf_absent s q hsq]
      | some h =>
        by_cases hhg : h = g
        · subst hhg
          rw [pinCountOf_absent s2 q (hgone q hq hsq), pinCountOf_cached s q h hsq]
          exact (hE2 q hq hsq).1.symm
        · have hqg : ptFind s.page_table q ≠ some g := by
            rw [hsq]
            exact fun e => hhg (Option.some.inj e)
          have h2 : ptFind s2.page_table q = some h := by rw [hsame q hq hqg, hsq]
          rw [pinCountOf_cached s2 q h h2, pinCountOf_cached s q h hsq, hne h hhg]
  · intro q f hq hf
    obtain ⟨a, _, b⟩ := hkept q f hq hf
    exact ⟨a, b⟩

theorem adoptAll_effect (H : HeaderAccess) (hH : HeaderLaws H) (n : Nat) (R : page_id_t) :
    ∀ (cs : List page_id_t) (s s2 : BufferPoolManager), WF n s → Tight n s → CleanSynced s →
      (∀ c, c ∈ cs → c ≠ INVALID_PAGE_ID ∧ H.GetPageId (contentOf s c) = c) →
      adoptAll H R s cs = some s2 →
      WF n s2 ∧ Tight n s2 ∧ CleanSynced s2 ∧
      (∀ c, c ∈ cs → parentIdOf H s2 c = R) ∧
      (∀ c f, c ∈ cs → ptFind s2.page_table c = some f → (s2.pageAt f).is_dirty = true) ∧
      (∀ q, q ∉ cs → contentOf s2 q = contentOf s q) ∧
      (∀ q, H.GetPageId (contentOf s2 q) = H.GetPageId (contentOf s q)) ∧
      (∀ q, pinCountOf s2 q = pinCountOf s q) ∧
      (∀ q f, q ∉ cs → ptFind s2.page_table q = some f →
        ptFind s.page_table q = some f ∧ s2.pageAt f = s.pageAt f) ∧
      ((∀ c, c ∈ cs → ptFind s.page_table c ≠ none) → s2.page_table = s.page_table) := by
  intro cs
  induction cs with
  | nil =>
    intro s s2 hw ht hcs _ he
    have e : s = s2 := Option.some.inj he
    subst e
    exact ⟨hw, ht, hcs, fun c hc => absurd hc (List.not_mem_nil c),
      fun c f hc => absurd hc (List.not_mem_nil c), fun _ _ => rfl, fun _ => rfl, fun _ => rfl,
      fun q f _ h => ⟨h, rfl⟩, fun _ => rfl⟩
  | cons c cs ih =>
    intro s s2 hw ht hcs hkids he
    cases hac : adoptChild H s c R with
    | none =>
      simp only [adoptAll, hac] at he
      exact absurd he (by simp)
    | some s1 =>
      simp only [adoptAll, hac] at he
      obtain ⟨hc0, hid⟩ := hkids c (List.mem_cons_self c cs)
      obtain ⟨hw1, ht1, hcs1, hself, hother, hpins, hdirty, hkept, hhit⟩ :=
        adopt_effect H hH n s s1 c R hw ht hcs hc0 hid hac
      have hids : ∀ q, H.GetPageId (contentOf s1 q) = H.GetPageId (contentOf s q) := by
        intro q
        by_cases hq : q = c
        · subst hq
          rw [hself, hH.id_set]
        · rw [hother q hq]
      have hkids1 : ∀ c2, c2 ∈ cs →
          c2 ≠ INVALID_PAGE_ID ∧ H.GetPageId (contentOf s1 c2) = c2 := by
        intro c2 hc2
        obtain ⟨a, b⟩ := hkids c2 (List.mem_cons_of_mem c hc2)
        exact ⟨a, by rw [hids]; exact b⟩
      obtain ⟨hw2, ht2, hcs2, hpar, hdy, hoth, hid2, hpin2, hkept2, hhit2⟩ :=
        ih s1 s2 hw1 ht1 hcs1 hkids1 he
      refine ⟨hw2, ht2, hcs2, ?_, ?_, ?_, ?_, ?_, ?_, ?_⟩
      · intro c2 hc2
        by_cases hin : c2 ∈ cs
        · exact hpar c2 hin
        · have e : c2 = c := by
            rcases List.mem_cons.mp hc2 with h | h
            · exact h
            · exact absurd h hin
          subst e
          show H.GetParentPageId (contentOf s2 c2) = R
          rw [hoth c2 hin, hself, hH.parent_set]
      · intro c2 f hc2 hf
        by_cases hin : c2 ∈ cs
        · exact hdy c2 f hin hf
        · have e : c2 = c := by
            rcases List.mem_cons.mp hc2 with h | h
            · exact h
            · exact absurd h hin
          subst e
          obtain ⟨h1, h2⟩ := hkept2 c2 f hin hf
          obtain ⟨f1, hf1, hd1⟩ := hdirty
          rw [h1] at hf1
          have e2 : f = f1 := Option.some.inj hf1
          subst e2
          rw [h2]
          exact hd1
      · intro q hq
        have hq1 : q ∉ cs := fun h => hq (List.mem_cons_of_mem c h)
        have hq2 : q ≠ c := fun h => hq (h ▸ List.mem_cons_self c cs)
        rw [hoth q hq1, hother q hq2]
      · intro q
        rw [hid2, hids]
      · intro q
        rw [hpin2, hpins]
      · intro q f hq hf
        have hq1 : q ∉ cs := fun h => hq (List.mem_cons_of_mem c h)
        have hq2 : q ≠ c := fun h => hq (h ▸ List.mem_cons_self c cs)
        obtain ⟨h1, h2⟩ := hkept2 q f hq1 hf
        obtain ⟨h3, h4⟩ := hkept q f hq2 h1
        exact ⟨h3, by rw [h2, h4]⟩
      · intro hall
        have e1 : s1.page_table = s.page_table := hhit (hall c (List.mem_cons_self c cs))
        have e2 : s2.page_table = s1.page_table :=
          hhit2 (fun c2 hc2 => by rw [e1]; exact hall c2 (List.mem_cons_of_mem c hc2))
        rw [e2, e1]

theorem adoptAll_reparented (H : HeaderAccess) (hH : HeaderLaws H) (n : Nat) (R : page_id_t)
    (cs : List page_id_t) (s s2 : BufferPoolManager) (hw : WF n s) (ht : Tight n s)
    (hcs : CleanSynced s)
    (hkids : ∀ c, c ∈ cs → c ≠ INVALID_PAGE_ID ∧ H.GetPageId (contentOf s c) = c)
    (he : adoptAll H R s cs = some s2) : Reparented H s s2 cs R := by
  obtain ⟨_, _, _, hpar, hdy, hoth, _, hpin, _, hhit⟩ :=
    adoptAll_effect H hH n R cs s s2 hw ht hcs hkids he
  refine ⟨hpar, hdy, ?_, ?_, hpin⟩
  · intro hall c hc
    have e := hhit hall
    cases hf : ptFind s2.page_table c with
    | none =>
      rw [e] at hf
      exact absurd hf (hall c hc)
    | some f => exact ⟨f, hf, hdy c f hc hf⟩
  · intro q hq
    show H.GetParentPageId (contentOf s2 q) = H.GetParentPageId (contentOf s q)
    rw [hoth q hq]

theorem adopt_returns (H : HeaderAccess) (s : BufferPoolManager) (c R : page_id_t)
    (hroom : s.free_list ≠ [] ∨ s.replacer.LRU ≠ []) : ∃ s2, adoptChild H s c R = some s2 := by
  cases hfe : s.FetchPageImpl c with
  | mk r b1 =>
    cases r with
    | none =>
      have h := (fetch_none_iff s c).mp (by rw [hfe])
      rcases hroom with hr | hr
      · exact absurd h.2.1 hr
      · exact absurd h.2.2 hr
    | some f =>
      simp only [adoptChild, hfe]
      exact ⟨_, rfl⟩

theorem adoptAll_returns (H : HeaderAccess) (hH : HeaderLaws H) (n : Nat) (R : page_id_t) :
    ∀ (cs : List page_id_t) (s : BufferPoolManager), WF n s → Tight n s → CleanSynced s →
      (s.free_list ≠ [] ∨ s.replacer.LRU ≠ []) →
      (∀ c, c ∈ cs → c ≠ INVALID_PAGE_ID ∧ H.GetPageId (contentOf s c) = c) →
      (adoptAll H R s cs).isSome = true := by
  intro cs
  induction cs with
  | nil =>
    intro s _ _ _ _ _
    rfl
  | cons c cs ih =>
    intro s hw ht hcs hroom hkids
    obtain ⟨s1, hac⟩ := adopt_returns H s c R hroom
    obtain ⟨hc0, hid⟩ := hkids c (List.mem_cons_self c cs)
    obtain ⟨_, _, hroom1, _⟩ := adopt_frames H hH n s s1 c R hw ht hc0 hid hac
    obtain ⟨hw1, ht1, hcs1, hself, hother, _⟩ :=
      adopt_effect H hH n s s1 c R hw ht hcs hc0 hid hac
    simp only [adoptAll, hac]
    refine ih s1 hw1 ht1 hcs1 (hroom1 hroom) ?_
    intro c2 hc2
    obtain ⟨a, b⟩ := hkids c2 (List.mem_cons_of_mem c hc2)
    refine ⟨a, ?_⟩
    by_cases hq : c2 = c
    · subst hq
      rw [hself, hH.id_set]
      exact b
    · rw [hother c2 hq]
      exact b


theorem MoveHalfTo_pool {K : Type} (H : HeaderAccess) (node recipient : BPlusTreeInternalPage K)
    (bpm : BufferPoolManager) (hn : 0 ≤ node.size) (t r : BPlusTreeInternalPage K)
    (b : BufferPoolManager) (he : MoveHalfTo H node recipient bpm = some (t, r, b)) :
    adoptAll H recipient.page_id bpm
      (childrenFrom node.array (node.size / 2).toNat ((node.size + 1) / 2)) = some b := by
  by_cases hr : recipient.size = 0
  · obtain ⟨t1, r1, e, _⟩ := move_half_nodes H node recipient bpm hn hr
    rw [e] at he
    cases ha : adoptAll H recipient.page_id bpm
        (childrenFrom node.array (node.size / 2).toNat ((node.size + 1) / 2)) with
    | none =>
      rw [ha] at he
      exact absurd he (by simp)
    | some b1 =>
      rw [ha] at he
      have := Option.some.inj he
      rw [(Prod.mk.inj (Prod.mk.inj this).2).2]
  · simp only [MoveHalfTo, CopyNFrom, hr, if_false] at he
    exact absurd he (by simp)

theorem MoveAllTo_pool {K : Type} (H : HeaderAccess) (node recipient : BPlusTreeInternalPage K)
    (middle_key : K) (bpm : BufferPoolManager) (hn : 1 ≤ node.size)
    (r : BPlusTreeInternalPage K) (b : BufferPoolManager)
    (he : MoveAllTo H node recipient middle_key bpm = some (r, b)) :
    adoptAll H recipient.page_id bpm node.children = some b := by
  by_cases hroom : recipient.size + node.size ≤ recipient.max_size
  · obtain ⟨r1, e, _⟩ := move_all_nodes H node recipient middle_key bpm hn hroom
    rw [e] at he
    rw [children_eq]
    cases ha : adoptAll H recipient.page_id bpm (childrenFrom node.array node.size.toNat 0) with
    | none =>
      rw [ha] at he
      exact absurd he (by simp)
    | some b1 =>
      rw [ha] at he
      have := Option.some.inj he
      rw [(Prod.mk.inj this).2]
  · simp only [MoveAllTo, hroom, if_false] at he
    exact absurd he (by simp)

theorem MoveFirstToEndOf_pool {K : Type} (H : HeaderAccess)
    (node recipient : BPlusTreeInternalPage K) (middle_key : K) (bpm : BufferPoolManager)
    (t r : BPlusTreeInternalPage K) (b : BufferPoolManager)
    (he : MoveFirstToEndOf H node recipient middle_key bpm = some (t, r, b)) :
    adoptAll H recipient.page_id bpm [(node.array 0).2] = some b := by
  by_cases hroom : recipient.size < recipient.max_size
  · simp only [MoveFirstToEndOf, hroom, if_true, CopyLastFrom] at he
    simp only [adoptAll]
    cases ha : adoptChild H bpm (node.array 0).2 recipient.page_id with
    | none =>
      rw [ha] at he
      exact absurd he (by simp)
    | some b1 =>
      rw [ha] at he
      have := Option.some.inj he
      rw [(Prod.mk.inj (Prod.mk.inj this).2).2]
  · simp only [MoveFirstToEndOf, hroom, if_false] at he
    exact absurd he (by simp)

theorem MoveLastToFrontOf_pool {K : Type} (H : HeaderAccess)
    (node recipient : BPlusTreeInternalPage K) (middle_key : K) (bpm : BufferPoolManager)
    (t r : BPlusTreeInternalPage K) (b : BufferPoolManager)
    (he : MoveLastToFrontOf H node recipient middle_key bpm = some (t, r, b)) :
    adoptAll H recipient.page_id bpm [(node.array (node.size - 1)).2] = some b := by
  by_cases hroom : recipient.size < recipient.max_size
  · simp only [MoveLastToFrontOf, hroom, if_true, CopyFirstFrom] at he
    simp only [adoptAll]
    cases ha : adoptChild H bpm (node.array (node.size - 1)).2 recipient.page_id with
    | none =>
      rw [ha] at he
      exact absurd he (by simp)
    | some b1 =>
      rw [ha] at he
      have := Option.some.inj he
      rw [(Prod.mk.inj (Prod.mk.inj this).2).2]
  · simp only [MoveLastToFrontOf, hroom, if_false] at he
    exact absurd he (by simp)

theorem slot_mem_children {K : Type} (node : BPlusTreeInternalPage K) (j : Int) (h0 : 0 ≤ j)
    (h1 : j < node.size) : (node.array j).2 ∈ node.children := by
  rw [children_eq, childrenFrom_mem]
  exact ⟨j, h0, by omega, rfl⟩

theorem moved_half_mem {K : Type} (node : BPlusTreeInternalPage K) (hn : 0 ≤ node.size)
    (c : page_id_t)
    (hc : c ∈ childrenFrom node.array (node.size / 2).toNat ((node.size + 1) / 2)) :
    c ∈ node.children := by
  obtain ⟨j, h1, h2, h3⟩ := (childrenFrom_mem _ _ _ _).mp hc
  rw [← h3]
  exact slot_mem_children node j (by omega) (by omega)

theorem CleanSynced_create (n : Nat) (dm : DiskManager) : CleanSynced (create n dm) := by
  intro q f h
  exact absurd h (by simp [create, ptFind])

theorem adoptable_returns (H : HeaderAccess) (n : Nat) (s : BufferPoolManager)
    (cs cs2 : List page_id_t) (R : page_id_t) (h : Adoptable H n s cs)
    (hsub : ∀ c, c ∈ cs2 → c ∈ cs) : (adoptAll H R s cs2).isSome = true :=
  adoptAll_returns H h.laws n R cs2 s h.wf h.tight h.synced h.room
    (fun c hc => h.kids c (hsub c hc))

theorem isSome_of_map_eq {α β : Type} (o : Option α) (x : Option β) (f : α → β)
    (h : x = o.map f) (ho : o.isSome = true) : x.isSome = true := by
  subst h
  cases o with
  | none => exact absurd ho (by simp)
  | some a => rfl

theorem Adoptable_create (n : Nat) (dm : DiskManager) (H : HeaderAccess) (hH : HeaderLaws H)
    (cs : List page_id_t) (hn : 0 < n)
    (hk : ∀ c, c ∈ cs → c ≠ INVALID_PAGE_ID ∧ H.GetPageId (dm.ReadPage c) = c) :
    Adoptable H n (create n dm) cs where
  laws := hH
  wf := WF_create n dm
  tight := Tight_create n dm
  synced := CleanSynced_create n dm
  room := by
    left
    show List.range n ≠ []
    intro e
    have := congrArg List.length e
    rw [List.length_range] at this
    exact absurd this (by simp; omega)
  kids := hk

end bustub

/-! ## C16, C17, C18: split, merge and redistribution of the internal page -/

namespace bustub
open BPlusTreeInternalPage BufferPoolManager

/-- C16: internal-node split.  For an internal node of size n >= 0 and an empty
recipient, MoveHalfTo returns exactly when every re-parenting of the moved
children (those of positions ceil(n/2) .. n-1) goes through, and then this node
has size ceil(n/2) with its array untouched, the recipient has size floor(n/2)
and its entry j is the original entry ceil(n/2) + j for every j < floor(n/2); so
the entries of this node followed by those of the recipient are the original
sequence, and the recipient's position-0 key is the original key at position
ceil(n/2).  The call does return whenever the pool is consistent, has a free or
evictable frame, and the children of this node are valid page ids whose headers
carry them. -/
theorem internal_move_half_to {K : Type} (H : HeaderAccess)
    (node recipient : BPlusTreeInternalPage K) (bpm : BufferPoolManager)
    (hn : 0 ≤ node.size) (hr : recipient.size = 0) :
    (∃ t r, MoveHalfTo H node recipient bpm =
        (adoptAll H recipient.page_id bpm
          (childrenFrom node.array (node.size / 2).toNat ((node.size + 1) / 2))).map
          (fun b => (t, r, b)) ∧
      t.size = (node.size + 1) / 2 ∧
      (∀ j, t.array j = node.array j) ∧
      r.size = node.size / 2 ∧
      (∀ j, 0 ≤ j → j < node.size / 2 → r.array j = node.array ((node.size + 1) / 2 + j)) ∧
      t.entries ++ r.entries = node.entries ∧
      (1 ≤ node.size / 2 → (r.array 0).1 = (node.array ((node.size + 1) / 2)).1)) ∧
    (∀ n, Adoptable H n bpm node.children →
      (MoveHalfTo H node recipient bpm).isSome = true) := by
  refine ⟨move_half_nodes H node recipient bpm hn hr, ?_⟩
  intro n ha
  obtain ⟨t, r, e, _⟩ := move_half_nodes H node recipient bpm hn hr
  exact isSome_of_map_eq _ _ _ e
    (adoptable_returns H n bpm node.children _ recipient.page_id ha
      (fun c hc => moved_half_mem node hn c hc))

/-- C17: internal-node merge.  For an internal node of size n >= 1 and a
recipient of size r with r + n within the recipient's max size, MoveAllTo returns
exactly when every re-parenting of this node's n children goes through, and then
the recipient has size r + n, its entries below r are unchanged, entry r is
(middle_key, this node's pointer[0]), and entry r + j is this node's entry j for
every 1 <= j < n; so (for r >= 0) the recipient's entries are its old ones, then
(middle_key, pointer[0]), then this node's entries from position 1 on.  The call
does return whenever the pool is consistent, has a free or evictable frame, and
the children of this node are valid page ids whose headers carry them. -/
theorem internal_move_all_to {K : Type} (H : HeaderAccess)
    (node recipient : BPlusTreeInternalPage K) (middle_key : K) (bpm : BufferPoolManager)
    (hn : 1 ≤ node.size) (hroom : recipient.size + node.size ≤ recipient.max_size) :
    (∃ r, MoveAllTo H node recipient middle_key bpm =
        (adoptAll H recipient.page_id bpm node.children).map (fun b => (r, b)) ∧
      r.size = recipient.size + node.size ∧
      (∀ j, j < recipient.size → r.array j = recipient.array j) ∧
      r.array recipient.size = (middle_key, (node.array 0).2) ∧
      (∀ j, 1 ≤ j → j < node.size → r.array (recipient.size + j) = node.array j) ∧
      (0 ≤ recipient.size →
        r.entries =
          recipient.entries ++ (middle_key, (node.array 0).2) :: node.entries.drop 1)) ∧
    (∀ n, Adoptable H n bpm node.children →
      (MoveAllTo H node recipient middle_key bpm).isSome = true) := by
  obtain ⟨r, he, hs, hlow, hmid, hup⟩ := move_all_nodes H node recipient middle_key bpm hn hroom
  rw [← children_eq] at he
  refine ⟨⟨r, he, hs, hlow, hmid, hup, ?_⟩, fun n ha => isSome_of_map_eq _ _ _ he
    (adoptable_returns H n bpm node.children _ recipient.page_id ha (fun c hc => hc))⟩
  intro hr
  apply List.ext_getElem
  · rw [List.length_append, List.length_cons, List.length_drop, entries_length, entries_length,
      entries_length, hs]
    omega
  · intro m h1 h2
    rw [entries_getElem]
    rw [entries_length, hs] at h1
    by_cases hm : m < recipient.size.toNat
    · rw [List.getElem_append_left (by rw [entries_length]; exact hm), entries_getElem]
      exact hlow m (by omega)
    · rw [List.getElem_append_right (by rw [entries_length]; exact Nat.le_of_not_lt hm)]
      simp only [entries_length]
      by_cases hm2 : m = recipient.size.toNat
      · subst hm2
        simp only [Nat.sub_self, List.getElem_cons_zero]
        rw [Int.toNat_of_nonneg hr]
        exact hmid
      · obtain ⟨d, hd⟩ : ∃ d, m - recipient.size.toNat = d + 1 := ⟨m - recipient.size.toNat - 1, by omega⟩
        simp only [hd, List.getElem_cons_succ, List.getElem_drop, entries_getElem]
        have e : (m : Int) = recipient.size + ((1 + d : Nat) : Int) := by omega
        rw [e]
        exact hup _ (by omega) (by omega)


/-- C18: internal-node redistribution moves exactly one child across the
boundary.  For a donor of size n >= 2 and a recipient of size r with
0 <= r < max size: (a) MoveFirstToEndOf returns exactly when the re-parenting of
the donor's child 0 goes through, and then the recipient has size r + 1, entries
0..r-1 unchanged and entry r = (middle_key, donor's old pointer[0]), the donor has
size n - 1 and entry j = old entry j + 1 for every j < n - 1, and the
recipient's children followed by the donor's are the same sequence as before;
(b) MoveLastToFrontOf returns exactly when the re-parenting of the donor's last
child goes through, and then the donor has size n - 1 and its array untouched, the
recipient has size r + 1, pointer[0] = donor's old last pointer, entry j + 1 = old
entry j for every 1 <= j < r and, when r >= 1 (so that the recipient had a
pointer[0] and position 1 is an entry afterwards), entry 1 = (middle_key,
recipient's old pointer[0]), while for r = 0 the slot at position 1, which lies
outside the one entry of the recipient, gets middle_key and keeps its pointer;
and the donor's children followed by the recipient's are the same sequence as
before.  Both calls do return whenever the pool is consistent, has a free or
evictable frame, and the children of the donor are valid page ids whose headers
carry them. -/
theorem internal_redistribute {K : Type} (H : HeaderAccess)
    (node recipient : BPlusTreeInternalPage K) (middle_key : K) (bpm : BufferPoolManager)
    (hn : 2 ≤ node.size) (hr : 0 ≤ recipient.size)
    (hroom : recipient.size < recipient.max_size) :
    (∃ t r, MoveFirstToEndOf H node recipient middle_key bpm =
        (adoptAll H recipient.page_id bpm [(node.array 0).2]).map (fun b => (t, r, b)) ∧
      r.size = recipient.size + 1 ∧
      (∀ j, 0 ≤ j → j < recipient.size → r.array j = recipient.array j) ∧
      r.array recipient.size = (middle_key, (node.array 0).2) ∧
      t.size = node.size - 1 ∧
      (∀ j, 0 ≤ j → j < node.size - 1 → t.array j = node.array (j + 1)) ∧
      r.children ++ t.children = recipient.children ++ node.children) ∧
    (∃ t r, MoveLastToFrontOf H node recipient middle_key bpm =
        (adoptAll H recipient.page_id bpm [(node.array (node.size - 1)).2]).map
          (fun b => (t, r, b)) ∧
      t.size = node.size - 1 ∧
      (∀ j, t.array j = node.array j) ∧
      r.size = recipient.size + 1 ∧
      (r.array 0).2 = (node.array (node.size - 1)).2 ∧
      (1 ≤ recipient.size → r.array 1 = (middle_key, (recipient.array 0).2)) ∧
      (recipient.size = 0 → r.array 1 = (middle_key, (recipient.array 1).2)) ∧
      (∀ j, 1 ≤ j → j < recipient.size → r.array (j + 1) = recipient.array j) ∧
      t.children ++ r.children = node.children ++ recipient.children) ∧
    (∀ n, Adoptable H n bpm node.children →
      (MoveFirstToEndOf H node recipient middle_key bpm).isSome = true ∧
      (MoveLastToFrontOf H node recipient middle_key bpm).isSome = true) := by
  refine ⟨?_, ?_, ?_⟩
  rotate_left 2
  · intro n ha
    obtain ⟨t, r, he, _⟩ := first_to_end_nodes H node recipient middle_key bpm hn hroom
    obtain ⟨t2, r2, he2, _⟩ := last_to_front_nodes H node recipient middle_key bpm hr hroom
    refine ⟨isSome_of_map_eq _ _ _ he
        (adoptable_returns H n bpm node.children _ recipient.page_id ha ?_),
      isSome_of_map_eq _ _ _ he2
        (adoptable_returns H n bpm node.children _ recipient.page_id ha ?_)⟩
    · intro c hc
      rw [List.mem_singleton.mp hc]
      exact slot_mem_children node 0 (le_refl 0) (by omega)
    · intro c hc
      rw [List.mem_singleton.mp hc]
      exact slot_mem_children node (node.size - 1) (by omega) (by omega)
  · obtain ⟨t, r, he, hrs, hlow, hnew, hts, hshift⟩ :=
      first_to_end_nodes H node recipient middle_key bpm hn hroom
    have hlow2 : ∀ j, 0 ≤ j → j < recipient.size → r.array j = recipient.array j :=
      fun j _ h1 => hlow j (by omega)
    exact ⟨t, r, he, hrs, hlow2, hnew, hts, hshift,
      children_after_first node recipient t r hn hr hrs hlow2 (by rw [hnew]) hts hshift⟩
  · obtain ⟨t, r, he, hts, hta, hrs, hzero, hone, hup⟩ :=
      last_to_front_nodes H node recipient middle_key bpm hr hroom
    have hone1 : 1 ≤ recipient.size → r.array 1 = (middle_key, (recipient.array 0).2) := by
      intro h1
      rw [hone, if_pos h1]
    have hone0 : recipient.size = 0 → r.array 1 = (middle_key, (recipient.array 1).2) := by
      intro h0
      rw [hone, if_neg (by omega)]
    refine ⟨t, r, he, hts, hta, hrs, hzero, hone1, hone0, hup,
      children_after_last node recipient t r hn hr hts hta hrs hzero ?_⟩
    intro j h0 h1
    by_cases hj : j = 0
    · subst hj
      rw [zero_add, hone1 (by omega)]
    · rw [hup j (by omega) h1]


/-- C16 (witness): splitting the sample node of size 3 into the empty node, in a
new pool of two frames: the call returns, this node keeps 2 entries and the
recipient receives entry 2. -/
theorem internal_move_half_to_witness :
    (MoveHalfTo wordHeader sampleNode emptyNode (create 2 nodeDisk)).isSome = true ∧
    ∃ t r, MoveHalfTo wordHeader sampleNode emptyNode (create 2 nodeDisk) =
        (adoptAll wordHeader emptyNode.page_id (create 2 nodeDisk)
          (childrenFrom sampleNode.array (sampleNode.size / 2).toNat
            ((sampleNode.size + 1) / 2))).map (fun b => (t, r, b)) ∧
      t.size = (sampleNode.size + 1) / 2 ∧
      (∀ j, t.array j = sampleNode.array j) ∧
      r.size = sampleNode.size / 2 ∧
      (∀ j, 0 ≤ j → j < sampleNode.size / 2 →
        r.array j = sampleNode.array ((sampleNode.size + 1) / 2 + j)) ∧
      t.entries ++ r.entries = sampleNode.entries ∧
      (1 ≤ sampleNode.size / 2 →
        (r.array 0).1 = (sampleNode.array ((sampleNode.size + 1) / 2)).1) :=
  have h := internal_move_half_to wordHeader sampleNode emptyNode (create 2 nodeDisk)
    (by decide) rfl
  ⟨h.2 2 (Adoptable_create 2 nodeDisk wordHeader wordHeader_laws sampleNode.children
      (by decide) (by decide)), h.1⟩

/-- C17 (witness): merging the sample node of size 3 into the empty node, which has
room for 4 entries, in a new pool of two frames. -/
theorem internal_move_all_to_witness :
    (MoveAllTo wordHeader sampleNode emptyNode 7 (create 2 nodeDisk)).isSome = true ∧
    ∃ r, MoveAllTo wordHeader sampleNode emptyNode 7 (create 2 nodeDisk) =
        (adoptAll wordHeader emptyNode.page_id (create 2 nodeDisk) sampleNode.children).map
          (fun b => (r, b)) ∧
      r.size = emptyNode.size + sampleNode.size ∧
      (∀ j, j < emptyNode.size → r.array j = emptyNode.array j) ∧
      r.array emptyNode.size = (7, (sampleNode.array 0).2) ∧
      (∀ j, 1 ≤ j → j < sampleNode.size → r.array (emptyNode.size + j) = sampleNode.array j) ∧
      (0 ≤ emptyNode.size →
        r.entries =
          emptyNode.entries ++ (7, (sampleNode.array 0).2) :: sampleNode.entries.drop 1) :=
  have h := internal_move_all_to wordHeader sampleNode emptyNode 7 (create 2 nodeDisk)
    (by decide) (by decide)
  ⟨h.2 2 (Adoptable_create 2 nodeDisk wordHeader wordHeader_laws sampleNode.children
      (by decide) (by decide)), h.1⟩

/-- C18 (witness): redistribution between the sample node (size 3) and the sibling
node (size 2, room for 4), in a new pool of two frames. -/
theorem internal_redistribute_witness :
    ((MoveFirstToEndOf wordHeader sampleNode siblingNode 7 (create 2 nodeDisk)).isSome = true ∧
      (MoveLastToFrontOf wordHeader sampleNode siblingNode 7
        (create 2 nodeDisk)).isSome = true) ∧
    (∃ t r, MoveFirstToEndOf wordHeader sampleNode siblingNode 7 (create 2 nodeDisk) =
        (adoptAll wordHeader siblingNode.page_id (create 2 nodeDisk)
          [(sampleNode.array 0).2]).map (fun b => (t, r, b)) ∧
      r.size = siblingNode.size + 1 ∧
      (∀ j, 0 ≤ j → j < siblingNode.size → r.array j = siblingNode.array j) ∧
      r.array siblingNode.size = (7, (sampleNode.array 0).2) ∧
      t.size = sampleNode.size - 1 ∧
      (∀ j, 0 ≤ j → j < sampleNode.size - 1 → t.array j = sampleNode.array (j + 1)) ∧
      r.children ++ t.children = siblingNode.children ++ sampleNode.children) ∧
    (∃ t r, MoveLastToFrontOf wordHeader sampleNode siblingNode 7 (create 2 nodeDisk) =
        (adoptAll wordHeader siblingNode.page_id (create 2 nodeDisk)
          [(sampleNode.array (sampleNode.size - 1)).2]).map (fun b => (t, r, b)) ∧
      t.size = sampleNode.size - 1 ∧
      (∀ j, t.array j = sampleNode.array j) ∧
      r.size = siblingNode.size + 1 ∧
      (r.array 0).2 = (sampleNode.array (sampleNode.size - 1)).2 ∧
      (1 ≤ siblingNode.size → r.array 1 = (7, (siblingNode.array 0).2)) ∧
      (siblingNode.size = 0 → r.array 1 = (7, (siblingNode.array 1).2)) ∧
      (∀ j, 1 ≤ j → j < siblingNode.size → r.array (j + 1) = siblingNode.array j) ∧
      t.children ++ r.children = sampleNode.children ++ siblingNode.children) :=
  have h := internal_redistribute wordHeader sampleNode siblingNode 7 (create 2 nodeDisk)
    (by decide) (by decide) (by decide)
  ⟨h.2.2 2 (Adoptable_create 2 nodeDisk wordHeader wordHeader_laws sampleNode.children
      (by decide) (by decide)), h.1, h.2.1⟩

end bustub

/-! ## C20: re-parenting keeps parent pointers consistent -/

namespace bustub
open BPlusTreeInternalPage BufferPoolManager

/-- C20 (counterexample): in a pool of one frame whose disk blocks all name page 4
as parent, the sample node (page 4, children 10, 11, 12) is merged into the empty
node (page 5).  Every child has parent 4 before the call and every fetch
succeeds, yet afterwards the moved child 10 is not marked dirty in the pool: the
fetch of child 11 has taken its frame (its block was written back with parent 5). -/
theorem reparented_child_evicted :
    (∀ c, c ∈ sampleNode.children →
      parentIdOf wordHeader (create 1 nodeDisk) c = sampleNode.page_id) ∧
    (MoveAllTo wordHeader sampleNode emptyNode 7 (create 1 nodeDisk)).isSome = true ∧
    (10 : page_id_t) ∈ sampleNode.children ∧
    (∀ out, MoveAllTo wordHeader sampleNode emptyNode 7 (create 1 nodeDisk) = some out →
      ¬ dirtyInPool out.2 10 ∧ parentIdOf wordHeader out.2 10 = emptyNode.page_id) := by
  refine ⟨by decide, by decide, by decide, ?_⟩
  intro out he
  have h : (MoveAllTo wordHeader sampleNode emptyNode 7 (create 1 nodeDisk)).map
      (fun o => (ptFind o.2.page_table 10, parentIdOf wordHeader o.2 10)) =
      some (none, 5) := by decide
  rw [he] at h
  have h2 := Prod.mk.inj (Option.some.inj h)
  refine ⟨?_, h2.2⟩
  rintro ⟨f, hf, _⟩
  rw [h2.1] at hf
  exact absurd hf (by simp)

/-- C20 (amended): re-parenting keeps parent pointers consistent.  Let the pool be
consistent (the invariants of runs that never fetch the INVALID id, and every
clean unpinned frame equal to its disk block), let this node have size n >= 1,
and let each of its children be a valid page id whose header carries that id.
Whenever MoveHalfTo, MoveAllTo, MoveFirstToEndOf or MoveLastToFrontOf returns
(every fetch succeeded), then in the pool it leaves: every child whose pointer
was moved has parent page id equal to the recipient's page id; such a child is
marked dirty if it is still cached, and all of them are marked dirty in the pool
if they were all cached when the call started; every page that was not moved
keeps its parent page id; and the pin count of every page is what it was before
the call. -/
theorem reparenting_keeps_parents {K : Type} (H : HeaderAccess) (hH : HeaderLaws H) (n : Nat)
    (node recipient : BPlusTreeInternalPage K) (middle_key : K) (bpm : BufferPoolManager)
    (hw : WF n bpm) (ht : Tight n bpm) (hcs : CleanSynced bpm) (hn : 1 ≤ node.size)
    (hkids : ∀ c, c ∈ node.children →
      c ≠ INVALID_PAGE_ID ∧ H.GetPageId (contentOf bpm c) = c) :
    (∀ t r b, MoveHalfTo H node recipient bpm = some (t, r, b) →
      Reparented H bpm b
        (childrenFrom node.array (node.size / 2).toNat ((node.size + 1) / 2))
        recipient.page_id) ∧
    (∀ r b, MoveAllTo H node recipient middle_key bpm = some (r, b) →
      Reparented H bpm b node.children recipient.page_id) ∧
    (∀ t r b, MoveFirstToEndOf H node recipient middle_key bpm = some (t, r, b) →
      Reparented H bpm b [(node.array 0).2] recipient.page_id) ∧
    (∀ t r b, MoveLastToFrontOf H node recipient middle_key bpm = some (t, r, b) →
      Reparented H bpm b [(node.array (node.size - 1)).2] recipient.page_id) := by
  refine ⟨?_, ?_, ?_, ?_⟩
  · intro t r b he
    refine adoptAll_reparented H hH n _ _ bpm b hw ht hcs ?_
      (MoveHalfTo_pool H node recipient bpm (by omega) t r b he)
    intro c hc
    obtain ⟨j, h1, h2, h3⟩ := (childrenFrom_mem _ _ _ _).mp hc
    rw [← h3]
    exact hkids _ (slot_mem_children node j (by omega) (by omega))
  · intro r b he
    exact adoptAll_reparented H hH n _ _ bpm b hw ht hcs hkids
      (MoveAllTo_pool H node recipient middle_key bpm hn r b he)
  · intro t r b he
    refine adoptAll_reparented H hH n _ _ bpm b hw ht hcs ?_
      (MoveFirstToEndOf_pool H node recipient middle_key bpm t r b he)
    intro c hc
    rw [List.mem_singleton.mp hc]
    exact hkids _ (slot_mem_children node 0 (le_refl 0) (by omega))
  · intro t r b he
    refine adoptAll_reparented H hH n _ _ bpm b hw ht hcs ?_
      (MoveLastToFrontOf_pool H node recipient middle_key bpm t r b he)
    intro c hc
    rw [List.mem_singleton.mp hc]
    exact hkids _ (slot_mem_children node (node.size - 1) (by omega) (by omega))


/-- C20 (witness): the sample node (children 10, 11, 12) and the empty node in a
new pool of two frames over the disk whose blocks carry their own page id: all
four calls return, and each leaves the pool as the theorem says. -/
theorem reparenting_keeps_parents_witness :
    (MoveHalfTo wordHeader sampleNode emptyNode (create 2 nodeDisk)).isSome = true ∧
    (MoveAllTo wordHeader sampleNode emptyNode 7 (create 2 nodeDisk)).isSome = true ∧
    (MoveFirstToEndOf wordHeader sampleNode emptyNode 7 (create 2 nodeDisk)).isSome = true ∧
    (MoveLastToFrontOf wordHeader sampleNode emptyNode 7 (create 2 nodeDisk)).isSome = true ∧
    ((∀ t r b, MoveHalfTo wordHeader sampleNode emptyNode (create 2 nodeDisk) = some (t, r, b) →
      Reparented wordHeader (create 2 nodeDisk) b
        (childrenFrom sampleNode.array (sampleNode.size / 2).toNat ((sampleNode.size + 1) / 2))
        emptyNode.page_id) ∧
    (∀ r b, MoveAllTo wordHeader sampleNode emptyNode 7 (create 2 nodeDisk) = some (r, b) →
      Reparented wordHeader (create 2 nodeDisk) b sampleNode.children emptyNode.page_id) ∧
    (∀ t r b,
      MoveFirstToEndOf wordHeader sampleNode emptyNode 7 (create 2 nodeDisk) = some (t, r, b) →
      Reparented wordHeader (create 2 nodeDisk) b [(sampleNode.array 0).2] emptyNode.page_id) ∧
    (∀ t r b,
      MoveLastToFrontOf wordHeader sampleNode emptyNode 7 (create 2 nodeDisk) = some (t, r, b) →
      Reparented wordHeader (create 2 nodeDisk) b [(sampleNode.array (sampleNode.size - 1)).2]
        emptyNode.page_id)) :=
  ⟨by decide, by decide, by decide, by decide,
    reparenting_keeps_parents wordHeader wordHeader_laws 2 sampleNode emptyNode 7
      (create 2 nodeDisk) (WF_create 2 nodeDisk) (Tight_create 2 nodeDisk)
      (CleanSynced_create 2 nodeDisk) (by decide) (by decide)⟩

end bustub

/-! ## C12: the invariant on runs without flush -/

namespace bustub
open BufferPoolManager

theorem pick_lru (s s1 : BufferPoolManager) (g : frame_id_t)
    (hq : s.pickFrame = (some g, s1)) :
    ∀ f, f ∈ s.replacer.LRU → f ≠ g → f ∈ s1.replacer.LRU := by
  intro f hf hfg
  rcases pickFrame_cases s with ⟨f0, rest, hfl, e⟩ | ⟨_, _, e⟩ | ⟨f0, rest, hfl, hl, e⟩
  · rw [e] at hq
    obtain ⟨_, h2⟩ := Prod.mk.inj hq
    subst h2
    exact hf
  · rw [e] at hq
    exact absurd (congrArg Prod.fst hq) (by simp)
  · rw [e] at hq
    obtain ⟨h1, h2⟩ := Prod.mk.inj hq
    have h1 : f0 = g := Option.some.inj h1
    subst h1 h2
    rw [hl] at hf
    rcases List.mem_cons.mp hf with h | h
    · exact absurd h hfg
    · exact h

theorem unpinned_listed_install (n : Nat) (s s1 : BufferPoolManager) (g : frame_id_t)
    (p : page_id_t) (data : PageData) (dm : DiskManager) (h : WF n s)
    (he : ∀ k f, ptFind s.page_table k = some f → (s.pageAt f).pin_count = 0 →
      f ∈ s.replacer.LRU)
    (hq : s.pickFrame = (some g, s1)) :
    ∀ k f, ptFind (s1.install g p data dm).page_table k = some f →
      ((s1.install g p data dm).pageAt f).pin_count = 0 →
      f ∈ (s1.install g p data dm).replacer.LRU := by
  obtain ⟨h1, hg, _, _, hpages, hpt, _⟩ := WF_pick n s s1 g h hq
  have hlen : g < s1.pages.length := h1.pages_len.symm ▸ hg
  obtain ⟨ip1, ip2, _⟩ := install_post s1 g p data dm hlen
  intro k f hk hp
  have hfg : f ≠ g := by
    intro e
    rw [e, ip2] at hp
    change (1 : Int) = 0 at hp
    omega
  have hkp : p ≠ k := by
    intro e
    rw [← e, ip1] at hk
    exact hfg (Option.some.inj hk).symm
  have hk1 : ptFind s.page_table k = some f := by
    change ptFind (ptAssign (ptErase s1.page_table (s1.pageAt g).page_id) p g) k = some f at hk
    rw [ptFind_assign, if_neg hkp, ptFind_erase] at hk
    by_cases hko : k = (s1.pageAt g).page_id
    · rw [if_pos hko] at hk
      exact absurd hk (by simp)
    · rw [if_neg hko, hpt] at hk
      exact hk
  have hat : (s1.install g p data dm).pageAt f = s.pageAt f := by
    rw [pageAt_of_pages_ne s1 _ g f _ rfl hfg]
    simp only [pageAt, hpages]
  rw [hat] at hp
  have hm := pick_lru s s1 g hq f (he k f hk1 hp) hfg
  exact (mem_Pin _ _ _).mpr ⟨hm, hfg⟩

theorem unpinned_listed_step (n : Nat) (s : BufferPoolManager) (op : Op) (h : WF n s)
    (he : ∀ k f, ptFind s.page_table k = some f → (s.pageAt f).pin_count = 0 →
      f ∈ s.replacer.LRU)
    (hop : ∀ p, op ≠ Op.flush p) :
    ∀ k f, ptFind (step s op).page_table k = some f → ((step s op).pageAt f).pin_count = 0 →
      f ∈ (step s op).replacer.LRU := by
  cases op with
  | fetch p =>
    show ∀ k f, ptFind (s.FetchPageImpl p).2.page_table k = some f →
      ((s.FetchPageImpl p).2.pageAt f).pin_count = 0 → f ∈ (s.FetchPageImpl p).2.replacer.LRU
    cases hp : ptFind s.page_table p with
    | some f0 =>
      rw [FetchPageImpl_hit s p f0 hp]
      have hlen : f0 < s.pages.length := h.pages_len.symm ▸ (h.pt p f0 hp).1
      intro k f hk hpin
      have hf : f ≠ f0 := by
        intro e
        rw [e, pageAt_of_pages_self s _ f0 _ rfl hlen] at hpin
        have := h.pin_nonneg f0
        change (s.pageAt f0).pin_count + 1 = 0 at hpin
        omega
      rw [pageAt_of_pages_ne s _ f0 f _ rfl hf] at hpin
      exact (mem_Pin _ _ _).mpr ⟨he k f hk hpin, hf⟩
    | none =>
      rcases hq : s.pickFrame with ⟨_ | g, s1⟩
      · rw [FetchPageImpl_null s s1 p hp hq, (pickFrame_null_state s s1 hq).1]
        exact he
      · rw [FetchPageImpl_miss s s1 p g hp hq]
        exact unpinned_listed_install n s s1 g p _ _ h he hq
  | unpin p d =>
    show ∀ k f, ptFind (s.UnpinPageImpl p d).2.page_table k = some f →
      ((s.UnpinPageImpl p d).2.pageAt f).pin_count = 0 →
      f ∈ (s.UnpinPageImpl p d).2.replacer.LRU
    cases hp : ptFind s.page_table p with
    | none => simp only [UnpinPageImpl, hp]; exact he
    | some f0 =>
      by_cases hc : (s.pageAt f0).pin_count ≤ 0
      · simp only [UnpinPageImpl, hp, hc, if_true]; exact he
      · obtain ⟨hf0, _, _⟩ := h.pt p f0 hp
        have hlen : f0 < s.pages.length := h.pages_len.symm ▸ hf0
        have hc1 : 0 < (s.pageAt f0).pin_count := not_le.mp hc
        rw [UnpinPageImpl_ok s p d f0 hp hlen hc1]
        have hnot : f0 ∉ s.replacer.LRU := by
          intro hm
          have := (h.lru f0 hm).2.1
          omega
        intro k f hk hpin
        change f ∈ (if (s.pageAt f0).pin_count - 1 = 0 then s.replacer.Unpin f0
            else s.replacer).LRU
        by_cases hf : f = f0
        · subst hf
          rw [pageAt_of_pages_self s _ f _ rfl hlen] at hpin
          change (s.pageAt f).pin_count - 1 = 0 at hpin
          rw [if_pos hpin, Unpin_append n s f h hf0 hnot]
          simp
        · rw [pageAt_of_pages_ne s _ f0 f _ rfl hf] at hpin
          have hm := he k f hk hpin
          by_cases h0 : (s.pageAt f0).pin_count - 1 = 0
          · rw [if_pos h0, Unpin_append n s f0 h hf0 hnot]
            exact List.mem_append_left _ hm
          · rw [if_neg h0]
            exact hm
  | new_page a =>
    show ∀ k f, ptFind (s.NewPageImpl a).2.2.page_table k = some f →
      ((s.NewPageImpl a).2.2.pageAt f).pin_count = 0 → f ∈ (s.NewPageImpl a).2.2.replacer.LRU
    rcases hq : s.pickFrame with ⟨_ | g, s1⟩
    · rw [NewPageImpl_null s s1 a hq, (pickFrame_null_state s s1 hq).1]
      exact he
    · rw [NewPageImpl_some s s1 a g hq]
      exact unpinned_listed_install n s s1 g a _ _ h he hq
  | flush p => exact absurd rfl (hop p)
  | delete p =>
    show ∀ k f, ptFind (s.DeletePageImpl p).2.page_table k = some f →
      ((s.DeletePageImpl p).2.pageAt f).pin_count = 0 →
      f ∈ (s.DeletePageImpl p).2.replacer.LRU
    cases hp : ptFind s.page_table p with
    | none => simp only [DeletePageImpl, hp]; exact he
    | some f0 =>
      by_cases hc : (s.pageAt f0).pin_count > 0
      · simp only [DeletePageImpl, hp, hc, if_true]; exact he
      · rw [DeletePageImpl_ok s p f0 hp hc]
        obtain ⟨_, hid, _⟩ := h.pt p f0 hp
        intro k f hk hpin
        change ptFind (ptErase s.page_table (s.pageAt f0).page_id) k = some f at hk
        rw [ptFind_erase, hid] at hk
        by_cases hkp : k = p
        · rw [if_pos hkp] at hk
          exact absurd hk (by simp)
        · rw [if_neg hkp] at hk
          have hf : f ≠ f0 := by
            intro e
            rw [e] at hk
            exact hkp ((h.pt k f0 hk).2.1.symm.trans hid)
          rw [pageAt_of_pages_ne s _ f0 f _ rfl hf] at hpin
          exact (mem_Pin _ _ _).mpr ⟨he k f hk hpin, hf⟩

theorem pinned_or_evictable_without_flush (n : Nat) (dm : DiskManager) (ops : List Op)
    (hno : NoFlush ops) : PinnedOrEvictable (run (create n dm) ops) := by
  have key : ∀ (ops : List Op) (s : BufferPoolManager), WF n s →
      (∀ k f, ptFind s.page_table k = some f → (s.pageAt f).pin_count = 0 →
        f ∈ s.replacer.LRU) →
      NoFlush ops →
      ∀ k f, ptFind (run s ops).page_table k = some f → ((run s ops).pageAt f).pin_count = 0 →
        f ∈ (run s ops).replacer.LRU := by
    intro ops
    induction ops with
    | nil => intro s _ he _; exact he
    | cons op rest ih =>
      intro s h he hn
      show ∀ k f, ptFind (run (step s op) rest).page_table k = some f → _
      exact ih (step s op) (WF_step n s op h)
        (unpinned_listed_step n s op h he
          (fun p e => hn p (e ▸ List.mem_cons_self op rest)))
        (fun p hm => hn p (List.mem_cons_of_mem op hm))
  have hw := WF_reachable n dm ops
  have hu := key ops (create n dm) (WF_create n dm)
    (fun k f hk => absurd hk (by simp [create, ptFind])) hno
  intro k f hk
  by_cases hp : ((run (create n dm) ops).pageAt f).pin_count = 0
  · exact Or.inl ⟨hp, hu k f hk hp⟩
  · right
    have := hw.pin_nonneg f
    refine ⟨by omega, fun hm => hp (hw.lru f hm).2.1⟩

end bustub

/-! ## C21: traversal by the leaf iterator -/

namespace bustub
open BufferPoolManager IndexIterator

theorem peek_tail (n : Nat) (b1 : BufferPoolManager) (c : page_id_t) (f : frame_id_t)
    (hw : WF n b1) (hc : ptFind b1.page_table c = some f)
    (hpin : 1 ≤ (b1.pageAt f).pin_count) :
    ∃ s2, (b1.UnpinPageImpl (b1.pageAt f).page_id false).2 = s2 ∧
      s2.page_table = b1.page_table ∧ s2.disk_manager = b1.disk_manager ∧
      s2.pageAt f = { b1.pageAt f with pin_count := (b1.pageAt f).pin_count - 1 } ∧
      (∀ g, g ≠ f → s2.pageAt g = b1.pageAt g) ∧ WF n s2 ∧ (Tight n b1 → Tight n s2) ∧
      s2.free_list = b1.free_list ∧
      s2.replacer =
        if (b1.pageAt f).pin_count - 1 = 0 then b1.replacer.Unpin f else b1.replacer := by
  obtain ⟨hf, hpid, hfree⟩ := hw.pt c f hc
  have hlen : f < b1.pages.length := hw.pages_len.symm ▸ hf
  rw [hpid]
  have e3 := UnpinPageImpl_ok b1 c false f hc hlen (by omega)
  have hw3 := WF_unpin n b1 c false hw
  have ht3 : Tight n b1 → Tight n (b1.UnpinPageImpl c false).2 :=
    fun t => Tight_unpin n b1 c false hw t
  rw [e3] at hw3 ht3
  rw [e3]
  refine ⟨_, rfl, rfl, rfl, ?_, ?_, hw3, ht3, rfl, rfl⟩
  · rw [pageAt_of_pages_self b1 _ f _ rfl hlen]
    simp
  · intro g hg
    exact pageAt_of_pages_ne b1 _ f g _ rfl hg

theorem peek_frames (n : Nat) (s b1 : BufferPoolManager) (c : page_id_t) (f : frame_id_t)
    (hw : WF n s) (ht : Tight n s) (hc0 : c ≠ INVALID_PAGE_ID)
    (hfe : s.FetchPageImpl c = (some f, b1)) :
    ∃ s2, (b1.UnpinPageImpl (b1.pageAt f).page_id false).2 = s2 ∧
      (b1.pageAt f).data = contentOf s c ∧
      WF n s2 ∧ Tight n s2 ∧
      (s.free_list ≠ [] ∨ s.replacer.LRU ≠ [] → s2.free_list ≠ [] ∨ s2.replacer.LRU ≠ []) ∧
      ptFind s2.page_table c = some f ∧
      (s2.pageAt f).data = contentOf s c ∧
      (s2.pageAt f).pin_count = pinCountOf s c ∧
      ((ptFind s.page_table c = some f ∧ s2.pageAt f = s.pageAt f ∧
          s2.disk_manager = s.disk_manager) ∨
        (ptFind s.page_table c = none ∧ (s2.pageAt f).data = s2.disk_manager.ReadPage c)) ∧
      (∀ h, h ≠ f → s2.pageAt h = s.pageAt h) ∧
      (∀ q, q ≠ c → ptFind s2.page_table q =
        if ptFind s.page_table q = some f then none else ptFind s.page_table q) ∧
      (∀ q, ptFind s.page_table q ≠ some f →
        s2.disk_manager.ReadPage q = s.disk_manager.ReadPage q) ∧
      (∀ q, q ≠ c → ptFind s.page_table q = some f →
        (s.pageAt f).pin_count = 0 ∧
        ((s.pageAt f).is_dirty = true → s2.disk_manager.ReadPage q = (s.pageAt f).data) ∧
        ((s.pageAt f).is_dirty = false →
          s2.disk_manager.ReadPage q = s.disk_manager.ReadPage q)) := by
  cases hc : ptFind s.page_table c with
  | some f0 =>
    obtain ⟨b0, s3, e, _, hpt1, hfl1, hdm1, hlru1, hself1, hne1, _⟩ :=
      fetch_unpin_roundtrip n s c f0 hw hc
    rw [e] at hfe
    obtain ⟨hff, hbb⟩ := Prod.mk.inj hfe
    have hff : f0 = f := Option.some.inj hff
    subst hff hbb
    have hw1 : WF n b0 := by
      have := WF_fetch n s c hw
      rw [e] at this
      exact this
    have ht1 : Tight n b0 := by
      have := Tight_fetch_hit n s c f0 hw ht hc
      rw [e] at this
      exact this
    obtain ⟨hp1, hp2, hp3⟩ := fetch_post n s c f0 hw (by rw [e])
    rw [e] at hp1 hp2 hp3
    have hcont : contentOf s c = (s.pageAt f0).data := contentOf_cached s c f0 hc
    have hd1 : (b0.pageAt f0).data = (s.pageAt f0).data := by rw [hself1]
    obtain ⟨t2, het, hpt2, hdm2, hself2, hne2, hw2, ht2, hfl2, hrp2⟩ :=
      peek_tail n b0 c f0 hw1 hp1 hp2
    have hback : t2.pageAt f0 = s.pageAt f0 := by
      rw [hself2, hself1]
      cases hpg : s.pageAt f0 with
      | mk dt pid pc dr => simp
    have hroom : s.free_list ≠ [] ∨ s.replacer.LRU ≠ [] →
        t2.free_list ≠ [] ∨ t2.replacer.LRU ≠ [] := by
      intro hr
      by_cases hp : (b0.pageAt f0).pin_count - 1 = 0
      · right
        rw [hrp2, if_pos hp, Unpin_append n b0 f0 hw1 (hw.pt c f0 hc).1 hp3]
        simp
      · rcases hr with hr | hr
        · left
          rw [hfl2, hfl1]
          exact hr
        · right
          rw [hrp2, if_neg hp, hlru1]
          have hnot : f0 ∉ s.replacer.LRU := by
            intro hm
            apply hp
            rw [hself1]
            show (s.pageAt f0).pin_count + 1 - 1 = 0
            rw [(hw.lru f0 hm).2.1]
            rfl
          have : s.replacer.LRU.filter (fun g => decide (g ≠ f0)) = s.replacer.LRU := by
            rw [List.filter_eq_self]
            intro g hg
            exact decide_eq_true (fun e => hnot (e ▸ hg))
          rw [this]
          exact hr
    refine ⟨t2, het, by rw [hd1, hcont], hw2, ht2 ht1, hroom, by rw [hpt2]; exact hp1, ?_, ?_,
      Or.inl ⟨rfl, hback, by rw [hdm2, hdm1]⟩, ?_, ?_, ?_, ?_⟩
    · rw [hback, hcont]
    · rw [hback, pinCountOf_cached s c f0 hc]
    · intro h hh
      rw [hne2 h hh, hne1 h hh]
    · intro q hq
      have hqf : ptFind s.page_table q ≠ some f0 := by
        intro hqf
        exact hq ((hw.pt q f0 hqf).2.1.symm.trans (hw.pt c f0 hc).2.1)
      rw [hpt2, hpt1, if_neg hqf]
    · intro q _
      rw [hdm2, hdm1]
    · intro q hq hqf
      exact absurd ((hw.pt q f0 hqf).2.1.symm.trans (hw.pt c f0 hc).2.1) hq
  | none =>
    obtain ⟨s1, hq, e⟩ := fetch_miss_inv s c f hc (by rw [hfe])
    obtain ⟨hw1p, hg, hgfree, hglru, hpages1, hpt1, hpin0⟩ := WF_pick n s s1 f hw hq
    have hb1 : b1 = s1.install f c (s1.disk_manager.ReadPage c) s1.disk_manager := by
      have := congrArg Prod.snd (hfe.symm.trans e)
      exact this
    have hw1 : WF n b1 := by
      have := WF_fetch n s c hw
      rw [hfe] at this
      exact this
    have ht1 : Tight n b1 := by
      have := Tight_fetch n s c hw ht hc0
      rw [hfe] at this
      exact this
    have hlen1 : f < s1.pages.length := hw1p.pages_len.symm ▸ hg
    obtain ⟨ip1, ip2, ip3⟩ :=
      install_post s1 f c (s1.disk_manager.ReadPage c) s1.disk_manager hlen1
    rw [← hb1] at ip1 ip2 ip3
    have hat1 : ∀ h, s1.pageAt h = s.pageAt h := by
      intro h
      simp only [pageAt, hpages1]
    have hne1 : ∀ h, h ≠ f → b1.pageAt h = s.pageAt h := by
      intro h hh
      rw [← hat1 h]
      exact pageAt_of_pages_ne s1 b1 f h _ (by rw [hb1]; rfl) hh
    have hptb : b1.page_table =
        ptAssign (ptErase s.page_table (s.pageAt f).page_id) c f := by
      rw [hb1, ← hat1 f, ← hpt1]
      rfl
    have hdmb : b1.disk_manager = s1.disk_manager := by rw [hb1]; rfl
    have hK1 : ptFind s.page_table (s.pageAt f).page_id = none ∨
        ptFind s.page_table (s.pageAt f).page_id = some f := by
      rcases pick_disk s s1 f hq with ⟨hfr, _⟩ | ⟨hfl, _, _⟩
      · left
        rw [ht.free_invalid f hfr]
        exact ht.no_invalid
      · right
        rcases ht.cover f hg with hfr | ⟨k, hk⟩
        · rw [hfl] at hfr
          exact absurd hfr (List.not_mem_nil _)
        · rw [(hw.pt k f hk).2.1]
          exact hk
    have hE1 : ∀ q, ptFind s.page_table q ≠ some f →
        s1.disk_manager.ReadPage q = s.disk_manager.ReadPage q := by
      intro q hqg
      rcases pick_disk s s1 f hq with ⟨_, hd⟩ | ⟨hfl, _, hd⟩
      · rw [hd]
      · rw [hd]
        by_cases hdy : (s.pageAt f).is_dirty = true
        · rw [if_pos hdy]
          have hne : q ≠ (s.pageAt f).page_id := by
            intro hqe
            rcases hK1 with hk | hk
            · rcases ht.cover f hg with hfr | ⟨k, hk2⟩
              · rw [hfl] at hfr
                exact absurd hfr (List.not_mem_nil _)
              · rw [(hw.pt k f hk2).2.1, hk2] at hk
                exact absurd hk (by simp)
            · rw [← hqe] at hk
              exact hqg hk
          simp only [DiskManager.ReadPage, DiskManager.WritePage, hne, if_false]
        · rw [if_neg hdy]
    have hE2 : ∀ q, ptFind s.page_table q = some f →
        ((s.pageAt f).is_dirty = true → s1.disk_manager.ReadPage q = (s.pageAt f).data) ∧
        ((s.pageAt f).is_dirty = false →
          s1.disk_manager.ReadPage q = s.disk_manager.ReadPage q) := by
      intro q hqg
      refine ⟨fun hdy => pick_cached_disk n s s1 f q hw hq hqg hdy, fun hdn => ?_⟩
      rcases pick_disk s s1 f hq with ⟨_, hd⟩ | ⟨_, _, hd⟩
      · rw [hd]
      · rw [hd, hdn]
        rfl
    have hcd : s1.disk_manager.ReadPage c = s.disk_manager.ReadPage c :=
      hE1 c (by rw [hc]; simp)
    obtain ⟨t2, het, hpt2, hdm2, hself2, hne2, hw2, ht2, hfl2, hrp2⟩ :=
      peek_tail n b1 c f hw1 ip1 (by rw [ip2])
    have hroom : s.free_list ≠ [] ∨ s.replacer.LRU ≠ [] →
        t2.free_list ≠ [] ∨ t2.replacer.LRU ≠ [] := by
      intro _
      right
      have hp : (b1.pageAt f).pin_count - 1 = 0 := by rw [ip2]; rfl
      rw [hrp2, if_pos hp, Unpin_append n b1 f hw1 hg ip3]
      simp
    have hdata : (b1.pageAt f).data = contentOf s c := by
      rw [ip2, contentOf_absent s c hc]
      exact hcd
    refine ⟨t2, het, hdata, hw2, ht2 ht1, hroom, by rw [hpt2]; exact ip1, ?_, ?_,
      Or.inr ⟨rfl, ?_⟩, ?_, ?_, ?_, ?_⟩
    · rw [hself2]
      exact hdata
    · rw [hself2, ip2, pinCountOf_absent s c hc]
      rfl
    · rw [hself2, hdm2, hdmb, ip2]
    · intro h hh
      rw [hne2 h hh, hne1 h hh]
    · intro q hqc
      rw [hpt2, hptb, ptFind_assign, if_neg (fun e => hqc e.symm), ptFind_erase]
      by_cases hqg : ptFind s.page_table q = some f
      · rw [if_pos hqg, if_pos (hw.pt q f hqg).2.1.symm]
      · rw [if_neg hqg]
        by_cases hqo : q = (s.pageAt f).page_id
        · rw [if_pos hqo]
          rcases hK1 with hk | hk
          · rw [hqo, hk]
          · rw [← hqo] at hk
            exact absurd hk hqg
        · rw [if_neg hqo]
    · intro q hqg
      rw [hdm2, hdmb]
      exact hE1 q hqg
    · intro q _ hqg
      rw [hdm2, hdmb]
      exact ⟨hpin0, hE2 q hqg⟩


theorem peek_effect (n : Nat) (s b1 : BufferPoolManager) (c : page_id_t) (f : frame_id_t)
    (hr : PoolReady n s) (hc0 : c ≠ INVALID_PAGE_ID)
    (hfe : s.FetchPageImpl c = (some f, b1)) :
    ∃ s2, (b1.UnpinPageImpl (b1.pageAt f).page_id false).2 = s2 ∧
      (b1.pageAt f).data = contentOf s c ∧ PoolReady n s2 ∧
      (∀ q, contentOf s2 q = contentOf s q) ∧ (∀ q, pinCountOf s2 q = pinCountOf s q) := by
  obtain ⟨hw, ht, hcs, hroom0⟩ := hr
  obtain ⟨s2, hs2, hdata, hw2, ht2, hroom, hcg, hdat2, hpin, hcase, hne, hpt, hE1, hE2⟩ :=
    peek_frames n s b1 c f hw ht hc0 hfe
  have hkept : ∀ q g, q ≠ c → ptFind s2.page_table q = some g →
      ptFind s.page_table q = some g ∧ g ≠ f ∧ s2.pageAt g = s.pageAt g := by
    intro q g hq hg
    rw [hpt q hq] at hg
    by_cases hqg : ptFind s.page_table q = some f
    · rw [if_pos hqg] at hg
      exact absurd hg (by simp)
    · rw [if_neg hqg] at hg
      have hfg : g ≠ f := fun e => hqg (e ▸ hg)
      exact ⟨hg, hfg, hne g hfg⟩
  have hgone : ∀ q, q ≠ c → ptFind s.page_table q = some f →
      ptFind s2.page_table q = none := by
    intro q hq hqg
    rw [hpt q hq, if_pos hqg]
  have hsame : ∀ q, q ≠ c → ptFind s.page_table q ≠ some f →
      ptFind s2.page_table q = ptFind s.page_table q := by
    intro q hq hqg
    rw [hpt q hq, if_neg hqg]
  refine ⟨s2, hs2, hdata, ⟨hw2, ht2, ?_, hroom hroom0⟩, ?_, ?_⟩
  · intro q g hq hclean hp0
    by_cases hqc : q = c
    · subst hqc
      rw [hcg] at hq
      have hfg : f = g := Option.some.inj hq
      subst hfg
      rcases hcase with ⟨hin, hback, hdm⟩ | ⟨_, hd⟩
      · rw [hback] at hclean hp0 ⊢
        rw [hdm]
        exact hcs q f hin hclean hp0
      · exact hd
    · obtain ⟨hsq, hfg, hpg⟩ := hkept q g hqc hq
      rw [hpg] at hclean hp0 ⊢
      rw [hcs q g hsq hclean hp0]
      exact (hE1 q (by rw [hsq]; exact fun e => hfg (Option.some.inj e))).symm
  · intro q
    by_cases hq : q = c
    · subst hq
      rw [contentOf_cached s2 q f hcg, hdat2]
    · cases hsq : ptFind s.page_table q with
      | none =>
        have h2 : ptFind s2.page_table q = none := by
          rw [hsame q hq (by rw [hsq]; simp), hsq]
        rw [contentOf_absent s2 q h2, contentOf_absent s q hsq]
        exact hE1 q (by rw [hsq]; simp)
      | some h =>
        by_cases hhg : h = f
        · subst hhg
          rw [contentOf_absent s2 q (hgone q hq hsq), contentOf_cached s q h hsq]
          obtain ⟨hp0, hd1, hd2⟩ := hE2 q hq hsq
          cases hdy : (s.pageAt h).is_dirty with
          | true => exact hd1 hdy
          | false =>
            rw [hd2 hdy]
            exact (hcs q h hsq hdy hp0).symm
        · have hqg : ptFind s.page_table q ≠ some f := by
            rw [hsq]
            exact fun e => hhg (Option.some.inj e)
          have h2 : ptFind s2.page_table q = some h := by rw [hsame q hq hqg, hsq]
          rw [contentOf_cached s2 q h h2, contentOf_cached s q h hsq, hne h hhg]
  · intro q
    by_cases hq : q = c
    · subst hq
      rw [pinCountOf_cached s2 q f hcg, hpin]
    · cases hsq : ptFind s.page_table q with
      | none =>
        have h2 : ptFind s2.page_table q = none := by
          rw [hsame q hq (by rw [hsq]; simp), hsq]
        rw [pinCountOf_absent s2 q h2, pinCountOf_absent s q hsq]
      | some h =>
        by_cases hhg : h = f
        · subst hhg
          rw [pinCountOf_absent s2 q (hgone q hq hsq), pinCountOf_cached s q h hsq]
          exact (hE2 q hq hsq).1.symm
        · have hqg : ptFind s.page_table q ≠ some f := by
            rw [hsq]
            exact fun e => hhg (Option.some.inj e)
          have h2 : ptFind s2.page_table q = some h := by rw [hsame q hq hqg, hsq]
          rw [pinCountOf_cached s2 q h h2, pinCountOf_cached s q h hsq, hne h hhg]

theorem fetch_served (n : Nat) (s : BufferPoolManager) (c : page_id_t) (hr : PoolReady n s) :
    ∃ f b1, s.FetchPageImpl c = (some f, b1) := by
  cases hfe : s.FetchPageImpl c with
  | mk r b1 =>
    cases r with
    | none =>
      have h := (fetch_none_iff s c).mp (by rw [hfe])
      rcases hr.room with h1 | h1
      · exact absurd h.2.1 h1
      · exact absurd h.2.2 h1
    | some f => exact ⟨f, b1, rfl⟩

theorem star_served {M : Type} (L : LeafAccess M) (n : Nat) (s : BufferPoolManager)
    (it : IndexIterator) (hr : PoolReady n s) (hc0 : it.current_page_id ≠ INVALID_PAGE_ID) :
    ∃ s2, it.operator_star L s =
        some (L.GetItem (contentOf s it.current_page_id) it.index, s2) ∧
      PoolReady n s2 ∧ contentOf s2 = contentOf s ∧
      (∀ q, pinCountOf s2 q = pinCountOf s q) := by
  obtain ⟨f, b1, hfe⟩ := fetch_served n s it.current_page_id hr
  obtain ⟨s2, hs2, hdata, hr2, hcont, hpins⟩ :=
    peek_effect n s b1 it.current_page_id f hr hc0 hfe
  refine ⟨s2, ?_, hr2, funext hcont, hpins⟩
  simp only [operator_star, hfe, hdata, hs2]

theorem inc_served {M : Type} (L : LeafAccess M) (n : Nat) (s : BufferPoolManager)
    (it : IndexIterator) (hr : PoolReady n s) (hc0 : it.current_page_id ≠ INVALID_PAGE_ID) :
    ∃ s2, it.operator_inc L s =
        some (if it.index + 1 ≥ L.GetSize (contentOf s it.current_page_id) then
            { current_page_id := L.GetNextPageId (contentOf s it.current_page_id), index := 0 }
          else { it with index := it.index + 1 }, s2) ∧
      PoolReady n s2 ∧ contentOf s2 = contentOf s ∧
      (∀ q, pinCountOf s2 q = pinCountOf s q) := by
  obtain ⟨f, b1, hfe⟩ := fetch_served n s it.current_page_id hr
  obtain ⟨s2, hs2, hdata, hr2, hcont, hpins⟩ :=
    peek_effect n s b1 it.current_page_id f hr hc0 hfe
  refine ⟨s2, ?_, hr2, funext hcont, hpins⟩
  simp only [operator_inc, hfe, hdata, hs2]


theorem scan_at_end {M : Type} (L : LeafAccess M) (k : Nat) (it : IndexIterator)
    (bpm : BufferPoolManager) (h : it.isEnd = true) : scan L k it bpm = some ([], it, bpm) := by
  cases k with
  | zero => rfl
  | succ k => simp only [scan, h, if_true]

theorem leafEntries_length {M : Type} (L : LeafAccess M) (d : PageData) :
    (leafEntries L d).length = (L.GetSize d).toNat := by
  unfold leafEntries
  rw [List.length_map, List.length_range]

theorem leafEntries_drop {M : Type} (L : LeafAccess M) (d : PageData) (j : Int) (h0 : 0 ≤ j)
    (h1 : j < L.GetSize d) :
    (leafEntries L d).drop j.toNat = L.GetItem d j :: (leafEntries L d).drop (j + 1).toNat := by
  have hlt : j.toNat < (leafEntries L d).length := by
    rw [leafEntries_length]
    omega
  have e : (j + 1).toNat = j.toNat + 1 := by omega
  rw [e, List.drop_eq_getElem_cons hlt]
  congr 1
  unfold leafEntries
  rw [List.getElem_map, List.getElem_range]
  congr 1
  exact Int.toNat_of_nonneg h0

theorem scan_chain {M : Type} (L : LeafAccess M) (n : Nat) (k : Nat) :
    ∀ (s : BufferPoolManager) (p : page_id_t) (rest : List page_id_t) (j : Int),
      PoolReady n s → LeafChain L (contentOf s) (p :: rest) p → 0 ≤ j →
      j < L.GetSize (contentOf s p) →
      ∃ it b, scan L k { current_page_id := p, index := j } s =
          some (((leafEntries L (contentOf s p)).drop j.toNat ++
            chainEntries L (contentOf s) rest).take k, it, b) ∧
        (it.isEnd = true ↔
          ((leafEntries L (contentOf s p)).drop j.toNat ++
            chainEntries L (contentOf s) rest).length ≤ k) ∧
        PoolReady n b ∧ contentOf b = contentOf s ∧ (∀ q, pinCountOf b q = pinCountOf s q) := by
  induction k with
  | zero =>
    intro s p rest j hr hch h0 h1
    refine ⟨_, _, rfl, ?_, hr, rfl, fun _ => rfl⟩
    have hp : p ≠ INVALID_PAGE_ID := hch.2.1
    rw [leafEntries_drop L _ j h0 h1]
    simp [isEnd, hp]
  | succ k ih =>
    intro s p rest j hr hch h0 h1
    obtain ⟨_, hp, hsz, hnext⟩ := hch
    have hne : ({ current_page_id := p, index := j } : IndexIterator).isEnd = false := by
      simp [isEnd, hp]
    obtain ⟨s1, e1, hr1, hc1, hp1⟩ :=
      star_served L n s { current_page_id := p, index := j } hr hp
    obtain ⟨s2, e2, hr2, hc2, hp2⟩ :=
      inc_served L n s1 { current_page_id := p, index := j } hr1 hp
    have hc12 : contentOf s2 = contentOf s := hc2.trans hc1
    have hpins : ∀ q, pinCountOf s2 q = pinCountOf s q := fun q => (hp2 q).trans (hp1 q)
    rw [hc1] at e2
    have e1' : operator_star L { current_page_id := p, index := j } s =
        some (L.GetItem (contentOf s p) j, s1) := e1
    have e2' : operator_inc L { current_page_id := p, index := j } s1 =
        some (if j + 1 ≥ L.GetSize (contentOf s p) then
            { current_page_id := L.GetNextPageId (contentOf s p), index := 0 }
          else { current_page_id := p, index := j + 1 }, s2) := e2
    simp only [scan, hne, e1', e2', Bool.false_eq_true, if_false]
    rw [leafEntries_drop L _ j h0 h1]
    by_cases hlast : j + 1 ≥ L.GetSize (contentOf s p)
    · simp only [hlast, if_true]
      have hdrop : (leafEntries L (contentOf s p)).drop (j + 1).toNat = [] := by
        rw [List.drop_eq_nil_iff, leafEntries_length]
        omega
      rw [hdrop]
      cases rest with
      | nil =>
        have hend : L.GetNextPageId (contentOf s p) = INVALID_PAGE_ID := hnext
        have hie : ({ current_page_id := L.GetNextPageId (contentOf s p), index := 0 } :
            IndexIterator).isEnd = true := by simp [isEnd, hend]
        rw [scan_at_end L k _ s2 hie]
        refine ⟨{ current_page_id := L.GetNextPageId (contentOf s p), index := 0 }, s2, ?_, ?_,
          hr2, hc12, hpins⟩
        · simp [chainEntries]
        · simp [chainEntries, hie]
      | cons q rest2 =>
        obtain ⟨hq, hq0, hqs, hqn⟩ := hnext
        rw [hq]
        have hch2 : LeafChain L (contentOf s2) (q :: rest2) q := by
          rw [hc12]
          exact ⟨rfl, hq0, hqs, hqn⟩
        obtain ⟨it, b, e3, hiff, hr3, hc3, hp3⟩ :=
          ih s2 q rest2 0 hr2 hch2 (le_refl 0) (by rw [hc12]; omega)
        rw [hc12] at e3 hiff
        rw [e3]
        refine ⟨it, b, ?_, ?_, hr3, hc3.trans hc12, fun x => (hp3 x).trans (hpins x)⟩
        · simp [chainEntries]
        · rw [hiff]
          simp [chainEntries]
    · simp only [hlast, if_false]
      have hch2 : LeafChain L (contentOf s2) (p :: rest) p := by
        rw [hc12]
        exact ⟨rfl, hp, hsz, hnext⟩
      obtain ⟨it, b, e3, hiff, hr3, hc3, hp3⟩ :=
        ih s2 p rest (j + 1) hr2 hch2 (by omega) (by rw [hc12]; omega)
      rw [hc12] at e3 hiff
      rw [e3]
      refine ⟨it, b, ?_, ?_, hr3, hc3.trans hc12, fun x => (hp3 x).trans (hpins x)⟩
      · simp
      · rw [hiff]
        simp


theorem chainEntries_length {M : Type} (L : LeafAccess M) (content : page_id_t → PageData)
    (ps : List page_id_t) :
    (chainEntries L content ps).length = (ps.map (fun p => (L.GetSize (content p)).toNat)).sum := by
  induction ps with
  | nil => rfl
  | cons p rest ih =>
    rw [chainEntries, List.length_append, leafEntries_length, ih, List.map_cons, List.sum_cons]

theorem PoolReady_create (n : Nat) (dm : DiskManager) (hn : 0 < n) :
    PoolReady n (create n dm) where
  wf := WF_create n dm
  tight := Tight_create n dm
  synced := CleanSynced_create n dm
  room := by
    left
    show List.range n ≠ []
    intro e
    have := congrArg List.length e
    rw [List.length_range] at this
    exact absurd this (by simp; omega)

/-- C21: leaf iterator traversal.  isEnd holds iff the page id is INVALID.  In a
consistent pool with a free or evictable frame, dereference and advance of an
iterator on a valid page return: dereference yields the pair at the index in the
leaf, advance increments the index and, when the index is then at (or past) the
leaf's size, moves to the leaf's next page id with index 0.  Hence for every
chain of non-empty leaves L1..Lm linked by next with Lm.next = INVALID, the scan
that starts at (L1, 0) and repeats dereference-then-advance while not isEnd
returns after every number k of rounds, having visited the first k entries of
L1, then L2, ..., then Lm (each leaf in index order), and the iterator isEnd
exactly when k has reached size(L1) + ... + size(Lm): the scan visits every entry
once, ends after that many advances, and leaves every pin count as it was. -/
theorem iterator_traversal {M : Type} (L : LeafAccess M) (n : Nat) (s : BufferPoolManager)
    (ps : List page_id_t) (start : page_id_t) (hr : PoolReady n s)
    (hch : LeafChain L (contentOf s) ps start) :
    (∀ it : IndexIterator, it.isEnd = true ↔ it.current_page_id = INVALID_PAGE_ID) ∧
    (∀ it : IndexIterator, it.current_page_id ≠ INVALID_PAGE_ID →
      (∃ b, it.operator_star L s =
        some (L.GetItem (contentOf s it.current_page_id) it.index, b)) ∧
      (∃ b, it.operator_inc L s =
        some (if it.index + 1 ≥ L.GetSize (contentOf s it.current_page_id) then
            { current_page_id := L.GetNextPageId (contentOf s it.current_page_id), index := 0 }
          else { it with index := it.index + 1 }, b))) ∧
    (∀ k, ∃ it b, scan L k { current_page_id := start, index := 0 } s =
        some ((chainEntries L (contentOf s) ps).take k, it, b) ∧
      (it.isEnd = true ↔ (chainEntries L (contentOf s) ps).length ≤ k) ∧
      (∀ q, pinCountOf b q = pinCountOf s q)) ∧
    (chainEntries L (contentOf s) ps).length =
      (ps.map (fun p => (L.GetSize (contentOf s p)).toNat)).sum := by
  refine ⟨fun it => by simp [isEnd], ?_, ?_, chainEntries_length L _ ps⟩
  · intro it hc0
    obtain ⟨s1, e1, _⟩ := star_served L n s it hr hc0
    obtain ⟨s2, e2, _⟩ := inc_served L n s it hr hc0
    exact ⟨⟨s1, e1⟩, ⟨s2, e2⟩⟩
  · intro k
    cases ps with
    | nil =>
      have hs : start = INVALID_PAGE_ID := hch
      have hie : ({ current_page_id := start, index := 0 } : IndexIterator).isEnd = true := by
        simp [isEnd, hs]
      refine ⟨{ current_page_id := start, index := 0 }, s, ?_, ?_, fun _ => rfl⟩
      · rw [scan_at_end L k _ s hie]
        simp [chainEntries]
      · simp [chainEntries, hie]
    | cons p rest =>
      have hs : start = p := hch.1
      subst hs
      obtain ⟨it, b, e, hiff, _, _, hp⟩ :=
        scan_chain L n k s start rest 0 hr hch (le_refl 0) (by have := hch.2.2.1; omega)
      exact ⟨it, b, e, hiff, hp⟩

/-- C21 (witness): a new pool of one frame over the disk with leaf 1 = [10, 11]
linked to leaf 2 = [20]: three rounds of the scan from (1, 0) visit 10, 11, 20
and end. -/
theorem iterator_traversal_witness :
    chainEntries wordLeaf (contentOf (create 1 leafDisk)) [1, 2] = [10, 11, 20] ∧
    ∃ it b, scan wordLeaf 3 { current_page_id := 1, index := 0 } (create 1 leafDisk) =
        some ((chainEntries wordLeaf (contentOf (create 1 leafDisk)) [1, 2]).take 3, it, b) ∧
      (it.isEnd = true ↔
        (chainEntries wordLeaf (contentOf (create 1 leafDisk)) [1, 2]).length ≤ 3) ∧
      (∀ q, pinCountOf b q = pinCountOf (create 1 leafDisk) q) :=
  ⟨by decide,
    (iterator_traversal wordLeaf 1 (create 1 leafDisk) [1, 2] 1
      (PoolReady_create 1 leafDisk (by decide))
      ⟨rfl, by decide, by decide, by decide, by decide, by decide,
        show wordLeaf.GetNextPageId (contentOf (create 1 leafDisk) 2) = INVALID_PAGE_ID by
          decide⟩).2.2.1 3⟩

end bustub

/-! ## C22: flush_all and the size of a pointer -/

namespace bustub
open BufferPoolManager

theorem FlushPageImpl_pool_size (s : BufferPoolManager) (p : page_id_t) :
    (s.FlushPageImpl p).2.pool_size = s.pool_size := by
  cases hp : ptFind s.page_table p with
  | none => simp only [FlushPageImpl, hp]
  | some f => simp only [FlushPageImpl, hp, setPage]

theorem FlushAllPagesLoop_out_of_bounds (k : Nat) :
    ∀ (i : Nat) (s : BufferPoolManager), i ≤ s.pool_size → s.pool_size < i + k →
      FlushAllPagesLoop k i s = none := by
  induction k with
  | zero => intro i s h1 h2; omega
  | succ k ih =>
    intro i s h1 h2
    rw [FlushAllPagesLoop]
    by_cases hi : i < s.pool_size
    · rw [if_pos hi]
      exact ih (i + 1) _ (by rw [FlushPageImpl_pool_size]; omega)
        (by rw [FlushPageImpl_pool_size]; omega)
    · rw [if_neg hi]

theorem FlushAllPagesImpl_small_pool (s : BufferPoolManager) (sizeof_pages : Nat)
    (h : s.pool_size < sizeof_pages) : s.FlushAllPagesImpl sizeof_pages = none :=
  FlushAllPagesLoop_out_of_bounds sizeof_pages 0 s (Nat.zero_le _) (by omega)

/-- C22 (failing input): with `sizeof(pages_)` = 8, a pool of 9 frames holds the
pages 1 .. 9 in the frames 0 .. 8, all dirty and unpinned.  flush_all visits the
frames 0 .. 7 only: afterwards page 9 is still in the page table (frame 8) and its
frame is still marked dirty.  And in a pool of one frame flush_all reads the
frame indices 1 .. 7, outside the pool. -/
theorem flush_all_stops_at_pointer_size :
    (List.range 9).map (fun i => ((run (create 9 blankDisk) (dirtyPages 9)).pageAt i).is_dirty) =
      [true, true, true, true, true, true, true, true, true] ∧
    ptFind (run (create 9 blankDisk) (dirtyPages 9)).page_table 9 = some 8 ∧
    ((run (create 9 blankDisk) (dirtyPages 9)).FlushAllPagesImpl 8).map
      (fun s => ((List.range 9).map (fun i => (s.pageAt i).is_dirty), ptFind s.page_table 9)) =
      some ([false, false, false, false, false, false, false, false, true], some 8) ∧
    ((create 1 blankDisk).FlushAllPagesImpl 8).isSome = false := by
  decide

end bustub

/-! ## C23, C24: ValueIndex and Remove at and past the size -/

namespace bustub
open BPlusTreeInternalPage BufferPoolManager

theorem ValueIndexLoop_none {K : Type} (node : BPlusTreeInternalPage K) (value : page_id_t)
    (k : Nat) :
    ∀ cur : Int, (∀ j, cur ≤ j → j < cur + k → (node.array j).2 ≠ value) →
      node.ValueIndexLoop value k cur = -1 := by
  induction k with
  | zero => intro cur _; rfl
  | succ k ih =>
    intro cur h
    rw [ValueIndexLoop]
    have hne : ¬ value = (node.array cur).2 :=
      fun e => h cur (le_refl _) (by omega) e.symm
    simp only [hne, if_false]
    exact ih (cur + 1) (fun j h1 h2 => h j (by omega) (by omega))

theorem ValueIndex_found {K : Type} (node : BPlusTreeInternalPage K) (value : page_id_t)
    (i : Int) (h0 : 0 ≤ i) (hn : i ≤ node.size) (hv : (node.array i).2 = value)
    (hfirst : ∀ j, 0 ≤ j → j < i → (node.array j).2 ≠ value) :
    node.ValueIndex value = i :=
  ValueIndexLoop_first node value _ 0 i h0 (by omega) hv hfirst

theorem ValueIndex_one_past {K : Type} (node : BPlusTreeInternalPage K) (value : page_id_t)
    (hn : 0 ≤ node.size) (hnone : ∀ j, 0 ≤ j → j < node.size → (node.array j).2 ≠ value)
    (hstale : (node.array node.size).2 = value) :
    node.ValueIndex value = node.size :=
  ValueIndex_found node value node.size hn (le_refl _) hstale hnone

theorem ValueIndex_absent {K : Type} (node : BPlusTreeInternalPage K) (value : page_id_t)
    (hnone : ∀ j, 0 ≤ j → j ≤ node.size → (node.array j).2 ≠ value) :
    node.ValueIndex value = -1 :=
  ValueIndexLoop_none node value _ 0 (fun j h1 h2 => hnone j h1 (by omega))

/-- C23 (failing input): the sample node has size 3 and pointers 10, 11, 12; the
slot at position 3, which is not part of the node, holds a stale pointer 13.
ValueIndex(13) returns 3 instead of -1.  The same happens after a split: the node
that MoveHalfTo leaves with size 2 and pointers 10, 11 answers ValueIndex(12) = 2
for the child it has just given away. -/
theorem value_index_matches_stale_slot :
    sampleNode.size = 3 ∧ sampleNode.children = [10, 11, 12] ∧
    sampleNode.ValueIndex 13 = 3 ∧
    (MoveHalfTo wordHeader sampleNode emptyNode (create 2 nodeDisk)).map
      (fun out => (out.1.size, out.1.children, out.1.ValueIndex 12)) =
      some (2, [10, 11], 2) := by
  decide

theorem shiftLeftAccess_mem (k : Nat) :
    ∀ (cur w r : Int), (w, r) ∈ shiftLeftAccess k cur ↔ cur ≤ w ∧ w < cur + k ∧ r = w + 1 := by
  induction k with
  | zero =>
    intro cur w r
    simp only [shiftLeftAccess, List.not_mem_nil, false_iff]
    omega
  | succ k ih =>
    intro cur w r
    rw [shiftLeftAccess, List.mem_cons, ih, Prod.mk.injEq]
    push_cast
    omega

theorem Remove_touches_past_size {K : Type} (node : BPlusTreeInternalPage K) (index : Int)
    (hn : index < node.size) :
    (node.size, node.size + 1) ∈ node.RemoveAccess index ∧
    (node.Remove index).2.array node.size = node.array (node.size + 1) ∧
    (∀ w r, (w, r) ∈ node.RemoveAccess index ↔ index ≤ w ∧ w ≤ node.size ∧ r = w + 1) := by
  have hk : ((node.size + 1 - index).toNat : Int) = node.size + 1 - index :=
    Int.toNat_of_nonneg (by omega)
  refine ⟨?_, ?_, ?_⟩
  · unfold RemoveAccess
    rw [shiftLeftAccess_mem, hk]
    omega
  · show shiftLeft node.array (node.size + 1 - index).toNat index node.size = _
    rw [shiftLeft_spec, hk]
    have : index ≤ node.size ∧ node.size < index + (node.size + 1 - index) := by omega
    rw [if_pos this]
  · intro w r
    unfold RemoveAccess
    rw [shiftLeftAccess_mem, hk]
    omega

/-- C24 (failing input): the stale node has size 2; Remove(0) runs its loop for
cur = 0, 1, 2, so it writes slot 2 and reads slots 2 and 3, which are at or above
the size, and slot 2 changes from (30, 12) to (40, 13). -/
theorem remove_shifts_past_size :
    staleNode.size = 2 ∧
    staleNode.RemoveAccess 0 = [(0, 1), (1, 2), (2, 3)] ∧
    staleNode.array 2 = (30, 12) ∧
    (staleNode.Remove 0).2.array 2 = (40, 13) := by
  decide

end bustub

/-! ## C25: state invariant of the replacer -/

namespace bustub
open LRUReplacer

theorem Unpin_length (r : LRUReplacer) (f : frame_id_t)
    (h : r.LRU.length ≤ r.number_pages) : (r.Unpin f).LRU.length ≤ r.number_pages := by
  unfold LRUReplacer.Unpin
  split
  · split
    · exact h
    · rename_i hlt _
      show (r.LRU ++ [f]).length ≤ r.number_pages
      rw [List.length_append, List.length_singleton]
      omega
  · exact h

theorem Pin_length (r : LRUReplacer) (f : frame_id_t) :
    (r.Pin f).LRU.length ≤ r.LRU.length := by
  rw [Pin_LRU]
  exact List.length_filter_le _ _

theorem Victim_sublist (r : LRUReplacer) : r.Victim.2.LRU.Sublist r.LRU := by
  unfold LRUReplacer.Victim
  cases h : r.LRU with
  | nil => simp [h]
  | cons f rest => exact List.sublist_cons_self f rest

theorem Victim_number_pages (r : LRUReplacer) : r.Victim.2.number_pages = r.number_pages := by
  unfold LRUReplacer.Victim
  cases r.LRU <;> rfl

theorem exec_keeps (ops : List ReplacerOp) :
    ∀ r : LRUReplacer, r.LRU.Nodup → r.LRU.length ≤ r.number_pages →
      (r.exec ops).2.LRU.Nodup ∧ (r.exec ops).2.LRU.length ≤ (r.exec ops).2.number_pages ∧
      (r.exec ops).2.number_pages = r.number_pages := by
  induction ops with
  | nil => intro r h1 h2; exact ⟨h1, h2, rfl⟩
  | cons op rest ih =>
    intro r h1 h2
    cases op with
    | victim =>
      have hs := Victim_sublist r
      obtain ⟨a, b, c⟩ := ih r.Victim.2 (List.Nodup.sublist hs h1)
        (by rw [Victim_number_pages]; exact le_trans hs.length_le h2)
      exact ⟨a, b, by rw [← Victim_number_pages r]; exact c⟩
    | pin f =>
      obtain ⟨a, b, c⟩ := ih (r.Pin f) (Pin_nodup r f h1)
        (by rw [Pin_number_pages]; exact le_trans (Pin_length r f) h2)
      exact ⟨a, b, by rw [← Pin_number_pages r f]; exact c⟩
    | unpin f =>
      obtain ⟨a, b, c⟩ := ih (r.Unpin f) (Unpin_nodup r f h1)
        (by rw [Unpin_number_pages]; exact Unpin_length r f h2)
      exact ⟨a, b, by rw [← Unpin_number_pages r f]; exact c⟩

theorem Victim_not_mem (r : LRUReplacer) (h : r.LRU.Nodup) (f : frame_id_t)
    (hv : r.Victim.1 = some f) : f ∉ r.Victim.2.LRU := by
  unfold LRUReplacer.Victim at hv ⊢
  cases hl : r.LRU with
  | nil => simp [hl] at hv
  | cons g rest =>
    simp only [hl] at hv ⊢
    have e : g = f := Option.some.inj hv
    rw [hl, List.nodup_cons] at h
    rw [← e]
    exact h.1

/-- C25: the state invariant of the LRU replacer.  In every state reached from a
new replacer created with num_pages by any sequence of victim, pin and unpin
calls: the eligible list holds no frame id twice; its length, which is the value
of Size(), is at most num_pages; after pin(f) the frame f is not in the list;
after a victim call that returns f the frame f is not in the list.  And in every
replacer state whatever, pin(f) on a replacer that does not contain f changes
nothing. -/
theorem replacer_state_invariant :
    (∀ (n : Nat) (ops : List ReplacerOp),
      ((LRUReplacer.create n).exec ops).2.LRU.Nodup ∧
      ((LRUReplacer.create n).exec ops).2.Size ≤ n ∧
      (∀ f, f ∉ (((LRUReplacer.create n).exec ops).2.Pin f).LRU) ∧
      (∀ f, ((LRUReplacer.create n).exec ops).2.Victim.1 = some f →
        f ∉ ((LRUReplacer.create n).exec ops).2.Victim.2.LRU)) ∧
    (∀ (r : LRUReplacer) (f : frame_id_t), f ∉ r.LRU → r.Pin f = r) := by
  constructor
  · intro n ops
    obtain ⟨a, b, c⟩ := exec_keeps ops (LRUReplacer.create n) List.nodup_nil (Nat.zero_le _)
    refine ⟨a, ?_, ?_, fun f hv => Victim_not_mem _ a f hv⟩
    · show ((LRUReplacer.create n).exec ops).2.LRU.length ≤ n
      rw [c] at b
      exact b
    · intro f hm
      exact ((mem_Pin _ _ _).mp hm).2 rfl
  · intro r f h
    unfold LRUReplacer.Pin
    rw [if_neg h]

/-- C25 (witness): on a replacer of capacity 2 the third unpin is not admitted;
after unpin 5, unpin 6, unpin 7, unpin 5 the list is [5, 6], a victim call
returns 5 and leaves [6]. -/
theorem replacer_state_invariant_witness :
    ((LRUReplacer.create 2).exec
      [ReplacerOp.unpin 5, ReplacerOp.unpin 6, ReplacerOp.unpin 7, ReplacerOp.unpin 5]).2.LRU
        = [5, 6] ∧
    ((LRUReplacer.create 2).exec
      [ReplacerOp.unpin 5, ReplacerOp.unpin 6, ReplacerOp.unpin 7,
        ReplacerOp.unpin 5]).2.Size ≤ 2 ∧
    5 ∉ ((LRUReplacer.create 2).exec
      [ReplacerOp.unpin 5, ReplacerOp.unpin 6, ReplacerOp.unpin 7,
        ReplacerOp.unpin 5]).2.Victim.2.LRU :=
  ⟨by decide,
    (replacer_state_invariant.1 2
      [ReplacerOp.unpin 5, ReplacerOp.unpin 6, ReplacerOp.unpin 7, ReplacerOp.unpin 5]).2.1,
    (replacer_state_invariant.1 2
      [ReplacerOp.unpin 5, ReplacerOp.unpin 6, ReplacerOp.unpin 7,
        ReplacerOp.unpin 5]).2.2.2 5 (by decide)⟩

end bustub
